import Mathlib

/-!
# cmdline.h: the option registry and the parse engine

A shallow embedding of `cmdline::parser` (src/cmdline.h).

* `std::string` and the C strings of `argv` are lists of characters (`Str`);
  a `char` is a `Char`, and the `char` 0 (no short name, end of a C string) is
  `Char.ofNat 0`.  An `argv` entry is a C string, so it holds no character 0.
* The value types `T` of `option_with_value<T>` are embedded in one value
  domain `V`; an option carries the name of its type (`ty`), which is what
  `dynamic_cast` compares in `get<T>`.
* A reader is a function `Str → Option V`; `none` stands for a reader that
  throws an exception derived from `std::exception`, which is what
  `option_with_value::set(value)` catches.
* `std::map<std::string, option_base*>` is an association list in iteration
  (key) order; the object behind a pointer is stored at its key, and a
  mutation through the pointer is an assignment at that key.
* Member functions that mutate the parser take the parser and return the new
  one; `parse` returns its `bool` together with the new parser.
-/

namespace cmdline

abbrev Str := List Char

/-- The class `option_without_value`: a flag. -/
structure option_without_value where
  nam : Str
  snam : Char
  desc : Str
  has : Bool

/-- The class `option_with_value<T>` with its reader
(`option_with_value_with_reader<T, F>`). -/
structure option_with_value (V : Type) where
  ty : Str
  nam : Str
  snam : Char
  need : Bool
  desc : Str
  has : Bool
  dflt : V
  actual : V
  read : Str → Option V

/-- The class `option_base` with its two implementations. -/
inductive option_base (V : Type) where
  | flag (o : option_without_value)
  | value (o : option_with_value V)

namespace option_base

variable {V : Type}

/-- The virtual `has_value()`. -/
def has_value : option_base V → Bool
  | flag _ => false
  | value _ => true

/-- The virtual `set()`: the returned `bool` and the object afterwards. -/
def set : option_base V → Bool × option_base V
  | flag o => (true, flag { o with has := true })
  | value o => (false, value o)

/-- The virtual `set(value)`: the returned `bool` and the object afterwards. -/
def set_value (s : Str) : option_base V → Bool × option_base V
  | flag o => (false, flag o)
  | value o =>
    match o.read s with
    | some v => (true, value { o with actual := v, has := true })
    | none => (false, value o)

/-- The virtual `has_set()`. -/
def has_set : option_base V → Bool
  | flag o => o.has
  | value o => o.has

/-- The virtual `valid()`. -/
def valid : option_base V → Bool
  | flag _ => true
  | value o => if o.need && !o.has then false else true

/-- The virtual `name()`. -/
def name : option_base V → Str
  | flag o => o.nam
  | value o => o.nam

/-- The virtual `short_name()`. -/
def short_name : option_base V → Char
  | flag o => o.snam
  | value o => o.snam

/-- The virtual `description()`. -/
def description : option_base V → Str
  | flag o => o.desc
  | value o => o.desc

end option_base

/-- The data members of `parser`. -/
structure parser (V : Type) where
  options : List (Str × option_base V)
  ordered : List Str
  ftr : Str
  prog_name : Str
  others : List Str
  errors : List Str

variable {V : Type}

/-- The lookup `options.find(name)`; `options.count(name)==0` is `none`. -/
def options_find (name : Str) : List (Str × option_base V) → Option (option_base V)
  | [] => none
  | (k, o) :: rest => if k = name then some o else options_find name rest

/-- The object stored at `name` replaced by `o` (a mutation through
`options[name]`). -/
def options_assign (name : Str) (o : option_base V) :
    List (Str × option_base V) → List (Str × option_base V)
  | [] => []
  | (k, x) :: rest =>
    if k = name then (k, o) :: rest else (k, x) :: options_assign name o rest

/-- The lookup in the `std::map<char, std::string>` of short names. -/
def lookup_find (c : Char) : List (Char × Str) → Option Str
  | [] => none
  | (k, n) :: rest => if k = c then some n else lookup_find c rest

/-- The statement `errors.push_back(msg)`. -/
def push_error (p : parser V) (msg : Str) : parser V :=
  { p with errors := p.errors ++ [msg] }

/-- The private `set_option(name)` (the name `set_option` is reserved in Lean). -/
def set_option_name (name : Str) (p : parser V) : parser V :=
  match options_find name p.options with
  | none => push_error p ("undefined option: --".toList ++ name)
  | some o =>
    let r := o.set
    let p1 := { p with options := options_assign name r.2 p.options }
    if r.1 then p1 else push_error p1 ("option needs value: --".toList ++ name)

/-- The private `set_option(name, value)`. -/
def set_option_value (name value : Str) (p : parser V) : parser V :=
  match options_find name p.options with
  | none => push_error p ("undefined option: --".toList ++ name)
  | some o =>
    let r := o.set_value value
    let p1 := { p with options := options_assign name r.2 p.options }
    if r.1 then p1
    else push_error p1 ("option value is invalid: --".toList ++ name ++ "=".toList ++ value)

/-- The message of the short-name collision in `parse`. -/
def ambiguous_message (c : Char) : Str :=
  "short option ".toList ++ [Char.ofNat 39, c, Char.ofNat 39] ++ " is ambiguous".toList

/-- The first loop of `parse`: the short-name lookup built over the options in
map order, started from `lk`; `Except.error c` is the early exit at a second
option with the short name `c`. -/
def build_lookup : List (Str × option_base V) → List (Char × Str) →
    Except Char (List (Char × Str))
  | [], lk => .ok lk
  | (k, o) :: rest, lk =>
    if k.length = 0 then build_lookup rest lk
    else if o.short_name = Char.ofNat 0 then build_lookup rest lk
    else
      match lookup_find o.short_name lk with
      | some _ => .error o.short_name
      | none => build_lookup rest ((o.short_name, k) :: lk)

/-- The split of the text after `--` at `strchr(argv[i]+2, '=')`: the name and,
when there is a `=`, the value after the first one. -/
def split_eq : Str → Str × Option Str
  | [] => ([], none)
  | c :: cs =>
    if c = '=' then ([], some cs)
    else ((c :: (split_eq cs).1), (split_eq cs).2)

/-- The body of the loop over `j` in the short-option branch, for the character
`argv[i][j-1]`. -/
def short_option (lk : List (Char × Str)) (c : Char) (p : parser V) : parser V :=
  match lookup_find c lk with
  | none => push_error p ("undefined short option: -".toList ++ [c])
  | some name =>
    if name = [] then push_error p ("ambiguous short option: -".toList ++ [c])
    else set_option_name name p

/-- The loop `for (int j=2; argv[i][j]; j++)`: `last` is `argv[i][j-1]` on entry
and the remaining characters start at `argv[i][j]`; it returns the final `last`. -/
def cluster_loop (lk : List (Char × Str)) : Char → List Char → parser V → Char × parser V
  | last, [], p => (last, p)
  | last, c :: cs, p => cluster_loop lk c cs (short_option lk last p)

/-- The test `strncmp(s, "-", 1)==0`. -/
def begins_dash : Str → Bool
  | [] => false
  | c :: _ => decide (c = '-')

/-- The call `options[name]->has_value()` of the short-option branch. Its
`name` comes out of the lookup, so it is declared; an undeclared name has no
object to ask and is given `false` here. -/
def options_has_value (name : Str) (opts : List (Str × option_base V)) : Bool :=
  match options_find name opts with
  | some o => o.has_value
  | none => false

/-- The short-option branch of the scan after the test for a bare `-`:
`c :: cs` are the characters after the `-`, `next` is `argv[i+1]` when
`i+1<argc`. The `Bool` tells whether `next` was consumed (`i++`). -/
def scan_short (lk : List (Char × Str)) (c : Char) (cs : List Char) (next : Option Str)
    (p : parser V) : Bool × parser V :=
  let r := cluster_loop lk c cs p
  match lookup_find r.1 lk with
  | none => (false, push_error r.2 ("undefined short option: -".toList ++ [r.1]))
  | some name =>
    if name = [] then (false, push_error r.2 ("ambiguous short option: -".toList ++ [r.1]))
    else
      match next with
      | none => (false, set_option_name name r.2)
      | some w =>
        if begins_dash w || !(options_has_value name r.2.options) then
          (false, set_option_name name r.2)
        else (true, set_option_value name w r.2)

/-- The body of the scan loop of `parse` for `argv[i] = arg`; `next` is
`argv[i+1]` when `i+1<argc`. The `Bool` tells whether `next` was consumed. -/
def scan_arg (lk : List (Char × Str)) (arg : Str) (next : Option Str) (p : parser V) :
    Bool × parser V :=
  match arg with
  | [] => (false, { p with others := p.others ++ [arg] })
  | c0 :: r0 =>
    if c0 = '-' then
      match r0 with
      | [] => (false, p)
      | c1 :: r1 =>
        if c1 = '-' then
          match split_eq r1 with
          | (name, some val) => (false, set_option_value name val p)
          | (name, none) => (false, set_option_name name p)
        else scan_short lk c1 r1 next p
    else (false, { p with others := p.others ++ [arg] })

/-- The scan loop `for (int i=1; i<argc; i++)` over the arguments that remain. -/
def scan (lk : List (Char × Str)) : List Str → parser V → parser V
  | [], p => p
  | [arg], p => (scan_arg lk arg none p).2
  | arg :: w :: tail, p =>
    if (scan_arg lk arg (some w) p).1 then scan lk tail (scan_arg lk arg (some w) p).2
    else scan lk (w :: tail) (scan_arg lk arg (some w) p).2

/-- The messages of the last loop of `parse`, over the options in map order. -/
def need_errors : List (Str × option_base V) → List Str
  | [] => []
  | (k, o) :: rest =>
    if o.valid then need_errors rest
    else ("need option: --".toList ++ k) :: need_errors rest

/-- The state of `parse` after `errors.clear(); others.clear();`. -/
def clear (p : parser V) : parser V :=
  { p with errors := [], others := [] }

/-- The state of `parse` after `prog_name=argv[0];`. -/
def start (p : parser V) (prog : Str) : parser V :=
  { clear p with prog_name := prog }

/-- The last loop of `parse`: one message for every option that is not valid. -/
def validate (p : parser V) : parser V :=
  { p with errors := p.errors ++ need_errors p.options }

/-- The member `parse(argc, argv)` with `argc` the length of `argv`: the
returned `bool` and the parser afterwards. -/
def parse (p : parser V) (argv : List Str) : Bool × parser V :=
  match argv with
  | [] => (false, push_error (clear p) "argument number must be longer than 0".toList)
  | prog :: args =>
    match build_lookup (start p prog).options [] with
    | .error c => (false, push_error (start p prog) (ambiguous_message c))
    | .ok lk =>
      (decide ((validate (scan lk args (start p prog))).errors.length = 0),
        validate (scan lk args (start p prog)))

/-- The member `error()`: every error followed by `std::endl`. -/
def error (p : parser V) : Str :=
  (p.errors.map (fun e => e ++ [Char.ofNat 10])).flatten

/-- The member `rest()`. -/
def rest (p : parser V) : List Str :=
  p.others

/-- The member `exist(name)`; `Except.error` is the thrown `cmdline_error`. -/
def exist (p : parser V) (name : Str) : Except Str Bool :=
  match options_find name p.options with
  | none => .error ("there is no flag: --".toList ++ name)
  | some o => .ok o.has_set

/-- The member `get<T>(name)`, `T` given by its type name; `Except.error` is the
thrown `cmdline_error`. -/
def get (p : parser V) (T : Str) (name : Str) : Except Str V :=
  match options_find name p.options with
  | none => .error ("there is no flag: --".toList ++ name)
  | some (.flag _) =>
    .error ("type mismatch flag ".toList ++ [Char.ofNat 39] ++ name ++ [Char.ofNat 39])
  | some (.value o) =>
    if o.ty = T then .ok o.actual
    else .error ("type mismatch flag ".toList ++ [Char.ofNat 39] ++ name ++ [Char.ofNat 39])

/-- The assignment `options[name]=o` in the `std::map`: the object at `name` is
replaced, or `name` is inserted at its place in the order of the keys. -/
def options_insert (name : Str) (o : option_base V) :
    List (Str × option_base V) → List (Str × option_base V)
  | [] => [(name, o)]
  | (k, x) :: rest =>
    if k = name then (k, o) :: rest
    else if name < k then (name, o) :: (k, x) :: rest
    else (k, x) :: options_insert name o rest

/-- The body that the three `add` share, for the object `o` that each of them
constructs: `Except.error` is the thrown `cmdline_error`. -/
def add_option (name : Str) (o : option_base V) (p : parser V) : Except Str (parser V) :=
  match options_find name p.options with
  | some _ => .error ("multiple definition: ".toList ++ name)
  | none =>
    .ok { p with options := options_insert name o p.options,
                 ordered := p.ordered ++ [name] }

/-- The member `add(name, short_name, desc)`: a flag. -/
def add (p : parser V) (name : Str) (short_name : Char) (desc : Str) :
    Except Str (parser V) :=
  add_option name (.flag { nam := name, snam := short_name, desc := desc, has := false }) p

/-- The member `full_description(desc)` of `option_with_value<T>`: `ty` is
`readable_typename<T>()` and `textual` is `lexical_cast<std::string>` on `T`. -/
def full_description (ty : Str) (textual : V → Str) (desc : Str) (need : Bool) (dflt : V) :
    Str :=
  desc ++ "(".toList ++ ty ++ (if need then [] else "[=".toList ++ textual dflt ++ "]".toList)
    ++ ")".toList

/-- The member `add<T, F>(name, short_name, desc, need, def, reader)`: a value
option of the type named `ty` with the reader `reader`. -/
def add_reader (p : parser V) (ty : Str) (textual : V → Str) (name : Str)
    (short_name : Char) (desc : Str) (need : Bool) (dflt : V) (reader : Str → Option V) :
    Except Str (parser V) :=
  add_option name
    (.value { ty := ty, nam := name, snam := short_name, need := need,
              desc := full_description ty textual desc need dflt, has := false,
              dflt := dflt, actual := dflt, read := reader }) p

/-- The member `add<T>(name, short_name, desc, need, def)`: a value option of
the type named `ty` with the reader `detail::lexical_caster<T>()`, given as
`caster`. -/
def add_value (p : parser V) (ty : Str) (textual : V → Str) (caster : Str → Option V)
    (name : Str) (short_name : Char) (desc : Str) (need : Bool) (dflt : V) :
    Except Str (parser V) :=
  add_reader p ty textual name short_name desc need dflt caster

/-- The conversion `detail::lexical_cast<T>(const std::string&)` for a `T` other
than `std::string`: `extract` is `ss>>ret` of the standard library, which gives
the value read and whether the stream is at `eof()` afterwards, or `none` when
it fails; `none` is the thrown `std::bad_cast`. -/
def lexical_cast (extract : Str → Option (V × Bool)) (s : Str) : Option V :=
  match extract s with
  | some (ret, true) => some ret
  | _ => none

/-- The functor `range_reader<T>` made by `range(low, high)`: `cast` is
`detail::lexical_cast<T>`, and `none` is a thrown exception, the one of the
conversion or `cmdline_error("range_error")`. -/
def range_reader [LE V] [DecidableRel (fun a b : V => a ≤ b)]
    (cast : Str → Option V) (low high : V) (s : Str) : Option V :=
  match cast s with
  | none => none
  | some ret => if !(decide (ret ≥ low) && decide (ret ≤ high)) then none else some ret

/-- The function `range(low, high)`. -/
def range [LE V] [DecidableRel (fun a b : V => a ≤ b)]
    (cast : Str → Option V) (low high : V) : Str → Option V :=
  range_reader cast low high

/-! ## Vocabulary of the statements -/

/-- The keys of the map `options`, in map order. -/
def keys (opts : List (Str × option_base V)) : List Str :=
  opts.map Prod.fst

/-- The parser `p` with the errors `e` put in front of its error list. -/
def prepend (e : List Str) (p : parser V) : parser V :=
  { p with errors := e ++ p.errors }

/-- What the setters can turn an option into: a flag stays as it is or gets
set; a value option stays as it is or gets a value read and is set. -/
def evolved : option_base V → option_base V → Prop
  | .flag f, .flag g => g = f ∨ g = { f with has := true }
  | .value o, .value o2 => o2 = o ∨ ∃ v, o2 = { o with actual := v, has := true }
  | _, _ => False

/-- What a scan can turn a parser into: the same keys, every option evolved,
errors and positional arguments appended; no appended error starts with the
letter of the `need option` messages. -/
def steps (p q : parser V) : Prop :=
  keys q.options = keys p.options ∧
  (∃ es, q.errors = p.errors ++ es ∧ ∀ m ∈ es, m.head? ≠ some 'n') ∧
  (∃ os, q.others = p.others ++ os) ∧
  ∀ n o, options_find n p.options = some o →
    ∃ o2, options_find n q.options = some o2 ∧ evolved o o2

/-- The parser after the loop over `j` has handled the characters `lead` of a
cluster, all but the last character of the cluster. -/
abbrev leading (lk : List (Char × Str)) (lead : List Char) (p : parser V) : parser V :=
  lead.foldl (fun q ch => short_option lk ch q) p

/-- In the words of the specification: `arg` is a short option cluster (it
begins with `-`, not with `--`, and has a character after the `-`) whose last
character resolves to a value option, which is a declared option with a
non-empty long name and that non-zero short name that accepts a value. -/
def takes_value (opts : List (Str × option_base V)) (arg : Str) : Bool :=
  match arg with
  | c0 :: c1 :: cs =>
    decide (c0 = '-') && !decide (c1 = '-') &&
      opts.any (fun ko => !ko.1.isEmpty && decide (ko.2.short_name = cs.getLastD c1) &&
        !decide (cs.getLastD c1 = Char.ofNat 0) && ko.2.has_value)
  | _ => false

/-- The string `s` begins with the string `pre`. -/
def starts_with : Str → Str → Bool
  | [], _ => true
  | _ :: _, [] => false
  | a :: as, b :: bs => decide (a = b) && starts_with as bs

/-- In the words of the claims: the argument `arg` mentions the option with the
long name `N` and the short name `c`: it is `--N`, or it begins with `--N=`, or
it is a cluster (it begins with `-`, not with `--`) with `c`, which is not 0,
among its characters. -/
def mentions (N : Str) (c : Char) (arg : Str) : Bool :=
  decide (arg = "--".toList ++ N) || starts_with ("--".toList ++ N ++ "=".toList) arg ||
    (match arg with
      | c0 :: c1 :: cs =>
        decide (c0 = '-') && !decide (c1 = '-') && !decide (c = Char.ofNat 0) &&
          decide (c ∈ c1 :: cs)
      | _ => false)

/-- The declaration of an option: the object as its constructor leaves it, not
set and, for a value option, with the default as its value. -/
def declared : option_base V → option_base V
  | .flag f => .flag { f with has := false }
  | .value o => .value { o with has := false, actual := o.dflt }

/-- Two declarations of the map with non-empty long names share the non-zero
short name `c`. -/
def shares (opts : List (Str × option_base V)) (c : Char) : Prop :=
  c ≠ Char.ofNat 0 ∧
  ∃ l1 k1 o1 l2 k2 o2 l3, opts = l1 ++ (k1, o1) :: (l2 ++ (k2, o2) :: l3) ∧
    k1 ≠ [] ∧ k2 ≠ [] ∧ o1.short_name = c ∧ o2.short_name = c

/-- The members of a parser that no `parse` assigns after `prog_name`. -/
def static (p : parser V) : List Str × Str × Str :=
  (p.ordered, p.ftr, p.prog_name)

/-- Two parsers with the same declarations: they differ at most in the values
and the has-set flags of their options. -/
def same_declarations (a b : parser V) : Prop :=
  static a = static b ∧ a.others = b.others ∧ a.errors = b.errors ∧
  keys a.options = keys b.options ∧
  ∀ n, (options_find n a.options).map declared = (options_find n b.options).map declared

/-- The parsers `a2` and `b2` come from `a` and `b` by the same steps: they
have the same declarations, and every option is the same in both or was
touched in neither. -/
def tracks (a b a2 b2 : parser V) : Prop :=
  same_declarations a2 b2 ∧
  ∀ m, options_find m b2.options = options_find m a2.options ∨
    (options_find m b2.options = options_find m b.options ∧
      options_find m a2.options = options_find m a.options)

/-- In the words of the claims: the value that the argument `arg` supplies for
the option `N` in the form `--N=v`, the text after `--` split at its first `=`. -/
def long_value (N : Str) (arg : Str) : Option Str :=
  match arg with
  | c0 :: c1 :: body =>
    if c0 = '-' ∧ c1 = '-' then
      match split_eq body with
      | (n, some v) => if n = N then some v else none
      | (_, none) => none
    else none
  | _ => none

/-- In the words of the claims: `arg` is a cluster (it begins with `-`, not with
`--`) whose last character is the short name `c`, which is not 0, of the option
with the non-empty long name `N`. -/
def cluster_for (N : Str) (c : Char) (arg : Str) : Bool :=
  match arg with
  | c0 :: c1 :: cs =>
    decide (c0 = '-') && !decide (c1 = '-') && !N.isEmpty &&
      !decide (c = Char.ofNat 0) && decide (cs.getLastD c1 = c)
  | _ => false

/-- In the words of the claims: the values that the arguments supply for the
option with the long name `N` and the short name `c`, in their order: the `v`
of an argument `--N=v`, and an argument that does not begin with `-` and
directly follows a cluster whose last character is `c`; `prev` is the argument
before the list, if there is one. -/
def supplied (N : Str) (c : Char) : Option Str → List Str → List Str
  | _, [] => []
  | prev, a :: as =>
    (match long_value N a with
      | some v => [v]
      | none => []) ++
    (if !begins_dash a &&
        (match prev with
          | some b => cluster_for N c b
          | none => false) then [a] else []) ++
    supplied N c (some a) as

/-! ## Example registries -/

/-- Values of the example registries: an `int` or a `std::string`. -/
inductive Value where
  | int (i : Int)
  | str (s : Str)
  deriving DecidableEq

/-- The number written by a string of decimal digits, after `acc`. -/
def digits_value : List Char → Nat → Option Nat
  | [], acc => some acc
  | c :: cs, acc =>
    if c.isDigit then digits_value cs (acc * 10 + (c.toNat - 48)) else none

/-- A reader for `int`: decimal digits with an optional leading `-`. -/
def read_number : Str → Option Value
  | [] => none
  | c :: cs =>
    if c = '-' then
      if cs = [] then none
      else (digits_value cs 0).map (fun n => Value.int (-(n : Int)))
    else (digits_value (c :: cs) 0).map (fun n => Value.int (n : Int))

/-- The reader of a `std::string` option: the identity conversion. -/
def read_string : Str → Option Value :=
  fun s => some (Value.str s)

/-- The options of the registry with the flag `--verbose`/`-v`, the required
string `--output`/`-o` and the optional int `--count`/`-c` with default 1. -/
def sample_options : List (Str × option_base Value) :=
  [ ("count".toList, option_base.value
      { ty := "int".toList, nam := "count".toList, snam := 'c', need := false,
        desc := "count (int [=1])".toList, has := false,
        dflt := Value.int 1, actual := Value.int 1, read := read_number }),
    ("output".toList, option_base.value
      { ty := "string".toList, nam := "output".toList, snam := 'o', need := true,
        desc := "output (string)".toList, has := false,
        dflt := Value.str [], actual := Value.str [], read := read_string }),
    ("verbose".toList, option_base.flag
      { nam := "verbose".toList, snam := 'v', desc := "verbose".toList, has := false }) ]

/-- The registry of `sample_options`, freshly built. -/
def sample : parser Value :=
  { options := sample_options,
    ordered := ["verbose".toList, "output".toList, "count".toList],
    ftr := [], prog_name := [], others := [], errors := [] }

/-- The short-name lookup that `parse` builds for `sample`. -/
def sample_lookup : List (Char × Str) :=
  [('v', "verbose".toList), ('o', "output".toList), ('c', "count".toList)]

/-- A registry in which the flags `--all` and `--any` share the short name `a`,
next to the required int `--num`/`-n`. -/
def clash : parser Value :=
  { options :=
      [ ("all".toList, option_base.flag
          { nam := "all".toList, snam := 'a', desc := [], has := false }),
        ("any".toList, option_base.flag
          { nam := "any".toList, snam := 'a', desc := [], has := false }),
        ("num".toList, option_base.value
          { ty := "int".toList, nam := "num".toList, snam := 'n', need := true,
            desc := "(int)".toList, has := false,
            dflt := Value.int 7, actual := Value.int 7, read := read_number }) ],
    ordered := ["all".toList, "any".toList, "num".toList],
    ftr := [], prog_name := [], others := [], errors := [] }

/-- A registry with the optional int `--`/`-e`, whose long name is empty, and the
optional int `--dash` with the short name `-`. -/
def odd : parser Value :=
  { options :=
      [ ([], option_base.value
          { ty := "int".toList, nam := [], snam := 'e', need := false,
            desc := "(int [=0])".toList, has := false,
            dflt := Value.int 0, actual := Value.int 0, read := read_number }),
        ("dash".toList, option_base.value
          { ty := "int".toList, nam := "dash".toList, snam := '-', need := false,
            desc := "(int [=0])".toList, has := false,
            dflt := Value.int 0, actual := Value.int 0, read := read_number }) ],
    ordered := [[], "dash".toList],
    ftr := [], prog_name := [], others := [], errors := [] }

/-- A reader for `int` with values in `Int`: decimal digits with an optional
leading `-`. -/
def read_int : Str → Option Int
  | [] => none
  | c :: cs =>
    if c = '-' then
      if cs = [] then none
      else (digits_value cs 0).map (fun n => -(n : Int))
    else (digits_value (c :: cs) 0).map (fun n => (n : Int))

/-- A registry over `Int` with the optional int `--port`/`-p`, default 80, read
by `range(1, 65535)` over `read_int`. -/
def ranged : parser Int :=
  { options :=
      [ ("port".toList, option_base.value
          { ty := "int".toList, nam := "port".toList, snam := 'p', need := false,
            desc := "(int [=80])".toList, has := false,
            dflt := 80, actual := 80, read := range read_int 1 65535 }) ],
    ordered := ["port".toList],
    ftr := [], prog_name := [], others := [], errors := [] }

/-- A registry in which the flag with the empty long name and the flag `--foo`
share the short name `c`. -/
def hidden : parser Value :=
  { options :=
      [ ([], option_base.flag { nam := [], snam := 'c', desc := [], has := false }),
        ("foo".toList, option_base.flag
          { nam := "foo".toList, snam := 'c', desc := [], has := false }) ],
    ordered := [[], "foo".toList],
    ftr := [], prog_name := [], others := [], errors := [] }

/-- A registry in which the flags `--a1` and `--a2` share the short name `a` and
the flags `--c1` and `--c2` share the short name `c`. -/
def double : parser Value :=
  { options :=
      [ ("a1".toList, option_base.flag
          { nam := "a1".toList, snam := 'a', desc := [], has := false }),
        ("a2".toList, option_base.flag
          { nam := "a2".toList, snam := 'a', desc := [], has := false }),
        ("c1".toList, option_base.flag
          { nam := "c1".toList, snam := 'c', desc := [], has := false }),
        ("c2".toList, option_base.flag
          { nam := "c2".toList, snam := 'c', desc := [], has := false }) ],
    ordered := ["a1".toList, "a2".toList, "c1".toList, "c2".toList],
    ftr := [], prog_name := [], others := [], errors := [] }

/-- A registry with the optional int `--a=b`/`-e`, whose long name holds a `=`. -/
def eqname : parser Value :=
  { options :=
      [ ("a=b".toList, option_base.value
          { ty := "int".toList, nam := "a=b".toList, snam := 'e', need := false,
            desc := "(int [=0])".toList, has := false,
            dflt := Value.int 0, actual := Value.int 0, read := read_number }) ],
    ordered := ["a=b".toList],
    ftr := [], prog_name := [], others := [], errors := [] }

/-- A registry over `Int` with the required int `--port`/`-p`, default 80, read
by `range(1, 65535)` over `read_int`. -/
def needs_port : parser Int :=
  { options :=
      [ ("port".toList, option_base.value
          { ty := "int".toList, nam := "port".toList, snam := 'p', need := true,
            desc := "(int)".toList, has := false,
            dflt := 80, actual := 80, read := range read_int 1 65535 }) ],
    ordered := ["port".toList],
    ftr := [], prog_name := [], others := [], errors := [] }

/-! ## Error lists -/

section basics

variable {V : Type}

@[simp] theorem push_error_options (p : parser V) (m : Str) :
    (push_error p m).options = p.options := rfl

@[simp] theorem push_error_others (p : parser V) (m : Str) :
    (push_error p m).others = p.others := rfl

@[simp] theorem push_error_errors (p : parser V) (m : Str) :
    (push_error p m).errors = p.errors ++ [m] := rfl

@[simp] theorem validate_options (p : parser V) : (validate p).options = p.options := rfl

@[simp] theorem validate_errors (p : parser V) :
    (validate p).errors = p.errors ++ need_errors p.options := rfl

@[simp] theorem start_options (p : parser V) (prog : Str) :
    (start p prog).options = p.options := rfl

@[simp] theorem start_errors (p : parser V) (prog : Str) : (start p prog).errors = [] := rfl

theorem error_eq_nil_iff (p : parser V) : error p = [] ↔ p.errors = [] := by
  unfold error
  cases h : p.errors with
  | nil => simp
  | cons e es => simp

/-- When the short names do not collide, `parse` is the scan followed by the
validation of the required options. -/
theorem parse_of_lookup (p : parser V) (prog : Str) (args : List Str)
    (lk : List (Char × Str)) (h : build_lookup p.options [] = .ok lk) :
    parse p (prog :: args) =
      (decide ((validate (scan lk args (start p prog))).errors.length = 0),
        validate (scan lk args (start p prog))) := by
  simp only [parse, start_options, h]

/-- When two short names collide, `parse` stops with the one message. -/
theorem parse_of_clash (p : parser V) (prog : Str) (args : List Str)
    (c : Char) (h : build_lookup p.options [] = .error c) :
    parse p (prog :: args) = (false, push_error (start p prog) (ambiguous_message c)) := by
  simp only [parse, start_options, h]

end basics

/-! ## The map of options -/

section options_map

variable {V : Type}

theorem options_find_assign (m n : Str) (o : option_base V)
    (opts : List (Str × option_base V)) :
    options_find m (options_assign n o opts) =
      if m = n then (options_find n opts).map (fun _ => o) else options_find m opts := by
  induction opts with
  | nil => simp [options_find, options_assign]
  | cons x rest ih =>
    obtain ⟨k, y⟩ := x
    by_cases hk : k = n
    · subst hk
      by_cases hm : m = k
      · subst hm; simp [options_find, options_assign]
      · have hm2 : ¬ k = m := fun h => hm h.symm
        simp [options_find, options_assign, hm, hm2]
    · by_cases hm : m = n
      · subst hm
        simp [options_find, options_assign, hk, ih]
      · by_cases hkm : k = m
        · simp [options_find, options_assign, hk, hm, hkm]
        · simp [options_find, options_assign, hk, hm, hkm, ih]

@[simp] theorem keys_nil : keys ([] : List (Str × option_base V)) = [] := rfl

@[simp] theorem keys_cons (k : Str) (y : option_base V) (rest : List (Str × option_base V)) :
    keys ((k, y) :: rest) = k :: keys rest := rfl

theorem keys_assign (n : Str) (o : option_base V) (opts : List (Str × option_base V)) :
    keys (options_assign n o opts) = keys opts := by
  induction opts with
  | nil => rfl
  | cons x rest ih =>
    obtain ⟨k, y⟩ := x
    by_cases hk : k = n
    · simp [options_assign, hk]
    · simp [options_assign, hk, ih]

theorem options_assign_self (n : Str) (o : option_base V)
    (opts : List (Str × option_base V)) (h : options_find n opts = some o) :
    options_assign n o opts = opts := by
  induction opts with
  | nil => rfl
  | cons x rest ih =>
    obtain ⟨k, y⟩ := x
    by_cases hk : k = n
    · simp [options_find, hk] at h
      simp [options_assign, hk, h]
    · simp [options_find, hk] at h
      simp [options_assign, hk, ih h]

theorem options_find_mem (n : Str) (o : option_base V)
    (opts : List (Str × option_base V)) (h : options_find n opts = some o) :
    (n, o) ∈ opts := by
  induction opts with
  | nil => simp [options_find] at h
  | cons x rest ih =>
    obtain ⟨k, y⟩ := x
    by_cases hk : k = n
    · simp [options_find, hk] at h
      simp [hk, h]
    · simp [options_find, hk] at h
      exact List.mem_cons_of_mem _ (ih h)

theorem options_find_none_iff (n : Str) (opts : List (Str × option_base V)) :
    options_find n opts = none ↔ n ∉ keys opts := by
  induction opts with
  | nil => simp [options_find]
  | cons x rest ih =>
    obtain ⟨k, y⟩ := x
    by_cases hk : k = n
    · simp [options_find, hk]
    · have hk2 : ¬ n = k := fun h => hk h.symm
      simp [options_find, hk, hk2, ih]

theorem options_find_of_mem (n : Str) (o : option_base V)
    (opts : List (Str × option_base V)) (hu : (keys opts).Nodup) (h : (n, o) ∈ opts) :
    options_find n opts = some o := by
  induction opts with
  | nil => simp at h
  | cons x rest ih =>
    obtain ⟨k, y⟩ := x
    have hu2 : k ∉ keys rest ∧ (keys rest).Nodup := by
      simpa using hu
    rcases List.mem_cons.mp h with h1 | h1
    · have hk : k = n := (congrArg Prod.fst h1).symm
      have hy : y = o := (congrArg Prod.snd h1).symm
      simp [options_find, hk, hy]
    · have hk : ¬ k = n := by
        intro hk
        apply hu2.1
        rw [hk]
        exact List.mem_map_of_mem Prod.fst h1
      simp [options_find, hk, ih hu2.2 h1]

end options_map

/-! ## The setters -/

section setters

variable {V : Type}

theorem set_option_name_undefined (n : Str) (p : parser V)
    (h : options_find n p.options = none) :
    set_option_name n p = push_error p ("undefined option: --".toList ++ n) := by
  simp [set_option_name, h]

theorem set_option_name_flag (n : Str) (p : parser V) (f : option_without_value)
    (h : options_find n p.options = some (.flag f)) :
    set_option_name n p =
      { p with options := options_assign n (.flag { f with has := true }) p.options } := by
  simp [set_option_name, h, option_base.set]

theorem set_option_name_value (n : Str) (p : parser V) (o : option_with_value V)
    (h : options_find n p.options = some (.value o)) :
    set_option_name n p = push_error p ("option needs value: --".toList ++ n) := by
  simp [set_option_name, h, option_base.set, options_assign_self n _ _ h]

theorem set_option_value_undefined (n v : Str) (p : parser V)
    (h : options_find n p.options = none) :
    set_option_value n v p = push_error p ("undefined option: --".toList ++ n) := by
  simp [set_option_value, h]

theorem set_option_value_flag (n v : Str) (p : parser V) (f : option_without_value)
    (h : options_find n p.options = some (.flag f)) :
    set_option_value n v p =
      push_error p ("option value is invalid: --".toList ++ n ++ "=".toList ++ v) := by
  simp [set_option_value, h, option_base.set_value, options_assign_self n _ _ h]

theorem set_option_value_rejected (n v : Str) (p : parser V) (o : option_with_value V)
    (h : options_find n p.options = some (.value o)) (hr : o.read v = none) :
    set_option_value n v p =
      push_error p ("option value is invalid: --".toList ++ n ++ "=".toList ++ v) := by
  simp [set_option_value, h, option_base.set_value, hr, options_assign_self n _ _ h]

theorem set_option_value_accepted (n v : Str) (p : parser V) (o : option_with_value V)
    (r : V) (h : options_find n p.options = some (.value o)) (hr : o.read v = some r) :
    set_option_value n v p =
      { p with options :=
          options_assign n (.value { o with actual := r, has := true }) p.options } := by
  simp [set_option_value, h, option_base.set_value, hr]

end setters

/-! ## What a scan preserves -/

section preserved

variable {V : Type}

theorem evolved_refl (o : option_base V) : evolved o o := by
  cases o with
  | flag f => exact Or.inl rfl
  | value o => exact Or.inl rfl

theorem evolved_trans {a b c : option_base V} (h1 : evolved a b) (h2 : evolved b c) :
    evolved a c := by
  cases a with
  | flag f =>
    cases b with
    | value _ => exact h1.elim
    | flag g =>
      cases c with
      | value _ => exact h2.elim
      | flag k =>
        rcases h1 with h1 | h1 <;> rcases h2 with h2 | h2
        · left; rw [h2, h1]
        · right; rw [h2, h1]
        · right; rw [h2, h1]
        · right; rw [h2, h1]
  | value o =>
    cases b with
    | flag _ => exact h1.elim
    | value o1 =>
      cases c with
      | flag _ => exact h2.elim
      | value o2 =>
        rcases h1 with h1 | ⟨v1, h1⟩ <;> rcases h2 with h2 | ⟨v2, h2⟩
        · left; rw [h2, h1]
        · right; exact ⟨v2, by rw [h2, h1]⟩
        · right; exact ⟨v1, by rw [h2, h1]⟩
        · right; exact ⟨v2, by rw [h2, h1]⟩

theorem evolved_has_value {a b : option_base V} (h : evolved a b) :
    b.has_value = a.has_value := by
  cases a <;> cases b <;> first | rfl | exact h.elim

theorem evolved_short_name {a b : option_base V} (h : evolved a b) :
    b.short_name = a.short_name := by
  cases a with
  | flag f =>
    cases b with
    | value _ => exact h.elim
    | flag g => rcases h with h | h <;> subst h <;> rfl
  | value o =>
    cases b with
    | flag _ => exact h.elim
    | value o2 => rcases h with h | ⟨v, h⟩ <;> subst h <;> rfl

theorem evolved_has_set {a b : option_base V} (h : evolved a b) (hs : a.has_set = true) :
    b.has_set = true := by
  cases a with
  | flag f =>
    cases b with
    | value _ => exact h.elim
    | flag g => rcases h with h | h <;> rw [h] <;> first | exact hs | rfl
  | value o =>
    cases b with
    | flag _ => exact h.elim
    | value o2 => rcases h with h | ⟨v, h⟩ <;> rw [h] <;> first | exact hs | rfl

theorem steps_refl (p : parser V) : steps p p :=
  ⟨rfl, ⟨[], by simp, by simp⟩, ⟨[], by simp⟩, fun _ o h => ⟨o, h, evolved_refl o⟩⟩

theorem steps_trans {p q r : parser V} (h1 : steps p q) (h2 : steps q r) : steps p r := by
  obtain ⟨k1, ⟨e1, he1, hn1⟩, ⟨o1, ho1⟩, f1⟩ := h1
  obtain ⟨k2, ⟨e2, he2, hn2⟩, ⟨o2, ho2⟩, f2⟩ := h2
  refine ⟨k2.trans k1, ⟨e1 ++ e2, ?_, ?_⟩, ⟨o1 ++ o2, ?_⟩, ?_⟩
  · rw [he2, he1, List.append_assoc]
  · intro m hm
    rcases List.mem_append.mp hm with h | h
    · exact hn1 m h
    · exact hn2 m h
  · rw [ho2, ho1, List.append_assoc]
  · intro n o h
    obtain ⟨x, hx, ex⟩ := f1 n o h
    obtain ⟨y, hy, ey⟩ := f2 n x hx
    exact ⟨y, hy, evolved_trans ex ey⟩

theorem steps_push_error (p : parser V) (m : Str) (hm : m.head? ≠ some 'n') :
    steps p (push_error p m) :=
  ⟨rfl, ⟨[m], rfl, by simpa using hm⟩, ⟨[], by simp⟩, fun _ o h => ⟨o, h, evolved_refl o⟩⟩

theorem steps_others (p : parser V) (a : Str) :
    steps p { p with others := p.others ++ [a] } :=
  ⟨rfl, ⟨[], by simp, by simp⟩, ⟨[a], rfl⟩, fun _ o h => ⟨o, h, evolved_refl o⟩⟩

theorem steps_assign (p : parser V) (n : Str) (o o2 : option_base V)
    (h : options_find n p.options = some o) (he : evolved o o2) :
    steps p { p with options := options_assign n o2 p.options } := by
  refine ⟨keys_assign n o2 p.options, ⟨[], by simp, by simp⟩, ⟨[], by simp⟩, ?_⟩
  intro m x hx
  by_cases hmn : m = n
  · subst hmn
    rw [h] at hx
    cases hx
    exact ⟨o2, by simp [options_find_assign, h], he⟩
  · exact ⟨x, by simp [options_find_assign, hmn, hx], evolved_refl x⟩

theorem steps_set_option_name (n : Str) (p : parser V) : steps p (set_option_name n p) := by
  cases h : options_find n p.options with
  | none =>
    rw [set_option_name_undefined n p h]
    exact steps_push_error p _ (by simp)
  | some o =>
    cases o with
    | flag f =>
      rw [set_option_name_flag n p f h]
      exact steps_assign p n _ _ h (Or.inr rfl)
    | value o =>
      rw [set_option_name_value n p o h]
      exact steps_push_error p _ (by simp)

theorem steps_set_option_value (n v : Str) (p : parser V) :
    steps p (set_option_value n v p) := by
  cases h : options_find n p.options with
  | none =>
    rw [set_option_value_undefined n v p h]
    exact steps_push_error p _ (by simp)
  | some o =>
    cases o with
    | flag f =>
      rw [set_option_value_flag n v p f h]
      exact steps_push_error p _ (by simp)
    | value o =>
      cases hr : o.read v with
      | none =>
        rw [set_option_value_rejected n v p o h hr]
        exact steps_push_error p _ (by simp)
      | some r =>
        rw [set_option_value_accepted n v p o r h hr]
        exact steps_assign p n _ _ h (Or.inr ⟨r, rfl⟩)

theorem steps_short_option (lk : List (Char × Str)) (c : Char) (p : parser V) :
    steps p (short_option lk c p) := by
  unfold short_option
  cases lookup_find c lk with
  | none => exact steps_push_error p _ (by simp)
  | some name =>
    by_cases hn : name = []
    · simp only [hn, if_true]
      exact steps_push_error p _ (by simp)
    · simp only [hn, if_false]
      exact steps_set_option_name name p

theorem steps_cluster_loop (lk : List (Char × Str)) (c : Char) (cs : List Char)
    (p : parser V) : steps p (cluster_loop lk c cs p).2 := by
  induction cs generalizing c p with
  | nil => exact steps_refl p
  | cons x xs ih =>
    exact steps_trans (steps_short_option lk c p) (ih x (short_option lk c p))

theorem scan_short_undefined (lk : List (Char × Str)) (c : Char) (cs : List Char)
    (next : Option Str) (p : parser V)
    (h : lookup_find (cluster_loop lk c cs p).1 lk = none) :
    scan_short lk c cs next p =
      (false, push_error (cluster_loop lk c cs p).2
        ("undefined short option: -".toList ++ [(cluster_loop lk c cs p).1])) := by
  simp only [scan_short, h]

theorem scan_short_ambiguous (lk : List (Char × Str)) (c : Char) (cs : List Char)
    (next : Option Str) (p : parser V)
    (h : lookup_find (cluster_loop lk c cs p).1 lk = some []) :
    scan_short lk c cs next p =
      (false, push_error (cluster_loop lk c cs p).2
        ("ambiguous short option: -".toList ++ [(cluster_loop lk c cs p).1])) := by
  simp only [scan_short, h, if_true]

theorem scan_short_last (lk : List (Char × Str)) (c : Char) (cs : List Char)
    (p : parser V) (name : Str)
    (h : lookup_find (cluster_loop lk c cs p).1 lk = some name) (hn : name ≠ []) :
    scan_short lk c cs none p = (false, set_option_name name (cluster_loop lk c cs p).2) := by
  simp only [scan_short, h, hn, if_false]

theorem scan_short_keep (lk : List (Char × Str)) (c : Char) (cs : List Char)
    (w : Str) (p : parser V) (name : Str)
    (h : lookup_find (cluster_loop lk c cs p).1 lk = some name) (hn : name ≠ [])
    (hc : (begins_dash w ||
      !(options_has_value name (cluster_loop lk c cs p).2.options)) = true) :
    scan_short lk c cs (some w) p =
      (false, set_option_name name (cluster_loop lk c cs p).2) := by
  simp only [scan_short, h, hn, if_false, hc, if_true]

theorem scan_short_consume (lk : List (Char × Str)) (c : Char) (cs : List Char)
    (w : Str) (p : parser V) (name : Str)
    (h : lookup_find (cluster_loop lk c cs p).1 lk = some name) (hn : name ≠ [])
    (hc : (begins_dash w ||
      !(options_has_value name (cluster_loop lk c cs p).2.options)) = false) :
    scan_short lk c cs (some w) p =
      (true, set_option_value name w (cluster_loop lk c cs p).2) := by
  simp only [scan_short, h, hn, if_false, hc, Bool.false_eq_true]

theorem steps_scan_short (lk : List (Char × Str)) (c : Char) (cs : List Char)
    (next : Option Str) (p : parser V) : steps p (scan_short lk c cs next p).2 := by
  have h0 := steps_cluster_loop lk c cs p
  cases h : lookup_find (cluster_loop lk c cs p).1 lk with
  | none =>
    rw [scan_short_undefined lk c cs next p h]
    exact steps_trans h0 (steps_push_error _ _ (by simp))
  | some name =>
    by_cases hn : name = []
    · rw [hn] at h
      rw [scan_short_ambiguous lk c cs next p h]
      exact steps_trans h0 (steps_push_error _ _ (by simp))
    · cases next with
      | none =>
        rw [scan_short_last lk c cs p name h hn]
        exact steps_trans h0 (steps_set_option_name name _)
      | some w =>
        cases hc : (begins_dash w ||
            !(options_has_value name (cluster_loop lk c cs p).2.options)) with
        | true =>
          rw [scan_short_keep lk c cs w p name h hn hc]
          exact steps_trans h0 (steps_set_option_name name _)
        | false =>
          rw [scan_short_consume lk c cs w p name h hn hc]
          exact steps_trans h0 (steps_set_option_value name w _)

theorem steps_scan_arg (lk : List (Char × Str)) (arg : Str) (next : Option Str)
    (p : parser V) : steps p (scan_arg lk arg next p).2 := by
  unfold scan_arg
  cases arg with
  | nil => exact steps_others p []
  | cons c0 r0 =>
    by_cases h0 : c0 = '-'
    · simp only [h0, if_true]
      cases r0 with
      | nil => exact steps_refl p
      | cons c1 r1 =>
        by_cases h1 : c1 = '-'
        · simp only [h1, if_true]
          cases hs : split_eq r1 with
          | mk name val =>
            cases val with
            | none => exact steps_set_option_name name p
            | some v => exact steps_set_option_value name v p
        · simp only [h1, if_false]
          exact steps_scan_short lk c1 r1 next p
    · simp only [h0, if_false]
      exact steps_others p _

theorem steps_scan (lk : List (Char × Str)) (args : List Str) (p : parser V) :
    steps p (scan lk args p) := by
  induction args, p using scan.induct lk with
  | case1 p => exact steps_refl p
  | case2 arg p => exact steps_scan_arg lk arg none p
  | case3 arg w tail p hc ih =>
    rw [scan, if_pos hc]
    exact steps_trans (steps_scan_arg lk arg (some w) p) ih
  | case4 arg w tail p hc ih =>
    rw [scan, if_neg hc]
    exact steps_trans (steps_scan_arg lk arg (some w) p) ih

end preserved

/-! ## Errors already recorded do not change a scan -/

section recorded

variable {V : Type}

@[simp] theorem prepend_options (e : List Str) (p : parser V) :
    (prepend e p).options = p.options := rfl

@[simp] theorem prepend_others (e : List Str) (p : parser V) :
    (prepend e p).others = p.others := rfl

@[simp] theorem prepend_errors (e : List Str) (p : parser V) :
    (prepend e p).errors = e ++ p.errors := rfl

theorem push_error_prepend (e : List Str) (p : parser V) (m : Str) :
    push_error (prepend e p) m = prepend e (push_error p m) := by
  simp [push_error, prepend]

theorem set_option_name_prepend (n : Str) (e : List Str) (p : parser V) :
    set_option_name n (prepend e p) = prepend e (set_option_name n p) := by
  cases h : options_find n p.options with
  | none =>
    rw [set_option_name_undefined n p h, set_option_name_undefined n (prepend e p) h,
      push_error_prepend]
  | some o =>
    cases o with
    | flag f =>
      rw [set_option_name_flag n p f h, set_option_name_flag n (prepend e p) f h]
      rfl
    | value o =>
      rw [set_option_name_value n p o h, set_option_name_value n (prepend e p) o h,
        push_error_prepend]

theorem set_option_value_prepend (n v : Str) (e : List Str) (p : parser V) :
    set_option_value n v (prepend e p) = prepend e (set_option_value n v p) := by
  cases h : options_find n p.options with
  | none =>
    rw [set_option_value_undefined n v p h, set_option_value_undefined n v (prepend e p) h,
      push_error_prepend]
  | some o =>
    cases o with
    | flag f =>
      rw [set_option_value_flag n v p f h, set_option_value_flag n v (prepend e p) f h,
        push_error_prepend]
    | value o =>
      cases hr : o.read v with
      | none =>
        rw [set_option_value_rejected n v p o h hr,
          set_option_value_rejected n v (prepend e p) o h hr, push_error_prepend]
      | some r =>
        rw [set_option_value_accepted n v p o r h hr,
          set_option_value_accepted n v (prepend e p) o r h hr]
        rfl

theorem short_option_prepend (lk : List (Char × Str)) (c : Char) (e : List Str)
    (p : parser V) : short_option lk c (prepend e p) = prepend e (short_option lk c p) := by
  unfold short_option
  cases lookup_find c lk with
  | none => exact push_error_prepend e p _
  | some name =>
    by_cases hn : name = []
    · simp only [hn, if_true]
      exact push_error_prepend e p _
    · simp only [hn, if_false]
      exact set_option_name_prepend name e p

theorem cluster_loop_prepend (lk : List (Char × Str)) (c : Char) (cs : List Char)
    (e : List Str) (p : parser V) :
    cluster_loop lk c cs (prepend e p) =
      ((cluster_loop lk c cs p).1, prepend e (cluster_loop lk c cs p).2) := by
  induction cs generalizing c p with
  | nil => rfl
  | cons x xs ih =>
    simp only [cluster_loop, short_option_prepend, ih]

theorem scan_short_prepend (lk : List (Char × Str)) (c : Char) (cs : List Char)
    (next : Option Str) (e : List Str) (p : parser V) :
    scan_short lk c cs next (prepend e p) =
      ((scan_short lk c cs next p).1, prepend e (scan_short lk c cs next p).2) := by
  have hl := cluster_loop_prepend lk c cs e p
  have h1 : (cluster_loop lk c cs (prepend e p)).1 = (cluster_loop lk c cs p).1 := by rw [hl]
  have h2 : (cluster_loop lk c cs (prepend e p)).2 = prepend e (cluster_loop lk c cs p).2 := by
    rw [hl]
  cases h : lookup_find (cluster_loop lk c cs p).1 lk with
  | none =>
    rw [scan_short_undefined lk c cs next p h,
      scan_short_undefined lk c cs next (prepend e p) (h1 ▸ h), h1, h2, push_error_prepend]
  | some name =>
    by_cases hn : name = []
    · rw [hn] at h
      rw [scan_short_ambiguous lk c cs next p h,
        scan_short_ambiguous lk c cs next (prepend e p) (h1 ▸ h), h1, h2, push_error_prepend]
    · cases next with
      | none =>
        rw [scan_short_last lk c cs p name h hn,
          scan_short_last lk c cs (prepend e p) name (h1 ▸ h) hn, h2, set_option_name_prepend]
      | some w =>
        cases hc : (begins_dash w ||
            !(options_has_value name (cluster_loop lk c cs p).2.options)) with
        | true =>
          rw [scan_short_keep lk c cs w p name h hn hc,
            scan_short_keep lk c cs w (prepend e p) name (h1 ▸ h) hn (by rw [h2]; exact hc),
            h2, set_option_name_prepend]
        | false =>
          rw [scan_short_consume lk c cs w p name h hn hc,
            scan_short_consume lk c cs w (prepend e p) name (h1 ▸ h) hn
              (by rw [h2]; exact hc),
            h2, set_option_value_prepend]

theorem scan_arg_prepend (lk : List (Char × Str)) (arg : Str) (next : Option Str)
    (e : List Str) (p : parser V) :
    scan_arg lk arg next (prepend e p) =
      ((scan_arg lk arg next p).1, prepend e (scan_arg lk arg next p).2) := by
  unfold scan_arg
  cases arg with
  | nil => rfl
  | cons c0 r0 =>
    by_cases h0 : c0 = '-'
    · simp only [h0, if_true]
      cases r0 with
      | nil => rfl
      | cons c1 r1 =>
        by_cases h1 : c1 = '-'
        · simp only [h1, if_true]
          cases hs : split_eq r1 with
          | mk name val =>
            cases val with
            | none => simp only [set_option_name_prepend]
            | some v => simp only [set_option_value_prepend]
        · simp only [h1, if_false]
          exact scan_short_prepend lk c1 r1 next e p
    · simp only [h0, if_false]
      rfl

theorem scan_prepend (lk : List (Char × Str)) (args : List Str) (e : List Str)
    (p : parser V) : scan lk args (prepend e p) = prepend e (scan lk args p) := by
  induction args, p using scan.induct lk with
  | case1 p => rfl
  | case2 arg p => simp only [scan, scan_arg_prepend]
  | case3 arg w tail p hc ih =>
    simp only [scan, scan_arg_prepend, hc, if_true, ih]
  | case4 arg w tail p hc ih =>
    simp only [scan, scan_arg_prepend, hc, ih]
    simp

theorem scan_push_error (lk : List (Char × Str)) (args : List Str) (m : Str)
    (p : parser V) :
    (scan lk args (push_error p m)).options = (scan lk args p).options ∧
    (scan lk args (push_error p m)).others = (scan lk args p).others ∧
    ∃ es, (scan lk args p).errors = p.errors ++ es ∧
      (scan lk args (push_error p m)).errors = p.errors ++ [m] ++ es := by
  have h1 : push_error p m = prepend (p.errors ++ [m]) { p with errors := [] } := by
    simp [push_error, prepend]
  have h2 : p = prepend p.errors { p with errors := [] } := by
    simp [prepend]
  have e1 := scan_prepend lk args (p.errors ++ [m]) { p with errors := [] }
  have e2 := scan_prepend lk args p.errors { p with errors := [] }
  rw [← h1] at e1
  rw [← h2] at e2
  rw [e1, e2]
  exact ⟨rfl, rfl, _, rfl, rfl⟩

end recorded

/-! ## The pieces of the scan -/

section pieces

variable {V : Type}

theorem split_eq_plain (n : Str) (h : '=' ∉ n) : split_eq n = (n, none) := by
  induction n with
  | nil => rfl
  | cons c cs ih =>
    have hc : ¬ c = '=' := fun hc => h (by simp [hc])
    have hcs : '=' ∉ cs := fun hx => h (List.mem_cons_of_mem _ hx)
    simp [split_eq, hc, ih hcs]

theorem split_eq_append (n v : Str) (h : '=' ∉ n) :
    split_eq (n ++ '=' :: v) = (n, some v) := by
  induction n with
  | nil => simp [split_eq]
  | cons c cs ih =>
    have hc : ¬ c = '=' := fun hc => h (by simp [hc])
    have hcs : '=' ∉ cs := fun hx => h (List.mem_cons_of_mem _ hx)
    simp [split_eq, hc, ih hcs]

theorem lookup_kept (opts : List (Str × option_base V)) (acc lk : List (Char × Str))
    (h : build_lookup opts acc = .ok lk) (c : Char) (n : Str)
    (hc : lookup_find c acc = some n) : lookup_find c lk = some n := by
  induction opts generalizing acc with
  | nil =>
    simp only [build_lookup, Except.ok.injEq] at h
    rw [← h]; exact hc
  | cons x rest ih =>
    obtain ⟨k, o⟩ := x
    unfold build_lookup at h
    by_cases hk : k.length = 0
    · rw [if_pos hk] at h; exact ih acc h hc
    · rw [if_neg hk] at h
      by_cases hs : o.short_name = Char.ofNat 0
      · rw [if_pos hs] at h; exact ih acc h hc
      · rw [if_neg hs] at h
        cases hl : lookup_find o.short_name acc with
        | some m => rw [hl] at h; cases h
        | none =>
          rw [hl] at h
          refine ih _ h ?_
          have hne : ¬ o.short_name = c := by
            intro heq; rw [heq, hc] at hl; cases hl
          simp [lookup_find, hne, hc]

theorem lookup_complete (opts : List (Str × option_base V)) (acc lk : List (Char × Str))
    (h : build_lookup opts acc = .ok lk) (k : Str) (o : option_base V)
    (hm : (k, o) ∈ opts) (hk : k ≠ []) (hs : o.short_name ≠ Char.ofNat 0) :
    lookup_find o.short_name lk = some k := by
  induction opts generalizing acc with
  | nil => simp at hm
  | cons x rest ih =>
    obtain ⟨k2, o2⟩ := x
    unfold build_lookup at h
    rcases List.mem_cons.mp hm with h1 | h1
    · have e1 : k = k2 := congrArg Prod.fst h1
      have e2 : o = o2 := congrArg Prod.snd h1
      subst e1; subst e2
      have hk0 : ¬ k.length = 0 := by
        intro h0; exact hk (List.length_eq_zero.mp h0)
      rw [if_neg hk0, if_neg hs] at h
      cases hl : lookup_find o.short_name acc with
      | some m => rw [hl] at h; cases h
      | none =>
        rw [hl] at h
        exact lookup_kept rest _ lk h _ _ (by simp [lookup_find])
    · by_cases hk0 : k2.length = 0
      · rw [if_pos hk0] at h; exact ih acc h h1
      · rw [if_neg hk0] at h
        by_cases hs2 : o2.short_name = Char.ofNat 0
        · rw [if_pos hs2] at h; exact ih acc h h1
        · rw [if_neg hs2] at h
          cases hl : lookup_find o2.short_name acc with
          | some m => rw [hl] at h; cases h
          | none => rw [hl] at h; exact ih _ h h1

theorem lookup_sound (opts : List (Str × option_base V)) (acc lk : List (Char × Str))
    (h : build_lookup opts acc = .ok lk) (c : Char) (n : Str)
    (hc : lookup_find c lk = some n) :
    lookup_find c acc = some n ∨
      ∃ o, (n, o) ∈ opts ∧ n ≠ [] ∧ o.short_name = c ∧ c ≠ Char.ofNat 0 := by
  induction opts generalizing acc with
  | nil =>
    simp only [build_lookup, Except.ok.injEq] at h
    left; rw [h]; exact hc
  | cons x rest ih =>
    obtain ⟨k, o⟩ := x
    unfold build_lookup at h
    have lift : (∃ o2, (n, o2) ∈ rest ∧ n ≠ [] ∧ o2.short_name = c ∧ c ≠ Char.ofNat 0) →
        ∃ o2, (n, o2) ∈ (k, o) :: rest ∧ n ≠ [] ∧ o2.short_name = c ∧ c ≠ Char.ofNat 0 :=
      fun ⟨o2, h1, h2⟩ => ⟨o2, List.mem_cons_of_mem _ h1, h2⟩
    by_cases hk : k.length = 0
    · rw [if_pos hk] at h
      exact (ih acc h).imp id lift
    · rw [if_neg hk] at h
      by_cases hs : o.short_name = Char.ofNat 0
      · rw [if_pos hs] at h
        exact (ih acc h).imp id lift
      · rw [if_neg hs] at h
        cases hl : lookup_find o.short_name acc with
        | some m => rw [hl] at h; cases h
        | none =>
          rw [hl] at h
          rcases ih _ h with h1 | h1
          · by_cases hsc : o.short_name = c
            · right
              have hkn : k = n := by
                simpa [lookup_find, hsc] using h1
              refine ⟨o, by simp [hkn], ?_, hsc, hsc ▸ hs⟩
              intro hn
              apply hk
              rw [hkn, hn]; rfl
            · left
              simpa [lookup_find, hsc] using h1
          · right; exact lift h1

theorem cluster_loop_append (lk : List (Char × Str)) (c1 : Char) (rest : List Char)
    (c : Char) (p : parser V) :
    cluster_loop lk c1 (rest ++ [c]) p =
      (c, (c1 :: rest).foldl (fun q ch => short_option lk ch q) p) := by
  induction rest generalizing c1 p with
  | nil => rfl
  | cons y ys ih =>
    have := ih y (short_option lk c1 p)
    simpa [cluster_loop] using this

theorem options_has_value_steps {p q : parser V} (h : steps p q) (n : Str) :
    options_has_value n q.options = options_has_value n p.options := by
  obtain ⟨hk, _, _, hf⟩ := h
  unfold options_has_value
  cases hp : options_find n p.options with
  | none =>
    have : options_find n q.options = none := by
      rw [options_find_none_iff, hk, ← options_find_none_iff]; exact hp
    rw [this]
  | some o =>
    obtain ⟨o2, h2, he⟩ := hf n o hp
    rw [h2]
    exact evolved_has_value he

theorem scan_arg_none_fst (lk : List (Char × Str)) (arg : Str) (p : parser V) :
    (scan_arg lk arg none p).1 = false := by
  unfold scan_arg
  cases arg with
  | nil => rfl
  | cons c0 r0 =>
    by_cases h0 : c0 = '-'
    · simp only [h0, if_true]
      cases r0 with
      | nil => rfl
      | cons c1 r1 =>
        by_cases h1 : c1 = '-'
        · simp only [h1, if_true]
          cases hs : split_eq r1 with
          | mk name val => cases val <;> rfl
        · simp only [h1, if_false]
          cases h : lookup_find (cluster_loop lk c1 r1 p).1 lk with
          | none => rw [scan_short_undefined lk c1 r1 none p h]
          | some name =>
            by_cases hn : name = []
            · rw [hn] at h; rw [scan_short_ambiguous lk c1 r1 none p h]
            · rw [scan_short_last lk c1 r1 p name h hn]
    · simp only [h0, if_false]

theorem scan_short_next_dash (lk : List (Char × Str)) (c : Char) (cs : List Char)
    (w : Str) (p : parser V) (hw : begins_dash w = true) :
    scan_short lk c cs (some w) p = scan_short lk c cs none p := by
  cases h : lookup_find (cluster_loop lk c cs p).1 lk with
  | none =>
    rw [scan_short_undefined lk c cs _ p h, scan_short_undefined lk c cs _ p h]
  | some name =>
    by_cases hn : name = []
    · rw [hn] at h
      rw [scan_short_ambiguous lk c cs _ p h, scan_short_ambiguous lk c cs _ p h]
    · rw [scan_short_last lk c cs p name h hn,
        scan_short_keep lk c cs w p name h hn (by simp [hw])]

theorem scan_arg_next_dash (lk : List (Char × Str)) (arg w : Str) (p : parser V)
    (hw : begins_dash w = true) :
    scan_arg lk arg (some w) p = scan_arg lk arg none p := by
  unfold scan_arg
  cases arg with
  | nil => rfl
  | cons c0 r0 =>
    by_cases h0 : c0 = '-'
    · simp only [h0, if_true]
      cases r0 with
      | nil => rfl
      | cons c1 r1 =>
        by_cases h1 : c1 = '-'
        · simp only [h1, if_true]
        · simp only [h1, if_false]
          exact scan_short_next_dash lk c1 r1 w p hw
    · simp only [h0, if_false]

/-- An argument followed by nothing or by an argument that begins with `-`
consumes nothing: the scan goes on right after it. -/
theorem scan_cons_boundary (lk : List (Char × Str)) (arg : Str) (rest : List Str)
    (p : parser V) (h : ∀ w tail, rest = w :: tail → begins_dash w = true) :
    scan lk (arg :: rest) p = scan lk rest (scan_arg lk arg none p).2 := by
  cases rest with
  | nil => rfl
  | cons w tail =>
    have hw := h w tail rfl
    rw [scan, scan_arg_next_dash lk arg w p hw, scan_arg_none_fst]
    simp

/-- An argument that begins with `-` is never consumed: the scan of what comes
before it ends in front of it. -/
theorem scan_append_dash (lk : List (Char × Str)) (pre : List Str) (a : Str)
    (post : List Str) (p : parser V) (ha : begins_dash a = true) :
    scan lk (pre ++ a :: post) p = scan lk (a :: post) (scan lk pre p) := by
  induction pre, p using scan.induct lk with
  | case1 p => rfl
  | case2 arg p =>
    exact scan_cons_boundary lk arg (a :: post) p
      (fun w tail h => by cases h; exact ha)
  | case3 arg w tail p hc ih =>
    simp only [List.cons_append, scan, hc, if_true]
    exact ih
  | case4 arg w tail p hc ih =>
    simp only [List.cons_append, scan, hc]
    simpa using ih

end pieces

/-! ## Short option clusters -/

section clusters

variable {V : Type}

/-- The leading characters of a cluster never touch a value option. -/
theorem short_option_value_kept (lk : List (Char × Str)) (ch : Char) (p : parser V)
    (n : Str) (o : option_with_value V) (h : options_find n p.options = some (.value o)) :
    options_find n (short_option lk ch p).options = some (.value o) := by
  unfold short_option
  cases lookup_find ch lk with
  | none => exact h
  | some name =>
    by_cases hn : name = []
    · simp only [hn, if_true]; exact h
    · simp only [hn, if_false]
      cases hf : options_find name p.options with
      | none => rw [set_option_name_undefined name p hf]; exact h
      | some x =>
        cases x with
        | value o2 => rw [set_option_name_value name p o2 hf]; exact h
        | flag f =>
          rw [set_option_name_flag name p f hf]
          have hne : ¬ n = name := by
            intro e; rw [e, hf] at h; cases h
          simp [options_find_assign, hne, h]

theorem leading_value_kept (lk : List (Char × Str)) (lead : List Char) (p : parser V)
    (n : Str) (o : option_with_value V) (h : options_find n p.options = some (.value o)) :
    options_find n (lead.foldl (fun q ch => short_option lk ch q) p).options =
      some (.value o) := by
  induction lead generalizing p with
  | nil => exact h
  | cons x xs ih => exact ih _ (short_option_value_kept lk x p n o h)

theorem cluster_loop_value_kept (lk : List (Char × Str)) (c : Char) (cs : List Char)
    (p : parser V) (n : Str) (o : option_with_value V)
    (h : options_find n p.options = some (.value o)) :
    options_find n (cluster_loop lk c cs p).2.options = some (.value o) := by
  induction cs generalizing c p with
  | nil => exact h
  | cons x xs ih => exact ih x _ (short_option_value_kept lk c p n o h)

theorem steps_leading (lk : List (Char × Str)) (lead : List Char) (p : parser V) :
    steps p (lead.foldl (fun q ch => short_option lk ch q) p) := by
  induction lead generalizing p with
  | nil => exact steps_refl p
  | cons x xs ih => exact steps_trans (steps_short_option lk x p) (ih _)

/-- A flag stays a flag under `steps`, and stays set once it is set. -/
theorem flag_steps {p q : parser V} (h : steps p q) (n : Str) (f : option_without_value)
    (hf : options_find n p.options = some (.flag f)) :
    ∃ g, options_find n q.options = some (.flag g) ∧ (f.has = true → g.has = true) := by
  obtain ⟨x, hx, ex⟩ := h.2.2.2 n _ hf
  cases x with
  | value _ => exact ex.elim
  | flag g =>
    refine ⟨g, hx, ?_⟩
    intro hs
    rcases ex with e | e <;> rw [e]
    exact hs

/-- A short character that resolves to a flag sets it and does nothing else. -/
theorem short_option_flag (lk : List (Char × Str)) (ch : Char) (p : parser V)
    (name : Str) (f : option_without_value) (hl : lookup_find ch lk = some name)
    (hn : name ≠ []) (hf : options_find name p.options = some (.flag f)) :
    short_option lk ch p =
      { p with options := options_assign name (.flag { f with has := true }) p.options } := by
  unfold short_option
  simp only [hl, hn, if_false]
  exact set_option_name_flag name p f hf

/-- Leading characters that all resolve to flags record no error, add no
positional argument and leave every one of these flags set. -/
theorem leading_flags (lk : List (Char × Str)) (lead : List Char) (p : parser V)
    (h : ∀ ch ∈ lead, ∃ name f, lookup_find ch lk = some name ∧ name ≠ [] ∧
      options_find name p.options = some (.flag f)) :
    (lead.foldl (fun q ch => short_option lk ch q) p).errors = p.errors ∧
    (lead.foldl (fun q ch => short_option lk ch q) p).others = p.others ∧
    ∀ ch ∈ lead, ∀ name, lookup_find ch lk = some name →
      exist (lead.foldl (fun q ch => short_option lk ch q) p) name = .ok true := by
  induction lead generalizing p with
  | nil => exact ⟨rfl, rfl, fun ch hch => by simp at hch⟩
  | cons x xs ih =>
    obtain ⟨name, f, hl, hn, hf⟩ := h x (by simp)
    have hstep := short_option_flag lk x p name f hl hn hf
    have hst : steps p (short_option lk x p) := steps_short_option lk x p
    have h2 : ∀ ch ∈ xs, ∃ name f, lookup_find ch lk = some name ∧ name ≠ [] ∧
        options_find name (short_option lk x p).options = some (.flag f) := by
      intro ch hch
      obtain ⟨n2, f2, hl2, hn2, hf2⟩ := h ch (List.mem_cons_of_mem _ hch)
      obtain ⟨g, hg, _⟩ := flag_steps hst n2 f2 hf2
      exact ⟨n2, g, hl2, hn2, hg⟩
    obtain ⟨e1, e2, e3⟩ := ih (short_option lk x p) h2
    simp only [List.foldl_cons]
    refine ⟨?_, ?_, ?_⟩
    · rw [e1, hstep]
    · rw [e2, hstep]
    · intro ch hch nm hnm
      rcases List.mem_cons.mp hch with hx | hx
      · subst hx
        rw [hl] at hnm
        cases hnm
        have hset : options_find name (short_option lk ch p).options =
            some (.flag { f with has := true }) := by
          rw [hstep]; simp [options_find_assign, hf]
        obtain ⟨g, hg, hgs⟩ := flag_steps (steps_leading lk xs (short_option lk ch p))
          name _ hset
        simp [exist, hg, option_base.has_set, hgs rfl]
      · exact e3 ch hx nm hnm

/-- An option that is set stays declared and set under `steps`. -/
theorem exist_steps {p q : parser V} (h : steps p q) (n : Str)
    (hs : exist p n = .ok true) : exist q n = .ok true := by
  unfold exist at hs ⊢
  cases hp : options_find n p.options with
  | none => rw [hp] at hs; cases hs
  | some o =>
    rw [hp] at hs
    obtain ⟨o2, h2, he⟩ := h.2.2.2 n o hp
    rw [h2]
    have : o.has_set = true := by simpa using hs
    simp [evolved_has_set he this]

/-- A cluster is scanned by the short-option branch. -/
theorem scan_arg_cluster (lk : List (Char × Str)) (c1 : Char) (cs : List Char)
    (next : Option Str) (p : parser V) (h : c1 ≠ '-') :
    scan_arg lk ('-' :: c1 :: cs) next p = scan_short lk c1 cs next p := by
  simp [scan_arg, h]

/-- The loop over a cluster `lead ++ [c]` handles `lead` and ends with `c` as
the last character. -/
theorem cluster_loop_split (lk : List (Char × Str)) (lead : List Char) (c c1 : Char)
    (cs : List Char) (p : parser V) (h : lead ++ [c] = c1 :: cs) :
    cluster_loop lk c1 cs p = (c, leading lk lead p) := by
  cases lead with
  | nil =>
    simp only [List.nil_append, List.cons.injEq] at h
    obtain ⟨h1, h2⟩ := h
    subst h1; subst h2; rfl
  | cons x xs =>
    simp only [List.cons_append, List.cons.injEq] at h
    obtain ⟨h1, h2⟩ := h
    subst h1; subst h2
    exact cluster_loop_append lk x xs c p

/-- A cluster whose last character resolves to a value option, followed by an
argument that does not begin with `-`: the argument is the value, and the scan
goes on after it. -/
theorem scan_cluster_consume (lk : List (Char × Str)) (lead : List Char) (c : Char)
    (w : Str) (tail : List Str) (p : parser V) (C : Str)
    (hhead : (lead ++ [c]).head? ≠ some '-') (hl : lookup_find c lk = some C)
    (hn : C ≠ []) (hv : options_has_value C p.options = true)
    (hw : begins_dash w = false) :
    scan lk (('-' :: (lead ++ [c])) :: w :: tail) p =
      scan lk tail (set_option_value C w (leading lk lead p)) := by
  cases hsplit : lead ++ [c] with
  | nil => simp at hsplit
  | cons c1 cs =>
    have hc1 : c1 ≠ '-' := by
      intro e; apply hhead; rw [hsplit, e]; rfl
    have hloop := cluster_loop_split lk lead c c1 cs p hsplit
    have hv2 : options_has_value C (leading lk lead p).options = true := by
      rw [options_has_value_steps (steps_leading lk lead p)]; exact hv
    have hs : scan_arg lk ('-' :: c1 :: cs) (some w) p =
        (true, set_option_value C w (leading lk lead p)) := by
      rw [scan_arg_cluster lk c1 cs _ p hc1]
      have := scan_short_consume lk c1 cs w p C (by rw [hloop]; exact hl) hn
        (by rw [hloop]; simp [hw, hv2])
      rw [this, hloop]
    rw [scan, hs]
    simp

/-- A cluster whose last character resolves to an option, at the end of the
arguments or followed by an argument that begins with `-`: the option is set
without a value and the scan goes on with the next argument. -/
theorem scan_cluster_keep (lk : List (Char × Str)) (lead : List Char) (c : Char)
    (rest : List Str) (p : parser V) (C : Str)
    (hhead : (lead ++ [c]).head? ≠ some '-') (hl : lookup_find c lk = some C)
    (hn : C ≠ []) (hrest : ∀ w tail, rest = w :: tail → begins_dash w = true) :
    scan lk (('-' :: (lead ++ [c])) :: rest) p =
      scan lk rest (set_option_name C (leading lk lead p)) := by
  cases hsplit : lead ++ [c] with
  | nil => simp at hsplit
  | cons c1 cs =>
    have hc1 : c1 ≠ '-' := by
      intro e; apply hhead; rw [hsplit, e]; rfl
    have hloop := cluster_loop_split lk lead c c1 cs p hsplit
    rw [scan_cons_boundary lk _ rest p hrest, scan_arg_cluster lk c1 cs _ p hc1,
      scan_short_last lk c1 cs p C (by rw [hloop]; exact hl) hn, hloop]

/-- The argument `--name=value`, for a name without `=`. -/
theorem scan_arg_long_value (lk : List (Char × Str)) (n v : Str) (next : Option Str)
    (p : parser V) (h : '=' ∉ n) :
    scan_arg lk ("--".toList ++ n ++ "=".toList ++ v) next p =
      (false, set_option_value n v p) := by
  have e : "--".toList ++ n ++ "=".toList ++ v = '-' :: '-' :: (n ++ '=' :: v) := by simp
  rw [e]
  simp [scan_arg, split_eq_append n v h]

/-- The argument `--name`, for a name without `=`. -/
theorem scan_arg_long_plain (lk : List (Char × Str)) (n : Str) (next : Option Str)
    (p : parser V) (h : '=' ∉ n) :
    scan_arg lk ("--".toList ++ n) next p = (false, set_option_name n p) := by
  have e : "--".toList ++ n = '-' :: '-' :: n := by simp
  rw [e]
  simp [scan_arg, split_eq_plain n h]

/-- One step of the scan at a cluster whose last character resolves to a value
option, with a next argument that does not begin with `-`. -/
theorem scan_arg_cluster_consume (lk : List (Char × Str)) (lead : List Char) (c : Char)
    (w : Str) (p : parser V) (C : Str)
    (hhead : (lead ++ [c]).head? ≠ some '-') (hl : lookup_find c lk = some C)
    (hn : C ≠ []) (hv : options_has_value C p.options = true)
    (hw : begins_dash w = false) :
    scan_arg lk ('-' :: (lead ++ [c])) (some w) p =
      (true, set_option_value C w (leading lk lead p)) := by
  cases hsplit : lead ++ [c] with
  | nil => simp at hsplit
  | cons c1 cs =>
    have hc1 : c1 ≠ '-' := by
      intro e; apply hhead; rw [hsplit, e]; rfl
    have hloop := cluster_loop_split lk lead c c1 cs p hsplit
    have hv2 : options_has_value C (leading lk lead p).options = true := by
      rw [options_has_value_steps (steps_leading lk lead p)]; exact hv
    rw [scan_arg_cluster lk c1 cs _ p hc1]
    have := scan_short_consume lk c1 cs w p C (by rw [hloop]; exact hl) hn
      (by rw [hloop]; simp [hw, hv2])
    rw [this, hloop]

/-- The scan loop handles the first argument and goes on with the others, all
of them unless the first one consumed its successor. -/
theorem scan_cons (lk : List (Char × Str)) (arg : Str) (rest : List Str) (p : parser V) :
    scan lk (arg :: rest) p =
      scan lk (if (scan_arg lk arg rest.head? p).1 then rest.tail else rest)
        (scan_arg lk arg rest.head? p).2 := by
  cases rest with
  | nil =>
    simp only [List.head?_nil, scan_arg_none_fst]
    rfl
  | cons w tail =>
    rw [scan]
    by_cases hc : (scan_arg lk arg (some w) p).1 = true
    · simp [hc]
    · simp [hc]

/-- One step of the scan keeps the errors recorded so far and appends its own. -/
theorem scan_arg_errors (lk : List (Char × Str)) (arg : Str) (next : Option Str)
    (p : parser V) : ∃ es, (scan_arg lk arg next p).2.errors = p.errors ++ es := by
  obtain ⟨_, ⟨es, h, _⟩, _⟩ := steps_scan_arg lk arg next p
  exact ⟨es, h⟩

/-- Under `steps` a value option stays a value option with the same reader. -/
theorem value_steps {p q : parser V} (h : steps p q) (n : Str) (o : option_with_value V)
    (hf : options_find n p.options = some (.value o)) :
    ∃ o2, options_find n q.options = some (.value o2) ∧ o2.read = o.read := by
  obtain ⟨x, hx, ex⟩ := h.2.2.2 n _ hf
  cases x with
  | flag _ => exact ex.elim
  | value o2 =>
    refine ⟨o2, hx, ?_⟩
    rcases ex with e | ⟨v, e⟩ <;> rw [e]

end clusters

/-! ## The validation of the required options -/

section validation

variable {V : Type}

theorem need_errors_mem (opts : List (Str × option_base V)) (m : Str)
    (h : m ∈ need_errors opts) :
    ∃ k o, (k, o) ∈ opts ∧ o.valid = false ∧ m = "need option: --".toList ++ k := by
  induction opts with
  | nil => simp [need_errors] at h
  | cons x rest ih =>
    obtain ⟨k, o⟩ := x
    unfold need_errors at h
    cases hv : o.valid with
    | true =>
      rw [hv] at h
      obtain ⟨k2, o2, h1, h2⟩ := ih (by simpa using h)
      exact ⟨k2, o2, List.mem_cons_of_mem _ h1, h2⟩
    | false =>
      rw [hv] at h
      simp only [Bool.false_eq_true, if_false] at h
      rcases List.mem_cons.mp h with h1 | h1
      · exact ⟨k, o, List.mem_cons_self _ _, hv, h1⟩
      · obtain ⟨k2, o2, h2, h3⟩ := ih h1
        exact ⟨k2, o2, List.mem_cons_of_mem _ h2, h3⟩

theorem need_errors_filter (opts : List (Str × option_base V)) :
    need_errors opts =
      (opts.filter (fun ko => !ko.2.valid)).map (fun ko => "need option: --".toList ++ ko.1) := by
  induction opts with
  | nil => rfl
  | cons x rest ih =>
    obtain ⟨k, o⟩ := x
    cases hv : o.valid <;> simp [need_errors, hv, ih]

/-- An option is not valid exactly when it is a required value option that is
not set. -/
theorem valid_eq_false_iff (o : option_base V) :
    o.valid = false ↔ ∃ w, o = .value w ∧ w.need = true ∧ w.has = false := by
  cases o with
  | flag f => simp [option_base.valid]
  | value w =>
    cases hn : w.need <;> cases hh : w.has <;> simp [option_base.valid, hn, hh]

theorem need_errors_count (opts : List (Str × option_base V)) (n : Str)
    (x : option_base V) (hu : (keys opts).Nodup) (hf : options_find n opts = some x)
    (hv : x.valid = false) :
    (need_errors opts).count ("need option: --".toList ++ n) = 1 := by
  induction opts with
  | nil => simp [options_find] at hf
  | cons y rest ih =>
    obtain ⟨k, o⟩ := y
    have hu2 : k ∉ keys rest ∧ (keys rest).Nodup := by simpa using hu
    by_cases hk : k = n
    · subst hk
      have ho : o = x := by simpa [options_find] using hf
      subst ho
      have hz : (need_errors rest).count ("need option: --".toList ++ k) = 0 := by
        rw [List.count_eq_zero]
        intro hm
        obtain ⟨k2, o2, h1, _, h3⟩ := need_errors_mem rest _ hm
        have : k = k2 := List.append_cancel_left h3
        apply hu2.1
        rw [this]
        exact List.mem_map_of_mem Prod.fst h1
      simp only [need_errors, hv, Bool.false_eq_true, if_false]
      rw [List.count_cons_self, hz]
    · have hf2 : options_find n rest = some x := by simpa [options_find, hk] using hf
      have hne : "need option: --".toList ++ n ≠ "need option: --".toList ++ k :=
        fun e => hk (List.append_cancel_left e).symm
      cases hvo : o.valid with
      | true =>
        simp only [need_errors, hvo, if_true]
        exact ih hu2.2 hf2
      | false =>
        simp only [need_errors, hvo, Bool.false_eq_true, if_false]
        rw [List.count_cons_of_ne hne]
        exact ih hu2.2 hf2

end validation

/-! ## The positional arguments -/

section positional

variable {V : Type}

theorem cluster_loop_last (lk : List (Char × Str)) (c : Char) (cs : List Char)
    (p : parser V) : (cluster_loop lk c cs p).1 = cs.getLastD c := by
  induction cs generalizing c p with
  | nil => rfl
  | cons x xs ih =>
    simp only [cluster_loop]
    rw [ih, List.getLastD_cons]

/-- The lookup that `parse` builds maps a character to a non-empty name. -/
theorem lookup_nonempty (opts : List (Str × option_base V)) (lk : List (Char × Str))
    (h : build_lookup opts [] = .ok lk) (c : Char) (n : Str)
    (hc : lookup_find c lk = some n) : n ≠ [] := by
  rcases lookup_sound opts [] lk h c n hc with h1 | ⟨_, _, h2, _⟩
  · simp [lookup_find] at h1
  · exact h2

/-- The code and the words of the specification agree on the clusters that
take a value, when the last character is in the lookup. -/
theorem takes_value_of_lookup (opts : List (Str × option_base V))
    (lk : List (Char × Str)) (hu : (keys opts).Nodup)
    (h : build_lookup opts [] = .ok lk) (c1 : Char) (cs : List Char) (name : Str)
    (h1 : c1 ≠ '-') (hl : lookup_find (cs.getLastD c1) lk = some name) :
    takes_value opts ('-' :: c1 :: cs) = options_has_value name opts := by
  rw [Bool.eq_iff_iff]
  simp only [takes_value, decide_True, Bool.true_and, h1, decide_False, Bool.not_false,
    List.any_eq_true, Bool.and_eq_true, Bool.not_eq_true', decide_eq_true_eq,
    decide_eq_false_iff_not]
  constructor
  · rintro ⟨⟨k, o⟩, hm, ⟨⟨hk, hs⟩, h0⟩, hv⟩
    have hk2 : k ≠ [] := by
      intro e; rw [e] at hk; simp at hk
    have := lookup_complete opts [] lk h k o hm hk2 (by rw [hs]; exact h0)
    rw [hs, hl] at this
    cases this
    simp [options_has_value, options_find_of_mem name o opts hu hm, hv]
  · intro hv
    rcases lookup_sound opts [] lk h _ name hl with h2 | ⟨o, hm, hn, hs, h0⟩
    · simp [lookup_find] at h2
    · refine ⟨(name, o), hm, ⟨⟨?_, hs⟩, h0⟩, ?_⟩
      · cases name with
        | nil => exact (hn rfl).elim
        | cons _ _ => rfl
      · simpa [options_has_value, options_find_of_mem name o opts hu hm] using hv

/-- A cluster whose last character is not in the lookup takes no value. -/
theorem takes_value_of_no_lookup (opts : List (Str × option_base V))
    (lk : List (Char × Str)) (h : build_lookup opts [] = .ok lk) (c0 c1 : Char)
    (cs : List Char) (hl : lookup_find (cs.getLastD c1) lk = none) :
    takes_value opts (c0 :: c1 :: cs) = false := by
  rw [Bool.eq_false_iff]
  intro ht
  simp only [takes_value, List.any_eq_true, Bool.and_eq_true, Bool.not_eq_true',
    decide_eq_true_eq, decide_eq_false_iff_not] at ht
  obtain ⟨_, ⟨k, o⟩, hm, ⟨⟨hk, hs⟩, h0⟩, _⟩ := ht
  have hk2 : k ≠ [] := by
    intro e; rw [e] at hk; simp at hk
  have := lookup_complete opts [] lk h k o hm hk2 (by rw [hs]; exact h0)
  rw [hs, hl] at this
  cases this

/-- One step of the scan consumes the next argument exactly when the argument
is a cluster that takes a value and the next argument does not begin with `-`. -/
theorem scan_arg_consumed (p0 q : parser V) (lk : List (Char × Str))
    (hu : (keys p0.options).Nodup) (hlk : build_lookup p0.options [] = .ok lk)
    (hst : steps p0 q) (arg : Str) (next : Option Str) :
    (scan_arg lk arg next q).1 =
      (takes_value p0.options arg &&
        (match next with
          | some w => !begins_dash w
          | none => false)) := by
  cases arg with
  | nil => simp [scan_arg, takes_value]
  | cons c0 r0 =>
    cases r0 with
    | nil =>
      by_cases h0 : c0 = '-' <;> simp [scan_arg, takes_value, h0]
    | cons c1 cs =>
      by_cases h0 : c0 = '-'
      · subst h0
        by_cases h1 : c1 = '-'
        · subst h1
          have : (scan_arg lk ('-' :: '-' :: cs) next q).1 = false := by
            unfold scan_arg
            simp only [if_true]
            cases hs : split_eq cs with
            | mk name val => cases val <;> rfl
          rw [this]
          simp [takes_value]
        · rw [scan_arg_cluster lk c1 cs next q h1]
          have hlast := cluster_loop_last lk c1 cs q
          cases h : lookup_find (cluster_loop lk c1 cs q).1 lk with
          | none =>
            rw [scan_short_undefined lk c1 cs next q h,
              takes_value_of_no_lookup p0.options lk hlk '-' c1 cs (by rw [← hlast]; exact h)]
            simp
          | some name =>
            have hn : name ≠ [] := lookup_nonempty p0.options lk hlk _ name h
            have htv := takes_value_of_lookup p0.options lk hu hlk c1 cs name h1
              (by rw [← hlast]; exact h)
            have hhv := options_has_value_steps
              (steps_trans hst (steps_cluster_loop lk c1 cs q)) name
            rw [htv, ← hhv]
            cases next with
            | none =>
              rw [scan_short_last lk c1 cs q name h hn]
              simp
            | some w =>
              cases hc : (begins_dash w ||
                  !(options_has_value name (cluster_loop lk c1 cs q).2.options)) with
              | true =>
                rw [scan_short_keep lk c1 cs w q name h hn hc]
                cases hb : begins_dash w <;>
                  cases hv : options_has_value name (cluster_loop lk c1 cs q).2.options <;>
                  simp [hb, hv] at hc ⊢
              | false =>
                rw [scan_short_consume lk c1 cs w q name h hn hc]
                cases hb : begins_dash w <;>
                  cases hv : options_has_value name (cluster_loop lk c1 cs q).2.options <;>
                  simp [hb, hv] at hc ⊢
      · have : (scan_arg lk (c0 :: c1 :: cs) next q).1 = false := by
          simp [scan_arg, h0]
        rw [this]
        simp [takes_value, h0]

end positional

/-! ## The claims -/



/-- C1: `parse` returns true exactly when the error list it leaves is empty,
which is exactly when `error()` is the empty string; the exit for an empty
argument list and the exit for a shared short name both return false and
leave one error. -/
theorem parse_true_iff_no_errors {V : Type} (p : parser V) (argv : List Str) :
    ((parse p argv).1 = true ↔ (parse p argv).2.errors = []) ∧
    ((parse p argv).2.errors = [] ↔ error (parse p argv).2 = []) ∧
    (parse p []).1 = false ∧
    (parse p []).2.errors = ["argument number must be longer than 0".toList] ∧
    (∀ prog args c, build_lookup p.options [] = .error c →
      (parse p (prog :: args)).1 = false ∧
      (parse p (prog :: args)).2.errors = [ambiguous_message c]) := by
  refine ⟨?_, (error_eq_nil_iff _).symm, rfl, rfl, ?_⟩
  · cases argv with
    | nil => simp [parse]
    | cons prog args =>
      cases h : build_lookup p.options [] with
      | error c => simp [parse_of_clash p prog args c h]
      | ok lk =>
        rw [parse_of_lookup p prog args lk h]
        simp only [decide_eq_true_eq, List.length_eq_zero]
  · intro prog args c h
    simp [parse_of_clash p prog args c h]

/-- C1 at the registry `clash`, whose flags `--all` and `--any` share `a`. -/
theorem parse_true_iff_no_errors_witness :
    build_lookup clash.options [] = .error 'a' ∧
    (parse clash ["prog".toList, "-n".toList, "3".toList]).1 = false ∧
    (parse clash ["prog".toList, "-n".toList, "3".toList]).2.errors = [ambiguous_message 'a'] :=
  ⟨rfl, (parse_true_iff_no_errors clash []).2.2.2.2 "prog".toList
    ["-n".toList, "3".toList] 'a' rfl⟩

/-- C2: in a registry without a shared short name, a cluster whose leading
characters resolve to flags and whose last character resolves to the value
option `C`, followed by an argument `w` that does not begin with `-`: the scan
resumes at the first argument after `w` (the cluster and its value advance it
by two), `w` is not added to the positional arguments, no leading character
records an error, every leading flag is set then and at the end of `parse`,
and the reader of `C` is applied to `w`: an accepted `w` gives `C` its value
and sets it, a rejected one records the one error. -/
theorem cluster_takes_next_argument {V : Type} (p : parser V) (lk : List (Char × Str))
    (prog : Str) (lead : List Char) (c : Char) (w : Str) (tail : List Str) (C : Str)
    (o : option_with_value V)
    (hlk : build_lookup p.options [] = .ok lk)
    (hhead : (lead ++ [c]).head? ≠ some '-')
    (hlead : ∀ ch ∈ lead, ∃ name f, name ≠ [] ∧ ch ≠ Char.ofNat 0 ∧
      options_find name p.options = some (.flag f) ∧ f.snam = ch)
    (hC : C ≠ [] ∧ c ≠ Char.ofNat 0 ∧
      options_find C p.options = some (.value o) ∧ o.snam = c)
    (hw : begins_dash w = false) :
    scan lk (('-' :: (lead ++ [c])) :: w :: tail) (start p prog) =
      scan lk tail (set_option_value C w (leading lk lead (start p prog))) ∧
    (parse p (prog :: ('-' :: (lead ++ [c])) :: w :: tail)).2 =
      validate (scan lk tail (set_option_value C w (leading lk lead (start p prog)))) ∧
    (set_option_value C w (leading lk lead (start p prog))).others = [] ∧
    (leading lk lead (start p prog)).errors = [] ∧
    options_find C (leading lk lead (start p prog)).options = some (.value o) ∧
    (∀ ch ∈ lead, ∀ name f, name ≠ [] → ch ≠ Char.ofNat 0 →
      options_find name p.options = some (.flag f) → f.snam = ch →
      exist (set_option_value C w (leading lk lead (start p prog))) name = .ok true ∧
      exist (parse p (prog :: ('-' :: (lead ++ [c])) :: w :: tail)).2 name = .ok true) ∧
    (∀ v, o.read w = some v →
      options_find C (set_option_value C w (leading lk lead (start p prog))).options =
        some (.value { o with actual := v, has := true }) ∧
      (set_option_value C w (leading lk lead (start p prog))).errors = []) ∧
    (o.read w = none →
      set_option_value C w (leading lk lead (start p prog)) =
        push_error (leading lk lead (start p prog))
          ("option value is invalid: --".toList ++ C ++ "=".toList ++ w)) := by
  obtain ⟨hCn, hc0, hCf, hCs⟩ := hC
  have hlC : lookup_find c lk = some C := by
    have := lookup_complete p.options [] lk hlk C (.value o)
      (options_find_mem C _ _ hCf) hCn (by simpa [option_base.short_name, hCs] using hc0)
    simpa [option_base.short_name, hCs] using this
  have hlead2 : ∀ ch ∈ lead, ∃ name f, lookup_find ch lk = some name ∧ name ≠ [] ∧
      options_find name (start p prog).options = some (.flag f) := by
    intro ch hch
    obtain ⟨name, f, hn, h0, hf, hs⟩ := hlead ch hch
    have := lookup_complete p.options [] lk hlk name (.flag f)
      (options_find_mem name _ _ hf) hn (by simpa [option_base.short_name, hs] using h0)
    exact ⟨name, f, by simpa [option_base.short_name, hs] using this, hn, hf⟩
  obtain ⟨le, lo, lf⟩ := leading_flags lk lead (start p prog) hlead2
  have hCq : options_find C (leading lk lead (start p prog)).options = some (.value o) :=
    leading_value_kept lk lead (start p prog) C o hCf
  have hscan := scan_cluster_consume lk lead c w tail (start p prog) C hhead hlC hCn
    (by simp [options_has_value, hCf, option_base.has_value]) hw
  have hparse := parse_of_lookup p prog (('-' :: (lead ++ [c])) :: w :: tail) lk hlk
  have hsv := steps_set_option_value C w (leading lk lead (start p prog))
  refine ⟨hscan, ?_, ?_, le, hCq, ?_, ?_, ?_⟩
  · rw [hparse, hscan]
  · obtain ⟨os, hos⟩ := hsv.2.2.1
    cases hr : o.read w with
    | none => rw [set_option_value_rejected C w _ o hCq hr]; exact lo
    | some v => rw [set_option_value_accepted C w _ o v hCq hr]; exact lo
  · intro ch hch name f hn h0 hf hs
    have hl : lookup_find ch lk = some name := by
      have := lookup_complete p.options [] lk hlk name (.flag f)
        (options_find_mem name _ _ hf) hn (by simpa [option_base.short_name, hs] using h0)
      simpa [option_base.short_name, hs] using this
    have e1 := exist_steps hsv name (lf ch hch name hl)
    refine ⟨e1, ?_⟩
    rw [hparse, hscan]
    exact exist_steps (steps_scan lk tail _) name e1
  · intro v hr
    rw [set_option_value_accepted C w _ o v hCq hr]
    exact ⟨by simp [options_find_assign, hCq], le⟩
  · intro hr
    exact set_option_value_rejected C w _ o hCq hr

/-- C2 at the registry `sample`: `-vo out.txt` sets `--verbose` and gives
`--output` the value `out.txt`. -/
theorem cluster_takes_next_argument_witness :
    options_find "output".toList
      (set_option_value "output".toList "out.txt".toList
        (leading sample_lookup ['v'] (start sample "prog".toList))).options =
      some (.value
        { ty := "string".toList, nam := "output".toList, snam := 'o', need := true,
          desc := "output (string)".toList, has := true,
          dflt := Value.str [], actual := Value.str "out.txt".toList,
          read := read_string }) ∧
    exist (parse sample ["prog".toList, "-vo".toList, "out.txt".toList, "extra".toList]).2
      "verbose".toList = .ok true :=
  have h := cluster_takes_next_argument sample sample_lookup "prog".toList ['v'] 'o'
    "out.txt".toList ["extra".toList] "output".toList
    { ty := "string".toList, nam := "output".toList, snam := 'o', need := true,
      desc := "output (string)".toList, has := false,
      dflt := Value.str [], actual := Value.str [], read := read_string }
    rfl (by decide)
    (fun ch hch => ⟨"verbose".toList,
      { nam := "verbose".toList, snam := 'v', desc := "verbose".toList, has := false },
      by decide, by simp at hch; simp [hch], rfl, by simp at hch; simp [hch]⟩)
    ⟨by decide, by decide, rfl, rfl⟩ rfl
  ⟨(h.2.2.2.2.2.2.1 (Value.str "out.txt".toList) rfl).1,
    (h.2.2.2.2.2.1 'v' (by simp) "verbose".toList
      { nam := "verbose".toList, snam := 'v', desc := "verbose".toList, has := false }
      (by decide) (by decide) rfl rfl).2⟩

/-- C3, as stated, fails: `--count=-5` sets `--count` while `-c -5` does not
take `-5` as a value; `--=5` sets the option with the empty name while `-e 5`
does not find it; `--dash=5` sets `--dash` while `-- 5`, written with its
short name `-`, is the long option with the empty name. -/
theorem long_and_short_differ :
    (build_lookup sample.options [] = .ok sample_lookup ∧
      read_number "-5".toList = some (Value.int (-5)) ∧
      exist (parse sample ["prog".toList, "--count=-5".toList]).2 "count".toList
        = .ok true ∧
      exist (parse sample ["prog".toList, "-c".toList, "-5".toList]).2 "count".toList
        = .ok false ∧
      (parse sample ["prog".toList, "-c".toList, "-5".toList]).2.errors =
        ["option needs value: --count".toList, "undefined short option: -5".toList,
          "need option: --output".toList]) ∧
    (read_number "5".toList = some (Value.int 5) ∧
      exist (parse odd ["prog".toList, "--=5".toList]).2 [] = .ok true ∧
      exist (parse odd ["prog".toList, "-e".toList, "5".toList]).2 [] = .ok false ∧
      (parse odd ["prog".toList, "-e".toList, "5".toList]).2.others = ["5".toList]) ∧
    (exist (parse odd ["prog".toList, "--dash=5".toList]).2 "dash".toList = .ok true ∧
      exist (parse odd ["prog".toList, "--".toList, "5".toList]).2 "dash".toList
        = .ok false ∧
      (parse odd ["prog".toList, "--".toList, "5".toList]).2.errors =
        ["option needs value: --".toList]) :=
  ⟨⟨rfl, rfl, rfl, rfl, rfl⟩, ⟨rfl, rfl, rfl, rfl⟩, ⟨rfl, rfl, rfl⟩⟩

/-- C3, amended: for a value option with a non-empty long name `N` without `=`
and a short name `c` that is neither 0 nor `-`, and a value `v` that its reader
accepts and that does not begin with `-`, `parse` of `--N=v` and `parse` of
`-c v` return the same result and leave the same parser; in a registry without
a shared short name `N` is then set to the value read, nothing is positional
and the errors are those of the validation. -/
theorem long_and_short_agree {V : Type} (p : parser V) (prog N v : Str) (c : Char)
    (o : option_with_value V) (r : V)
    (hN : N ≠ []) (heq : '=' ∉ N) (hc0 : c ≠ Char.ofNat 0) (hcd : c ≠ '-')
    (hf : options_find N p.options = some (.value o)) (hs : o.snam = c)
    (hr : o.read v = some r) (hv : begins_dash v = false) :
    parse p [prog, "--".toList ++ N ++ "=".toList ++ v] = parse p [prog, ['-', c], v] ∧
    ∀ lk, build_lookup p.options [] = .ok lk →
      (parse p [prog, ['-', c], v]).2.options =
        options_assign N (.value { o with actual := r, has := true }) p.options ∧
      exist (parse p [prog, ['-', c], v]).2 N = .ok true ∧
      get (parse p [prog, ['-', c], v]).2 o.ty N = .ok r ∧
      rest (parse p [prog, ['-', c], v]).2 = [] ∧
      (parse p [prog, ['-', c], v]).2.errors =
        need_errors (options_assign N (.value { o with actual := r, has := true })
          p.options) := by
  have hshort : ∀ lk, build_lookup p.options [] = .ok lk →
      scan lk [['-', c], v] (start p prog) = set_option_value N v (start p prog) := by
    intro lk hlk
    have hl : lookup_find c lk = some N := by
      have := lookup_complete p.options [] lk hlk N (.value o)
        (options_find_mem N _ _ hf) hN (by simpa [option_base.short_name, hs] using hc0)
      simpa [option_base.short_name, hs] using this
    have := scan_cluster_consume lk [] c v [] (start p prog) N
      (by simpa using hcd) hl hN
      (by simp [options_has_value, hf, option_base.has_value]) hv
    simpa [scan] using this
  have hset : set_option_value N v (start p prog) =
      { (start p prog) with
        options := options_assign N (.value { o with actual := r, has := true }) p.options } :=
    set_option_value_accepted N v (start p prog) o r hf hr
  constructor
  · cases hlk : build_lookup p.options [] with
    | error c2 => rw [parse_of_clash p prog _ c2 hlk, parse_of_clash p prog _ c2 hlk]
    | ok lk =>
      rw [parse_of_lookup p prog _ lk hlk, parse_of_lookup p prog _ lk hlk, hshort lk hlk]
      simp only [scan, scan_arg_long_value lk N v none _ heq]
  · intro lk hlk
    rw [parse_of_lookup p prog _ lk hlk, hshort lk hlk, hset]
    refine ⟨rfl, ?_, ?_, rfl, ?_⟩
    · simp [exist, options_find_assign, hf, option_base.has_set]
    · simp [get, options_find_assign, hf]
    · simp

/-- C3, amended, at the registry `sample`: `--count=5` and `-c 5`. -/
theorem long_and_short_agree_witness :
    parse sample ["prog".toList, "--".toList ++ "count".toList ++ "=".toList ++ "5".toList]
      = parse sample ["prog".toList, ['-', 'c'], "5".toList] ∧
    exist (parse sample ["prog".toList, ['-', 'c'], "5".toList]).2 "count".toList
      = .ok true ∧
    get (parse sample ["prog".toList, ['-', 'c'], "5".toList]).2 "int".toList
      "count".toList = .ok (Value.int 5) :=
  have h := long_and_short_agree sample "prog".toList "count".toList "5".toList 'c'
    { ty := "int".toList, nam := "count".toList, snam := 'c', need := false,
      desc := "count (int [=1])".toList, has := false,
      dflt := Value.int 1, actual := Value.int 1, read := read_number }
    (Value.int 5) (by decide) (by decide) (by decide) (by decide) rfl rfl rfl rfl
  ⟨h.1, (h.2 sample_lookup rfl).2.1, (h.2 sample_lookup rfl).2.2.1⟩

/-- C4, as stated, fails: in the registry `clash`, whose flags share a short
name, `--num=3` is not applied although the reader accepts `3`. -/
theorem long_value_not_applied :
    read_number "3".toList = some (Value.int 3) ∧
    get (parse clash ["prog".toList, "--num=3".toList]).2 "int".toList "num".toList
      = .ok (Value.int 7) ∧
    exist (parse clash ["prog".toList, "--num=3".toList]).2 "num".toList = .ok false :=
  ⟨rfl, rfl, rfl⟩

/-- C4, amended: in a registry without a shared short name, for a value option
`N` without `=` in its name and a string `s` on which its reader gives `v`,
`parse` of `--N=s` hands `s` to the reader as it is (be it empty, with further
`=` or with a leading `-`): the scan of the argument assigns `v` to `N`, sets it
and records no error, and afterwards `get` gives `v` and `exist` gives true. -/
theorem long_value_round_trip {V : Type} (p : parser V) (lk : List (Char × Str))
    (prog N s : Str) (o : option_with_value V) (v : V)
    (hlk : build_lookup p.options [] = .ok lk) (heq : '=' ∉ N)
    (hf : options_find N p.options = some (.value o)) (hr : o.read s = some v) :
    scan lk ["--".toList ++ N ++ "=".toList ++ s] (start p prog) =
      { (start p prog) with
        options := options_assign N (.value { o with actual := v, has := true }) p.options } ∧
    (scan lk ["--".toList ++ N ++ "=".toList ++ s] (start p prog)).errors = [] ∧
    (parse p [prog, "--".toList ++ N ++ "=".toList ++ s]).2 =
      validate (scan lk ["--".toList ++ N ++ "=".toList ++ s] (start p prog)) ∧
    get (parse p [prog, "--".toList ++ N ++ "=".toList ++ s]).2 o.ty N = .ok v ∧
    exist (parse p [prog, "--".toList ++ N ++ "=".toList ++ s]).2 N = .ok true := by
  have hscan : scan lk ["--".toList ++ N ++ "=".toList ++ s] (start p prog) =
      { (start p prog) with
        options := options_assign N (.value { o with actual := v, has := true }) p.options } := by
    simp only [scan, scan_arg_long_value lk N s none _ heq]
    exact set_option_value_accepted N s (start p prog) o v hf hr
  refine ⟨hscan, by rw [hscan]; rfl, ?_, ?_, ?_⟩
  · rw [parse_of_lookup p prog _ lk hlk]
  · rw [parse_of_lookup p prog _ lk hlk, hscan]
    simp [get, options_find_assign, hf]
  · rw [parse_of_lookup p prog _ lk hlk, hscan]
    simp [exist, options_find_assign, hf, option_base.has_set]

/-- C4, amended, at the registry `sample`: `--count=-5`, a value with a leading
`-`. -/
theorem long_value_round_trip_witness :
    get (parse sample
      ["prog".toList, "--".toList ++ "count".toList ++ "=".toList ++ "-5".toList]).2
      "int".toList "count".toList = .ok (Value.int (-5)) :=
  (long_value_round_trip sample sample_lookup "prog".toList "count".toList "-5".toList
    { ty := "int".toList, nam := "count".toList, snam := 'c', need := false,
      desc := "count (int [=1])".toList, has := false,
      dflt := Value.int 1, actual := Value.int 1, read := read_number }
    (Value.int (-5)) rfl (by decide) rfl rfl).2.2.2.1

/-- C5, as stated, fails: in the registry `clash`, freshly built, the required
`--num` with default 7 is supplied by no argument, and `parse` stops at the
shared short name without a `need option` entry. -/
theorem required_option_not_reported :
    (parse clash ["prog".toList]).1 = false ∧
    (parse clash ["prog".toList]).2.errors = ["short option 'a' is ambiguous".toList] ∧
    ((parse clash ["prog".toList]).2.errors.count "need option: --num".toList = 0) ∧
    exist (parse clash ["prog".toList]).2 "num".toList = .ok false ∧
    get (parse clash ["prog".toList]).2 "int".toList "num".toList = .ok (Value.int 7) :=
  ⟨rfl, rfl, by decide, rfl, rfl⟩

/-- C7, as stated, fails: in the registry `clash` the recorded error of the
shared short name stops the pass; `--bogus`, which is not declared, is not
scanned and the required `--num`, which is not set, is not reported. -/
theorem recorded_error_stops_pass :
    (parse clash ["prog".toList, "--bogus".toList]).2.errors = [ambiguous_message 'a'] ∧
    options_find "bogus".toList clash.options = none ∧
    "undefined option: --bogus".toList ∉
      (parse clash ["prog".toList, "--bogus".toList]).2.errors ∧
    need_errors clash.options = ["need option: --num".toList] ∧
    "need option: --num".toList ∉
      (parse clash ["prog".toList, "--bogus".toList]).2.errors :=
  ⟨rfl, rfl, by decide, rfl, by decide⟩

/-- C7, amended: in a registry without a shared short name and for an argument
list with at least the program name, `parse` is the scan of all the arguments
followed by the validation, and its errors are the errors of the scan followed
by one `need option` error for every required value option still not set; the
scan loop has no exit before the last argument, a step keeps the errors
recorded before it and appends its own, and errors recorded before do not
change what the scan does. -/
theorem errors_accumulate {V : Type} (p : parser V) (lk : List (Char × Str))
    (prog : Str) (args : List Str) (hlk : build_lookup p.options [] = .ok lk) :
    (parse p (prog :: args)).2 = validate (scan lk args (start p prog)) ∧
    (parse p (prog :: args)).2.errors =
      (scan lk args (start p prog)).errors ++
        ((scan lk args (start p prog)).options.filter (fun ko => !ko.2.valid)).map
          (fun ko => "need option: --".toList ++ ko.1) ∧
    (∀ o : option_base V,
      o.valid = false ↔ ∃ w, o = .value w ∧ w.need = true ∧ w.has = false) ∧
    (∀ (arg : Str) (more : List Str) (q : parser V),
      scan lk (arg :: more) q =
        scan lk (if (scan_arg lk arg more.head? q).1 then more.tail else more)
          (scan_arg lk arg more.head? q).2) ∧
    (∀ (arg : Str) (next : Option Str) (q : parser V),
      ∃ es, (scan_arg lk arg next q).2.errors = q.errors ++ es) ∧
    (∀ (e : List Str) (l : List Str) (q : parser V),
      scan lk l (prepend e q) = prepend e (scan lk l q)) := by
  refine ⟨?_, ?_, valid_eq_false_iff, scan_cons lk, scan_arg_errors lk, ?_⟩
  · rw [parse_of_lookup p prog args lk hlk]
  · rw [parse_of_lookup p prog args lk hlk, validate_errors, need_errors_filter]
  · intro e l q
    exact scan_prepend lk l e q

/-- C7, amended, at the registry `sample`: `--bogus --count=x extra` records
two errors of the scan and then the missing `--output`. -/
theorem errors_accumulate_witness :
    (parse sample ["prog".toList, "--bogus".toList, "--count=x".toList,
      "extra".toList]).2.errors =
      ["undefined option: --bogus".toList, "option value is invalid: --count=x".toList,
        "need option: --output".toList] :=
  (errors_accumulate sample sample_lookup "prog".toList
    ["--bogus".toList, "--count=x".toList, "extra".toList] rfl).2.1.trans rfl

/-- C8, as stated, fails: in the registry `eqname` the reader of the value option
`--a=b` rejects `x`, and the argument `--a=b=x` records `undefined option: --a`
and no `option value is invalid`; in the registry `clash`, whose flags share a
short name, the reader of `--num` rejects `x` and `--num=x` records no
`option value is invalid` either. -/
theorem rejected_value_not_reported :
    (read_number "x".toList = none ∧
      options_find "a=b".toList eqname.options =
        some (.value
          { ty := "int".toList, nam := "a=b".toList, snam := 'e', need := false,
            desc := "(int [=0])".toList, has := false,
            dflt := Value.int 0, actual := Value.int 0, read := read_number }) ∧
      (parse eqname ["prog".toList, "--a=b=x".toList]).2.errors =
        ["undefined option: --a".toList] ∧
      "option value is invalid: --a=b=x".toList ∉
        (parse eqname ["prog".toList, "--a=b=x".toList]).2.errors) ∧
    ((parse clash ["prog".toList, "--num=x".toList]).2.errors =
        ["short option 'a' is ambiguous".toList] ∧
      "option value is invalid: --num=x".toList ∉
        (parse clash ["prog".toList, "--num=x".toList]).2.errors) :=
  ⟨⟨rfl, rfl, rfl, by decide⟩, ⟨rfl, by decide⟩⟩

/-- C8, amended: for a value option `N` and a string `v` that its reader
rejects, `set_option(N, v)` appends the one error
`option value is invalid: --N=v`, which ends with `v`, and changes nothing
else, whatever the value and the has-set flag of `N` were. In a registry
without a shared short name, `parse` hands `v` to `N` at the argument `--N=v`
when `N` holds no `=`, and at the argument `v` that does not begin with `-` and
follows a cluster whose last character is the short name of `N`, wherever
these arguments stand: the one error is appended to the state that the scan
of the arguments before reached, `N` is afterwards the object it was in that
state, and the scan goes on with the arguments after. -/
theorem rejected_value_changes_nothing {V : Type} (p : parser V) (N v : Str)
    (o : option_with_value V)
    (hf : options_find N p.options = some (.value o)) (hr : o.read v = none) :
    set_option_value N v p =
      push_error p ("option value is invalid: --".toList ++ N ++ "=".toList ++ v) ∧
    (set_option_value N v p).errors =
      p.errors ++ ["option value is invalid: --".toList ++ N ++ "=".toList ++ v] ∧
    (set_option_value N v p).options = p.options ∧
    options_find N (set_option_value N v p).options = some (.value o) ∧
    v <:+ "option value is invalid: --".toList ++ N ++ "=".toList ++ v ∧
    (∀ (lk : List (Char × Str)) (next : Option Str), '=' ∉ N →
      scan_arg lk ("--".toList ++ N ++ "=".toList ++ v) next p =
        (false, push_error p
          ("option value is invalid: --".toList ++ N ++ "=".toList ++ v))) ∧
    (∀ (lk : List (Char × Str)) (lead : List Char) (c : Char),
      build_lookup p.options [] = .ok lk → (lead ++ [c]).head? ≠ some '-' →
      N ≠ [] → c ≠ Char.ofNat 0 → o.snam = c → begins_dash v = false →
      scan_arg lk ('-' :: (lead ++ [c])) (some v) p =
        (true, push_error (leading lk lead p)
          ("option value is invalid: --".toList ++ N ++ "=".toList ++ v)) ∧
      options_find N (leading lk lead p).options = some (.value o)) ∧
    (∀ (lk : List (Char × Str)) (prog : Str) (pre post : List Str),
      build_lookup p.options [] = .ok lk → '=' ∉ N →
      ∃ o2, options_find N (scan lk pre (start p prog)).options = some (.value o2) ∧
        (parse p (prog :: (pre ++ ("--".toList ++ N ++ "=".toList ++ v) :: post))).2 =
          validate (scan lk post
            (push_error (scan lk pre (start p prog))
              ("option value is invalid: --".toList ++ N ++ "=".toList ++ v))) ∧
        options_find N
          (push_error (scan lk pre (start p prog))
            ("option value is invalid: --".toList ++ N ++ "=".toList ++ v)).options =
          some (.value o2)) ∧
    (∀ (lk : List (Char × Str)) (prog : Str) (pre post : List Str) (lead : List Char)
      (c : Char),
      build_lookup p.options [] = .ok lk → (lead ++ [c]).head? ≠ some '-' →
      N ≠ [] → c ≠ Char.ofNat 0 → o.snam = c → begins_dash v = false →
      ∃ o2, options_find N (scan lk pre (start p prog)).options = some (.value o2) ∧
        (parse p (prog :: (pre ++ ('-' :: (lead ++ [c])) :: v :: post))).2 =
          validate (scan lk post
            (push_error (leading lk lead (scan lk pre (start p prog)))
              ("option value is invalid: --".toList ++ N ++ "=".toList ++ v))) ∧
        options_find N
          (push_error (leading lk lead (scan lk pre (start p prog)))
            ("option value is invalid: --".toList ++ N ++ "=".toList ++ v)).options =
          some (.value o2)) := by
  have hset := set_option_value_rejected N v p o hf hr
  refine ⟨hset, by rw [hset]; rfl, by rw [hset]; rfl, by rw [hset]; exact hf,
    List.suffix_append _ _, ?_, ?_, ?_, ?_⟩
  · intro lk next heq
    rw [scan_arg_long_value lk N v next p heq, hset]
  · intro lk lead c hlk hhead hN hc0 hs hv
    have hl : lookup_find c lk = some N := by
      have := lookup_complete p.options [] lk hlk N (.value o)
        (options_find_mem N _ _ hf) hN (by simpa [option_base.short_name, hs] using hc0)
      simpa [option_base.short_name, hs] using this
    have hkept := leading_value_kept lk lead p N o hf
    rw [scan_arg_cluster_consume lk lead c v p N hhead hl hN
      (by simp [options_has_value, hf, option_base.has_value]) hv,
      set_option_value_rejected N v _ o hkept hr]
    exact ⟨rfl, hkept⟩
  · intro lk prog pre post hlk heq
    obtain ⟨o2, h2, hread⟩ := value_steps (steps_scan lk pre (start p prog)) N o hf
    refine ⟨o2, h2, ?_, h2⟩
    rw [parse_of_lookup p prog _ lk hlk,
      scan_append_dash lk pre _ post _ (by simp [begins_dash]), scan_cons,
      scan_arg_long_value lk N v _ _ heq,
      set_option_value_rejected N v _ o2 h2 (by rw [hread]; exact hr)]
    simp
  · intro lk prog pre post lead c hlk hhead hN hc0 hs hv
    obtain ⟨o2, h2, hread⟩ := value_steps (steps_scan lk pre (start p prog)) N o hf
    have hl : lookup_find c lk = some N := by
      have := lookup_complete p.options [] lk hlk N (.value o)
        (options_find_mem N _ _ hf) hN (by simpa [option_base.short_name, hs] using hc0)
      simpa [option_base.short_name, hs] using this
    have hkept := leading_value_kept lk lead _ N o2 h2
    refine ⟨o2, h2, ?_, hkept⟩
    rw [parse_of_lookup p prog _ lk hlk,
      scan_append_dash lk pre ('-' :: (lead ++ [c])) (v :: post) _ rfl,
      scan_cluster_consume lk lead c v post _ N hhead hl hN
        (by simp [options_has_value, h2, option_base.has_value]) hv,
      set_option_value_rejected N v _ o2 hkept (by rw [hread]; exact hr)]

/-- C8, amended, at the registry `sample`: the reader of `--count` rejects `x`,
after `--count=5` has set it. -/
theorem rejected_value_changes_nothing_witness :
    ∃ o2, options_find "count".toList
        (scan sample_lookup ["--count=5".toList] (start sample "prog".toList)).options =
        some (.value o2) ∧
      (parse sample ("prog".toList :: (["--count=5".toList] ++
        ("--".toList ++ "count".toList ++ "=".toList ++ "x".toList) :: ["extra".toList]))).2 =
        validate (scan sample_lookup ["extra".toList]
          (push_error (scan sample_lookup ["--count=5".toList] (start sample "prog".toList))
            ("option value is invalid: --".toList ++ "count".toList ++ "=".toList
              ++ "x".toList))) :=
  ((rejected_value_changes_nothing sample "count".toList "x".toList
    { ty := "int".toList, nam := "count".toList, snam := 'c', need := false,
      desc := "count (int [=1])".toList, has := false,
      dflt := Value.int 1, actual := Value.int 1, read := read_number }
    rfl rfl).2.2.2.2.2.2.2.1 sample_lookup "prog".toList ["--count=5".toList]
    ["extra".toList] rfl (by decide)).elim (fun o2 h => ⟨o2, h.1, h.2.1⟩)

/-- C10: in a registry without a shared short name, a cluster whose last
character resolves to the value option `C`, at the end of the arguments or
followed by an argument that begins with `-`: the error list gains
`option needs value: --C` after what the leading characters recorded, `C`
keeps its value and its has-set flag, and the scan goes on with the next
argument, which is not consumed. -/
theorem cluster_without_value {V : Type} (p : parser V) (lk : List (Char × Str))
    (lead : List Char) (c : Char) (more : List Str) (C : Str) (o : option_with_value V)
    (hlk : build_lookup p.options [] = .ok lk)
    (hhead : (lead ++ [c]).head? ≠ some '-')
    (hC : C ≠ [] ∧ c ≠ Char.ofNat 0 ∧
      options_find C p.options = some (.value o) ∧ o.snam = c)
    (hmore : ∀ w tail, more = w :: tail → begins_dash w = true) :
    scan lk (('-' :: (lead ++ [c])) :: more) p =
      scan lk more
        (push_error (leading lk lead p) ("option needs value: --".toList ++ C)) ∧
    (push_error (leading lk lead p) ("option needs value: --".toList ++ C)).errors =
      (leading lk lead p).errors ++ ["option needs value: --".toList ++ C] ∧
    options_find C
      (push_error (leading lk lead p) ("option needs value: --".toList ++ C)).options =
      some (.value o) ∧
    (∀ prog, (parse p (prog :: ('-' :: (lead ++ [c])) :: more)).2 =
      validate (scan lk more
        (push_error (leading lk lead (start p prog))
          ("option needs value: --".toList ++ C)))) := by
  obtain ⟨hCn, hc0, hCf, hCs⟩ := hC
  have hl : lookup_find c lk = some C := by
    have := lookup_complete p.options [] lk hlk C (.value o)
      (options_find_mem C _ _ hCf) hCn (by simpa [option_base.short_name, hCs] using hc0)
    simpa [option_base.short_name, hCs] using this
  have core : ∀ q : parser V, options_find C q.options = some (.value o) →
      scan lk (('-' :: (lead ++ [c])) :: more) q =
        scan lk more
          (push_error (leading lk lead q) ("option needs value: --".toList ++ C)) := by
    intro q hq
    rw [scan_cluster_keep lk lead c more q C hhead hl hCn hmore,
      set_option_name_value C _ o (leading_value_kept lk lead q C o hq)]
  refine ⟨core p hCf, rfl, leading_value_kept lk lead p C o hCf, ?_⟩
  intro prog
  rw [parse_of_lookup p prog _ lk hlk, core (start p prog) hCf]

/-- C10 at the registry `sample`: the cluster `-vc` followed by `-o`. -/
theorem cluster_without_value_witness :
    scan sample_lookup ["-vc".toList, "-o".toList] sample =
      scan sample_lookup ["-o".toList]
        (push_error (leading sample_lookup ['v'] sample)
          ("option needs value: --".toList ++ "count".toList)) :=
  (cluster_without_value sample sample_lookup ['v'] 'c' ["-o".toList] "count".toList
    { ty := "int".toList, nam := "count".toList, snam := 'c', need := false,
      desc := "count (int [=1])".toList, has := false,
      dflt := Value.int 1, actual := Value.int 1, read := read_number }
    rfl (by decide) ⟨by decide, by decide, rfl, rfl⟩
    (fun w tail h => by cases h; rfl)).1

/-! ## The registration -/

section registration

variable {V : Type}

theorem options_find_insert_same (n : Str) (o : option_base V)
    (opts : List (Str × option_base V)) :
    options_find n (options_insert n o opts) = some o := by
  induction opts with
  | nil => simp [options_insert, options_find]
  | cons x rest ih =>
    obtain ⟨k, y⟩ := x
    by_cases hk : k = n
    · simp [options_insert, options_find, hk]
    · by_cases hlt : n < k
      · simp [options_insert, options_find, hk, hlt]
      · simp [options_insert, options_find, hk, hlt, ih]

theorem options_find_insert_other (m n : Str) (o : option_base V)
    (opts : List (Str × option_base V)) (h : m ≠ n) :
    options_find m (options_insert n o opts) = options_find m opts := by
  have h2 : ¬ n = m := fun e => h e.symm
  induction opts with
  | nil => simp [options_insert, options_find, h2]
  | cons x rest ih =>
    obtain ⟨k, y⟩ := x
    by_cases hk : k = n
    · subst hk
      simp [options_insert, options_find, h2]
    · by_cases hlt : n < k
      · simp [options_insert, options_find, hk, hlt, h2]
      · by_cases hkm : k = m
        · subst hkm
          simp [options_insert, options_find, h, hlt]
        · simp [options_insert, options_find, hk, hlt, hkm, ih]

theorem add_option_declared (name : Str) (o x : option_base V) (p : parser V)
    (h : options_find name p.options = some x) :
    add_option name o p = .error ("multiple definition: ".toList ++ name) := by
  simp only [add_option, h]

theorem add_option_new (name : Str) (o : option_base V) (p : parser V)
    (h : options_find name p.options = none) :
    add_option name o p =
      .ok { p with options := options_insert name o p.options,
                   ordered := p.ordered ++ [name] } := by
  simp only [add_option, h]

end registration

/-- C12: `add` with a long name `N` that is declared, as a flag or as a value
option of any type, throws `multiple definition: N` in each of its three
forms, whatever the new declaration is, before it changes the map or the
declaration order; with a name that is not declared each form succeeds,
stores the new declaration at `N`, appends `N` to the declaration order and
leaves the other declarations as they were. -/
theorem add_duplicate_fails {V : Type} (p : parser V) (N : Str) :
    (∀ x, options_find N p.options = some x →
      (∀ s d, add p N s d = .error ("multiple definition: ".toList ++ N)) ∧
      (∀ ty textual caster s d need dflt,
        add_value p ty textual caster N s d need dflt =
          .error ("multiple definition: ".toList ++ N)) ∧
      (∀ ty textual s d need dflt reader,
        add_reader p ty textual N s d need dflt reader =
          .error ("multiple definition: ".toList ++ N))) ∧
    (options_find N p.options = none →
      (∀ s d, ∃ q, add p N s d = .ok q ∧ q.ordered = p.ordered ++ [N] ∧
        options_find N q.options =
          some (.flag { nam := N, snam := s, desc := d, has := false }) ∧
        ∀ m, m ≠ N → options_find m q.options = options_find m p.options) ∧
      (∀ ty textual caster s d need dflt,
        ∃ q, add_value p ty textual caster N s d need dflt = .ok q ∧
          q.ordered = p.ordered ++ [N] ∧
          options_find N q.options =
            some (.value
              { ty := ty, nam := N, snam := s, need := need,
                desc := full_description ty textual d need dflt, has := false,
                dflt := dflt, actual := dflt, read := caster }) ∧
          ∀ m, m ≠ N → options_find m q.options = options_find m p.options) ∧
      (∀ ty textual s d need dflt reader,
        ∃ q, add_reader p ty textual N s d need dflt reader = .ok q ∧
          q.ordered = p.ordered ++ [N] ∧
          options_find N q.options =
            some (.value
              { ty := ty, nam := N, snam := s, need := need,
                desc := full_description ty textual d need dflt, has := false,
                dflt := dflt, actual := dflt, read := reader }) ∧
          ∀ m, m ≠ N → options_find m q.options = options_find m p.options)) := by
  constructor
  · intro x hx
    exact ⟨fun s d => add_option_declared N _ x p hx,
      fun ty textual caster s d need dflt => add_option_declared N _ x p hx,
      fun ty textual s d need dflt reader => add_option_declared N _ x p hx⟩
  · intro hn
    refine ⟨fun s d => ⟨_, add_option_new N _ p hn, rfl, ?_, ?_⟩,
      fun ty textual caster s d need dflt => ⟨_, add_option_new N _ p hn, rfl, ?_, ?_⟩,
      fun ty textual s d need dflt reader => ⟨_, add_option_new N _ p hn, rfl, ?_, ?_⟩⟩
    · exact options_find_insert_same N _ p.options
    · exact fun m hm => options_find_insert_other m N _ p.options hm
    · exact options_find_insert_same N _ p.options
    · exact fun m hm => options_find_insert_other m N _ p.options hm
    · exact options_find_insert_same N _ p.options
    · exact fun m hm => options_find_insert_other m N _ p.options hm

/-- C12 at the registry `sample`: `count` is declared as an int, and a flag
`count` is refused. -/
theorem add_duplicate_fails_witness :
    add sample "count".toList 'x' [] = .error ("multiple definition: ".toList ++ "count".toList) :=
  ((add_duplicate_fails sample "count".toList).1 _ rfl).1 'x' []

/-! ## The queries -/

section queries

variable {V : Type}

end queries

/-- C16: the reader made by `range(low, high)` gives `v` exactly when the
default conversion gives `v` and `low <= v <= high`, the two bounds included;
a value option with this reader, handed a string that is out of range, pushes
`option value is invalid` and stays as it was, and so it does with a string
that the conversion rejects. -/
theorem range_reader_bounds {V : Type} [LinearOrder V] (cast : Str → Option V)
    (low high : V) (s : Str) :
    (∀ v, range cast low high s = some v ↔ (cast s = some v ∧ low ≤ v ∧ v ≤ high)) ∧
    (low ≤ high → cast s = some low → range cast low high s = some low) ∧
    (low ≤ high → cast s = some high → range cast low high s = some high) ∧
    (∀ (p : parser V) (N : Str) (o : option_with_value V),
      options_find N p.options = some (.value o) → o.read = range cast low high →
      (∀ v, cast s = some v → ¬ (low ≤ v ∧ v ≤ high) →
        set_option_value N s p =
          push_error p ("option value is invalid: --".toList ++ N ++ "=".toList ++ s)) ∧
      (cast s = none →
        set_option_value N s p =
          push_error p ("option value is invalid: --".toList ++ N ++ "=".toList ++ s)) ∧
      (∀ v, cast s = some v → low ≤ v → v ≤ high →
        set_option_value N s p =
          { p with options :=
              options_assign N (.value { o with actual := v, has := true }) p.options })) := by
  have key : ∀ v, range cast low high s = some v ↔ (cast s = some v ∧ low ≤ v ∧ v ≤ high) := by
    intro v
    unfold range range_reader
    cases hc : cast s with
    | none => simp
    | some r =>
      by_cases h1 : low ≤ r
      · by_cases h2 : r ≤ high
        · simp only [ge_iff_le, h1, h2, decide_True, Bool.and_self, Bool.not_true,
            Bool.false_eq_true, if_false, Option.some.injEq]
          constructor
          · intro e; subst e; exact ⟨rfl, h1, h2⟩
          · intro e; exact e.1
        · simp only [ge_iff_le, h1, h2, decide_True, decide_False, Bool.and_false,
            Bool.not_false, if_true, Option.some.injEq]
          constructor
          · intro e; cases e
          · rintro ⟨e, _, h⟩; subst e; exact (h2 h).elim
      · simp only [ge_iff_le, h1, decide_False, Bool.false_and, Bool.not_false,
          if_true, Option.some.injEq]
        constructor
        · intro e; cases e
        · rintro ⟨e, h, _⟩; subst e; exact (h1 h).elim
  refine ⟨key, ?_, ?_, ?_⟩
  · intro hl hc
    exact (key low).2 ⟨hc, le_refl low, hl⟩
  · intro hl hc
    exact (key high).2 ⟨hc, hl, le_refl high⟩
  · intro p N o hf hrd
    refine ⟨?_, ?_, ?_⟩
    · intro v hc hout
      apply set_option_value_rejected N s p o hf
      rw [hrd]
      cases hr : range cast low high s with
      | none => rfl
      | some r =>
        have := (key r).1 hr
        rw [hc] at this
        obtain ⟨e, h1, h2⟩ := this
        cases e
        exact (hout ⟨h1, h2⟩).elim
    · intro hc
      apply set_option_value_rejected N s p o hf
      rw [hrd]
      cases hr : range cast low high s with
      | none => rfl
      | some r =>
        have := ((key r).1 hr).1
        rw [hc] at this
        cases this
    · intro v hc h1 h2
      apply set_option_value_accepted N s p o v hf
      rw [hrd]
      exact (key v).2 ⟨hc, h1, h2⟩

/-- C16 at the registry `ranged`: `70000` is an int above the range of
`--port`. -/
theorem range_reader_bounds_witness :
    set_option_value "port".toList "70000".toList ranged =
      push_error ranged
        ("option value is invalid: --".toList ++ "port".toList ++ "=".toList
          ++ "70000".toList) :=
  ((range_reader_bounds read_int 1 65535 "70000".toList).2.2.2 ranged "port".toList
    { ty := "int".toList, nam := "port".toList, snam := 'p', need := false,
      desc := "(int [=80])".toList, has := false,
      dflt := 80, actual := 80, read := range read_int 1 65535 }
    rfl rfl).1 70000 rfl (by decide)

/-- C17, as stated, fails: in the registry `sample` the argument `--verbose=1`
records an error and does not set the flag `--verbose`; in the registry `clash`
the argument `--all` is not applied. -/
theorem flag_with_value_rejected :
    (exist (parse sample ["prog".toList, "--verbose=1".toList]).2 "verbose".toList
        = .ok false ∧
      (parse sample ["prog".toList, "--verbose=1".toList]).2.errors =
        ["option value is invalid: --verbose=1".toList, "need option: --output".toList]) ∧
    exist (parse clash ["prog".toList, "--all".toList]).2 "all".toList = .ok false :=
  ⟨⟨rfl, rfl⟩, rfl⟩

/-- C17, amended: for a declared flag `F`, `set_option(F)` always succeeds: it
sets `F` and records no error; `set_option(F, v)` records
`option value is invalid: --F=v` and leaves `F` as it was. In a registry without
a shared short name, for `F` without `=`, after `parse` of `--F` the flag is set
and its scan recorded no error, and after `parse` of `--F=v` the flag is as
before and its scan recorded the one error. -/
theorem flag_set_without_value {V : Type} (p : parser V) (F : Str)
    (f : option_without_value) (hf : options_find F p.options = some (.flag f)) :
    set_option_name F p =
      { p with options := options_assign F (.flag { f with has := true }) p.options } ∧
    exist (set_option_name F p) F = .ok true ∧
    (set_option_name F p).errors = p.errors ∧
    (∀ v, set_option_value F v p =
      push_error p ("option value is invalid: --".toList ++ F ++ "=".toList ++ v)) ∧
    (∀ (lk : List (Char × Str)) (prog : Str), '=' ∉ F →
      build_lookup p.options [] = .ok lk →
      exist (parse p [prog, "--".toList ++ F]).2 F = .ok true ∧
      (scan lk ["--".toList ++ F] (start p prog)).errors = [] ∧
      ∀ v, exist (parse p [prog, "--".toList ++ F ++ "=".toList ++ v]).2 F = .ok f.has ∧
        (scan lk ["--".toList ++ F ++ "=".toList ++ v] (start p prog)).errors =
          ["option value is invalid: --".toList ++ F ++ "=".toList ++ v]) := by
  have h1 := set_option_name_flag F p f hf
  refine ⟨h1, ?_, by rw [h1], fun v => set_option_value_flag F v p f hf, ?_⟩
  · rw [h1]
    simp [exist, options_find_assign, hf, option_base.has_set]
  · intro lk prog heq hlk
    have hs : set_option_name F (start p prog) =
        { (start p prog) with
          options := options_assign F (.flag { f with has := true }) p.options } :=
      set_option_name_flag F (start p prog) f hf
    refine ⟨?_, ?_, fun v => ⟨?_, ?_⟩⟩
    · rw [parse_of_lookup p prog _ lk hlk]
      simp only [scan, scan_arg_long_plain lk F none _ heq, hs]
      simp [exist, options_find_assign, hf, option_base.has_set]
    · simp only [scan, scan_arg_long_plain lk F none _ heq, hs]
      rfl
    · rw [parse_of_lookup p prog _ lk hlk]
      simp only [scan, scan_arg_long_value lk F v none _ heq,
        set_option_value_flag F v (start p prog) f hf]
      simp [exist, hf, option_base.has_set]
    · simp only [scan, scan_arg_long_value lk F v none _ heq,
        set_option_value_flag F v (start p prog) f hf]
      rfl

/-- C17, amended, at the registry `sample`: `--verbose`. -/
theorem flag_set_without_value_witness :
    exist (parse sample ["prog".toList, "--".toList ++ "verbose".toList]).2
      "verbose".toList = .ok true :=
  ((flag_set_without_value sample "verbose".toList
    { nam := "verbose".toList, snam := 'v', desc := "verbose".toList, has := false }
    rfl).2.2.2.2 sample_lookup "prog".toList (by decide) rfl).1

/-- C18, as stated, fails: in the registry `clash`, whose flags share a short
name, `--num x` records no `option needs value` and `x` is not positional. -/
theorem long_option_not_scanned :
    (parse clash ["prog".toList, "--num".toList, "x".toList]).2.errors =
      [ambiguous_message 'a'] ∧
    "option needs value: --num".toList ∉
      (parse clash ["prog".toList, "--num".toList, "x".toList]).2.errors ∧
    begins_dash "x".toList = false ∧
    rest (parse clash ["prog".toList, "--num".toList, "x".toList]).2 = [] :=
  ⟨rfl, by decide, rfl, rfl⟩

/-- C18, amended: in a registry without a shared short name, for a value option
`N` without `=` in its name, the argument `--N` records
`option needs value: --N`, whatever the reader of `N` accepts, leaves every
option as it was and consumes nothing: the scan goes on with the argument
after it; after `parse` of `--N w` with a `w` that does not begin with `-`,
`rest()` is `w` and `N` is as before. -/
theorem long_option_takes_no_value {V : Type} (p : parser V) (lk : List (Char × Str))
    (prog N w : Str) (o : option_with_value V)
    (hlk : build_lookup p.options [] = .ok lk) (heq : '=' ∉ N)
    (hf : options_find N p.options = some (.value o)) :
    (∀ more, scan lk (("--".toList ++ N) :: more) (start p prog) =
      scan lk more (push_error (start p prog) ("option needs value: --".toList ++ N))) ∧
    (push_error (start p prog) ("option needs value: --".toList ++ N)).options =
      p.options ∧
    (parse p [prog, "--".toList ++ N, w]).2 =
      validate (scan lk [w]
        (push_error (start p prog) ("option needs value: --".toList ++ N))) ∧
    (begins_dash w = false →
      rest (parse p [prog, "--".toList ++ N, w]).2 = [w] ∧
      (parse p [prog, "--".toList ++ N, w]).2.options = p.options ∧
      (parse p [prog, "--".toList ++ N, w]).2.errors =
        ("option needs value: --".toList ++ N) :: need_errors p.options) := by
  have hstep : ∀ more, scan lk (("--".toList ++ N) :: more) (start p prog) =
      scan lk more (push_error (start p prog) ("option needs value: --".toList ++ N)) := by
    intro more
    rw [scan_cons, scan_arg_long_plain lk N _ _ heq,
      set_option_name_value N (start p prog) o hf]
    simp
  refine ⟨hstep, rfl, ?_, ?_⟩
  · rw [parse_of_lookup p prog _ lk hlk, hstep]
  · intro hw
    have hwscan : ∀ q : parser V, scan lk [w] q = { q with others := q.others ++ [w] } := by
      intro q
      cases w with
      | nil => rfl
      | cons c0 r0 =>
        have hc : ¬ c0 = '-' := by simpa [begins_dash] using hw
        simp [scan, scan_arg, hc]
    rw [parse_of_lookup p prog _ lk hlk, hstep, hwscan]
    exact ⟨rfl, rfl, rfl⟩

/-- C18, amended, at the registry `sample`: `--count 5`. -/
theorem long_option_takes_no_value_witness :
    rest (parse sample ["prog".toList, "--".toList ++ "count".toList, "5".toList]).2
      = ["5".toList] :=
  ((long_option_takes_no_value sample sample_lookup "prog".toList "count".toList
    "5".toList
    { ty := "int".toList, nam := "count".toList, snam := 'c', need := false,
      desc := "count (int [=1])".toList, has := false,
      dflt := Value.int 1, actual := Value.int 1, read := read_number }
    rfl (by decide) rfl).2.2.2 rfl).1

/-! ## Shared short names -/

section shared

variable {V : Type}

/-- The early exit of the lookup names a short name that two declarations with
non-empty long names share. -/
theorem shares_of_clash (pre opts : List (Str × option_base V)) (acc : List (Char × Str))
    (c : Char)
    (hinv : ∀ ch n, lookup_find ch acc = some n →
      ∃ o, (n, o) ∈ pre ∧ n ≠ [] ∧ o.short_name = ch)
    (h : build_lookup opts acc = .error c) : shares (pre ++ opts) c := by
  induction opts generalizing pre acc with
  | nil => simp [build_lookup] at h
  | cons x rest ih =>
    obtain ⟨k, o⟩ := x
    unfold build_lookup at h
    have hpre : ∀ ch n, lookup_find ch acc = some n →
        ∃ o2, (n, o2) ∈ pre ++ [(k, o)] ∧ n ≠ [] ∧ o2.short_name = ch := by
      intro ch n hl
      obtain ⟨o2, hm, h2⟩ := hinv ch n hl
      exact ⟨o2, List.mem_append_left _ hm, h2⟩
    have happ : pre ++ (k, o) :: rest = (pre ++ [(k, o)]) ++ rest := by simp
    by_cases hk : k.length = 0
    · rw [if_pos hk] at h
      rw [happ]; exact ih _ acc hpre h
    · rw [if_neg hk] at h
      have hkn : k ≠ [] := fun e => hk (by rw [e]; rfl)
      by_cases hs : o.short_name = Char.ofNat 0
      · rw [if_pos hs] at h
        rw [happ]; exact ih _ acc hpre h
      · rw [if_neg hs] at h
        cases hl : lookup_find o.short_name acc with
        | some n =>
          rw [hl] at h
          have hc : o.short_name = c := by
            simpa using h
          obtain ⟨o1, hm, hn, hs1⟩ := hinv _ n hl
          obtain ⟨l1, l2, hsplit⟩ := List.append_of_mem hm
          refine ⟨hc ▸ hs, l1, n, o1, l2, k, o, rest, ?_, hn, hkn, hs1.trans hc, hc⟩
          rw [hsplit]; simp
        | none =>
          rw [hl] at h
          rw [happ]
          refine ih _ _ ?_ h
          intro ch n hf
          by_cases e : o.short_name = ch
          · have : k = n := by simpa [lookup_find, e] using hf
            subst this
            exact ⟨o, by simp, hkn, e⟩
          · exact hpre ch n (by simpa [lookup_find, e] using hf)

/-- Two declarations with different non-empty long names and the same non-zero
short name make the lookup stop. -/
theorem clash_of_two (opts : List (Str × option_base V)) (k1 k2 : Str)
    (o1 o2 : option_base V) (c : Char)
    (h1 : options_find k1 opts = some o1) (h2 : options_find k2 opts = some o2)
    (hne : k1 ≠ k2) (hk1 : k1 ≠ []) (hk2 : k2 ≠ [])
    (hs1 : o1.short_name = c) (hs2 : o2.short_name = c) (hc : c ≠ Char.ofNat 0) :
    ∃ c2, build_lookup opts [] = .error c2 ∧ shares opts c2 := by
  cases hlk : build_lookup opts [] with
  | error c2 =>
    refine ⟨c2, rfl, ?_⟩
    have := shares_of_clash [] opts [] c2 (by intro ch n h; simp [lookup_find] at h) hlk
    simpa using this
  | ok lk =>
    exfalso
    have e1 := lookup_complete opts [] lk hlk k1 o1 (options_find_mem k1 _ _ h1) hk1
      (by rw [hs1]; exact hc)
    have e2 := lookup_complete opts [] lk hlk k2 o2 (options_find_mem k2 _ _ h2) hk2
      (by rw [hs2]; exact hc)
    rw [hs1] at e1
    rw [hs2, e1] at e2
    exact hne (by simpa using e2)

theorem need_errors_valid (opts : List (Str × option_base V))
    (h : ∀ ko ∈ opts, ko.2.valid = true) : need_errors opts = [] := by
  induction opts with
  | nil => rfl
  | cons x rest ih =>
    obtain ⟨k, o⟩ := x
    have hv : o.valid = true := h (k, o) (by simp)
    simp only [need_errors, hv, if_true]
    exact ih (fun ko hm => h ko (List.mem_cons_of_mem _ hm))

end shared

/-- C19: the step of the scan for the argument `-` changes nothing: no
positional argument, no error, no option; the scan of the arguments around it
is the scan without it; in a registry with no required option unset and no
shared short name, `parse` of `-` alone returns true with `rest()` and the
error list empty. -/
theorem bare_dash_ignored {V : Type} (p : parser V) (lk : List (Char × Str)) :
    (∀ next, scan_arg lk ['-'] next p = (false, p)) ∧
    (∀ pre post, scan lk (pre ++ ['-'] :: post) p = scan lk post (scan lk pre p)) ∧
    (∀ prog, build_lookup p.options [] = .ok lk →
      (∀ ko ∈ p.options, ko.2.valid = true) →
      parse p [prog, ['-']] = (true, start p prog) ∧
      rest (parse p [prog, ['-']]).2 = [] ∧
      (parse p [prog, ['-']]).2.errors = [] ∧
      (parse p [prog, ['-']]).2.options = p.options) := by
  have hstep : ∀ (next : Option Str) (q : parser V), scan_arg lk ['-'] next q = (false, q) :=
    fun next q => by simp [scan_arg]
  refine ⟨fun next => hstep next p, ?_, ?_⟩
  · intro pre post
    rw [scan_append_dash lk pre ['-'] post p rfl, scan_cons, hstep]
    simp
  · intro prog hlk hv
    have e : parse p [prog, ['-']] = (true, start p prog) := by
      rw [parse_of_lookup p prog _ lk hlk]
      simp only [scan, hstep]
      have hn : need_errors p.options = [] := need_errors_valid _ hv
      simp [validate, hn, start, clear]
    rw [e]
    exact ⟨rfl, rfl, rfl, rfl⟩

/-- C19 at the registry `ranged`, which has no required option. -/
theorem bare_dash_ignored_witness :
    parse ranged ["prog".toList, ['-']] = (true, start ranged "prog".toList) :=
  ((bare_dash_ignored ranged [('p', "port".toList)]).2.2 "prog".toList rfl
    (by intro ko hko; simp [ranged] at hko; subst hko; rfl)).1

/-- C20, as stated, fails: in the registry `double` the options `--c1` and
`--c2` have non-empty long names and share the short name `c`, and the one
entry of the error list names `a`, which `--a1` and `--a2` share, not `c`. -/
theorem other_shared_short_name_reported :
    options_find "c1".toList double.options =
      some (.flag { nam := "c1".toList, snam := 'c', desc := [], has := false }) ∧
    options_find "c2".toList double.options =
      some (.flag { nam := "c2".toList, snam := 'c', desc := [], has := false }) ∧
    (parse double ["prog".toList, "--c1".toList]).2.errors =
      ["short option 'a' is ambiguous".toList] ∧
    "short option 'c' is ambiguous".toList ∉
      (parse double ["prog".toList, "--c1".toList]).2.errors :=
  ⟨rfl, rfl, rfl, by decide⟩

/-- C20, amended: when two declared options with non-empty long names share the
non-zero short name `c`, every `parse` of at least the program name returns
false, its error list is the one entry `short option 'x' is ambiguous` for a
short name `x` that two such options share, which is `c` when no other short
name is shared, `rest()` is empty and every option is as it was, whatever the
arguments are. -/
theorem shared_short_name_stops_parse {V : Type} (p : parser V) (k1 k2 : Str)
    (o1 o2 : option_base V) (c : Char)
    (h1 : options_find k1 p.options = some o1) (h2 : options_find k2 p.options = some o2)
    (hne : k1 ≠ k2) (hk1 : k1 ≠ []) (hk2 : k2 ≠ [])
    (hs1 : o1.short_name = c) (hs2 : o2.short_name = c) (hc : c ≠ Char.ofNat 0) :
    ∃ x, shares p.options x ∧ ((∀ ch, shares p.options ch → ch = c) → x = c) ∧
      ∀ prog args,
        parse p (prog :: args) =
          (false, push_error (start p prog)
            ("short option '".toList ++ [x] ++ "' is ambiguous".toList)) ∧
        (parse p (prog :: args)).1 = false ∧
        (parse p (prog :: args)).2.errors =
          ["short option '".toList ++ [x] ++ "' is ambiguous".toList] ∧
        rest (parse p (prog :: args)).2 = [] ∧
        (parse p (prog :: args)).2.options = p.options := by
  obtain ⟨x, hlk, hsh⟩ := clash_of_two p.options k1 k2 o1 o2 c h1 h2 hne hk1 hk2 hs1 hs2 hc
  refine ⟨x, hsh, fun hu => hu x hsh, fun prog args => ?_⟩
  rw [parse_of_clash p prog args x hlk]
  exact ⟨rfl, rfl, rfl, rfl, rfl⟩

/-- C20, amended, at the registry `clash`: `--all` and `--any` share `a`, and
`--num=3` is not applied. -/
theorem shared_short_name_stops_parse_witness :
    ∃ x, shares clash.options x ∧
      (parse clash ["prog".toList, "--num=3".toList]).2.errors =
        ["short option '".toList ++ [x] ++ "' is ambiguous".toList] ∧
      (parse clash ["prog".toList, "--num=3".toList]).2.options = clash.options :=
  (shared_short_name_stops_parse clash "all".toList "any".toList
    (option_base.flag { nam := "all".toList, snam := 'a', desc := [], has := false })
    (option_base.flag { nam := "any".toList, snam := 'a', desc := [], has := false })
    'a' rfl rfl (by decide) (by decide) (by decide) rfl rfl (by decide)).elim
    (fun x h => ⟨x, h.1, (h.2.2 "prog".toList ["--num=3".toList]).2.2.1,
      (h.2.2 "prog".toList ["--num=3".toList]).2.2.2.2⟩)

/-- C11, as stated, fails: in the registry `hidden` the flag with the empty
long name and `--foo` share `c`, and `-c` sets `--foo` and `parse` returns
true; in the registry `double`, where `a` and `c` are both shared, `parse` of
`-c` reports `a`, not `c`. -/
theorem shared_short_name_unreported :
    (options_find [] hidden.options =
        some (.flag { nam := [], snam := 'c', desc := [], has := false }) ∧
      options_find "foo".toList hidden.options =
        some (.flag { nam := "foo".toList, snam := 'c', desc := [], has := false }) ∧
      (parse hidden ["prog".toList, "-c".toList]).1 = true ∧
      exist (parse hidden ["prog".toList, "-c".toList]).2 "foo".toList = .ok true) ∧
    (options_find "c1".toList double.options =
        some (.flag { nam := "c1".toList, snam := 'c', desc := [], has := false }) ∧
      options_find "c2".toList double.options =
        some (.flag { nam := "c2".toList, snam := 'c', desc := [], has := false }) ∧
      (parse double ["prog".toList, "-c".toList]).2.errors = [ambiguous_message 'a'] ∧
      ambiguous_message 'c' ∉ (parse double ["prog".toList, "-c".toList]).2.errors) :=
  ⟨⟨rfl, rfl, rfl, rfl⟩, ⟨rfl, rfl, rfl, by decide⟩⟩

/-- C11, amended: when two declarations with non-empty long names share the
non-zero short name `c`, every `parse` of at least the program name returns
false with the one error `short option 'x' is ambiguous`, where `x` is a short
name that two such declarations share, and is `c` when no other short name is
shared, and it changes no option; and two `add` calls with names that are not
declared both succeed, whatever the short names of the new declarations. -/
theorem shared_short_name_is_reported {V : Type} (p : parser V) (k1 k2 : Str)
    (o1 o2 : option_base V) (c : Char)
    (h1 : options_find k1 p.options = some o1) (h2 : options_find k2 p.options = some o2)
    (hne : k1 ≠ k2) (hk1 : k1 ≠ []) (hk2 : k2 ≠ [])
    (hs1 : o1.short_name = c) (hs2 : o2.short_name = c) (hc : c ≠ Char.ofNat 0) :
    (∃ x, shares p.options x ∧ ((∀ ch, shares p.options ch → ch = c) → x = c) ∧
      ∀ prog args,
        (parse p (prog :: args)).1 = false ∧
        (parse p (prog :: args)).2.errors =
          ["short option '".toList ++ [x] ++ "' is ambiguous".toList] ∧
        (parse p (prog :: args)).2.options = p.options) ∧
    (∀ (q : parser V) (n1 n2 : Str) (x1 x2 : option_base V),
      options_find n1 q.options = none → options_find n2 q.options = none → n1 ≠ n2 →
      ∃ q1 q2, add_option n1 x1 q = .ok q1 ∧ add_option n2 x2 q1 = .ok q2 ∧
        options_find n1 q2.options = some x1 ∧ options_find n2 q2.options = some x2) ∧
    (∀ (q : parser V) (n : Str) (s : Char) (d : Str),
      add q n s d =
        add_option n (.flag { nam := n, snam := s, desc := d, has := false }) q) := by
  obtain ⟨x, hlk, hsh⟩ := clash_of_two p.options k1 k2 o1 o2 c h1 h2 hne hk1 hk2 hs1 hs2 hc
  refine ⟨⟨x, hsh, fun hu => hu x hsh, fun prog args => ?_⟩, ?_, fun _ _ _ _ => rfl⟩
  · rw [parse_of_clash p prog args x hlk]
    exact ⟨rfl, rfl, rfl⟩
  · intro q n1 n2 x1 x2 hn1 hn2 hn
    have e1 := add_option_new n1 x1 q hn1
    have hn2b : options_find n2 (options_insert n1 x1 q.options) = none := by
      rw [options_find_insert_other n2 n1 x1 q.options (fun e => hn e.symm)]; exact hn2
    refine ⟨_, _, e1, add_option_new n2 x2 _ hn2b, ?_, ?_⟩
    · show options_find n1 (options_insert n2 x2 (options_insert n1 x1 q.options)) = some x1
      rw [options_find_insert_other n1 n2 x2 _ hn]
      exact options_find_insert_same n1 x1 q.options
    · exact options_find_insert_same n2 x2 _

/-- C11, amended, at the registry `clash`: `parse` of `-a` returns false. -/
theorem shared_short_name_is_reported_witness :
    ∃ x, (parse clash ["prog".toList, "-a".toList]).1 = false ∧
      (parse clash ["prog".toList, "-a".toList]).2.errors =
        ["short option '".toList ++ [x] ++ "' is ambiguous".toList] :=
  (shared_short_name_is_reported clash "all".toList "any".toList
    (option_base.flag { nam := "all".toList, snam := 'a', desc := [], has := false })
    (option_base.flag { nam := "any".toList, snam := 'a', desc := [], has := false })
    'a' rfl rfl (by decide) (by decide) (by decide) rfl rfl (by decide)).1.elim
    (fun x hx => ⟨x, (hx.2.2 "prog".toList ["-a".toList]).1,
      (hx.2.2 "prog".toList ["-a".toList]).2.1⟩)

/-! ## The options that a scan does not touch -/

section untouched

variable {V : Type}

theorem set_option_name_other (n N : Str) (p : parser V) (h : n ≠ N) :
    options_find N (set_option_name n p).options = options_find N p.options := by
  have h2 : N ≠ n := fun e => h e.symm
  cases hf : options_find n p.options with
  | none => rw [set_option_name_undefined n p hf]; rfl
  | some o =>
    cases o with
    | flag f =>
      rw [set_option_name_flag n p f hf]
      simp [options_find_assign, h2]
    | value o => rw [set_option_name_value n p o hf]; rfl

theorem set_option_value_other (n v N : Str) (p : parser V) (h : n ≠ N) :
    options_find N (set_option_value n v p).options = options_find N p.options := by
  have h2 : N ≠ n := fun e => h e.symm
  cases hf : options_find n p.options with
  | none => rw [set_option_value_undefined n v p hf]; rfl
  | some o =>
    cases o with
    | flag f => rw [set_option_value_flag n v p f hf]; rfl
    | value o =>
      cases hr : o.read v with
      | none => rw [set_option_value_rejected n v p o hf hr]; rfl
      | some r =>
        rw [set_option_value_accepted n v p o r hf hr]
        simp [options_find_assign, h2]

theorem short_option_other (lk : List (Char × Str)) (ch : Char) (N : Str) (p : parser V)
    (h : lookup_find ch lk ≠ some N) :
    options_find N (short_option lk ch p).options = options_find N p.options := by
  unfold short_option
  cases hl : lookup_find ch lk with
  | none => rfl
  | some name =>
    by_cases hn : name = []
    · simp only [hn, if_true]; rfl
    · simp only [hn, if_false]
      exact set_option_name_other name N p (fun e => h (by rw [hl, e]))

theorem cluster_loop_other (lk : List (Char × Str)) (c : Char) (cs : List Char) (N : Str)
    (p : parser V) (h : ∀ ch ∈ c :: cs, lookup_find ch lk ≠ some N) :
    options_find N (cluster_loop lk c cs p).2.options = options_find N p.options := by
  induction cs generalizing c p with
  | nil => rfl
  | cons x xs ih =>
    simp only [cluster_loop]
    rw [ih x _ (fun ch hch => h ch (List.mem_cons_of_mem _ hch)),
      short_option_other lk c N p (h c (List.mem_cons_self _ _))]

theorem getLastD_mem (c : Char) (cs : List Char) : cs.getLastD c ∈ c :: cs := by
  induction cs generalizing c with
  | nil => simp
  | cons x xs ih =>
    rw [List.getLastD_cons]
    exact List.mem_cons_of_mem _ (ih x)

theorem scan_short_other (lk : List (Char × Str)) (c : Char) (cs : List Char)
    (next : Option Str) (N : Str) (p : parser V)
    (h : ∀ ch ∈ c :: cs, lookup_find ch lk ≠ some N) :
    options_find N (scan_short lk c cs next p).2.options = options_find N p.options := by
  have h0 := cluster_loop_other lk c cs N p h
  have hlast : lookup_find (cluster_loop lk c cs p).1 lk ≠ some N := by
    rw [cluster_loop_last]
    exact h _ (getLastD_mem c cs)
  cases hl : lookup_find (cluster_loop lk c cs p).1 lk with
  | none => rw [scan_short_undefined lk c cs next p hl]; exact h0
  | some name =>
    have hne : name ≠ N := fun e => hlast (by rw [hl, e])
    by_cases hn : name = []
    · rw [hn] at hl
      rw [scan_short_ambiguous lk c cs next p hl]; exact h0
    · cases next with
      | none =>
        rw [scan_short_last lk c cs p name hl hn]
        exact (set_option_name_other name N _ hne).trans h0
      | some w =>
        cases hc : (begins_dash w ||
            !(options_has_value name (cluster_loop lk c cs p).2.options)) with
        | true =>
          rw [scan_short_keep lk c cs w p name hl hn hc]
          exact (set_option_name_other name N _ hne).trans h0
        | false =>
          rw [scan_short_consume lk c cs w p name hl hn hc]
          exact (set_option_value_other name w N _ hne).trans h0

theorem starts_with_append (a b : Str) : starts_with a (a ++ b) = true := by
  induction a with
  | nil => rfl
  | cons x xs ih => simp [starts_with, ih]

theorem split_eq_text (r : Str) :
    r = (split_eq r).1 ∨ ∃ v, r = (split_eq r).1 ++ '=' :: v := by
  induction r with
  | nil => left; rfl
  | cons c cs ih =>
    by_cases hc : c = '='
    · right
      exact ⟨cs, by simp [split_eq, hc]⟩
    · rcases ih with h | ⟨v, h⟩
      · left
        simp only [split_eq, hc, if_false]
        rw [← h]
      · right
        refine ⟨v, ?_⟩
        simp only [split_eq, hc, if_false, List.cons_append]
        rw [← h]

/-- One step of the scan leaves an option that its argument does not mention
as it was; `c` is the only character that the lookup maps to `N`. -/
theorem scan_arg_other (lk : List (Char × Str)) (arg : Str) (next : Option Str) (N : Str)
    (c : Char) (p : parser V)
    (hN : ∀ ch, lookup_find ch lk = some N → ch = c ∧ c ≠ Char.ofNat 0)
    (hm : mentions N c arg = false) :
    options_find N (scan_arg lk arg next p).2.options = options_find N p.options := by
  cases arg with
  | nil => rfl
  | cons c0 r0 =>
    by_cases h0 : c0 = '-'
    · subst h0
      cases r0 with
      | nil => simp [scan_arg]
      | cons c1 r1 =>
        by_cases h1 : c1 = '-'
        · subst h1
          have hname : (split_eq r1).1 ≠ N := by
            intro e
            rcases split_eq_text r1 with h | ⟨v, h⟩
            · rw [e] at h
              simp [mentions, h] at hm
            · rw [e] at h
              have hs : starts_with ("--".toList ++ N ++ "=".toList)
                  ('-' :: '-' :: r1) = true := by
                have := starts_with_append ("--".toList ++ N ++ "=".toList) v
                rw [h]
                simpa using this
              simp only [String.toList, List.cons_append, List.nil_append,
                List.append_assoc] at hs
              simp [mentions, hs] at hm
          unfold scan_arg
          simp only [if_true]
          cases hs : split_eq r1 with
          | mk name val =>
            rw [hs] at hname
            cases val with
            | none => exact set_option_name_other name N p hname
            | some v => exact set_option_value_other name v N p hname
        · rw [scan_arg_cluster lk c1 r1 next p h1]
          apply scan_short_other
          intro ch hch hl
          obtain ⟨e, hc0⟩ := hN ch hl
          subst e
          simp [mentions, h1, hc0] at hm
          rcases List.mem_cons.mp hch with e | e
          · exact hm.2.1 e
          · exact hm.2.2 e
    · simp [scan_arg, h0]

theorem scan_other (lk : List (Char × Str)) (args : List Str) (N : Str) (c : Char)
    (p : parser V)
    (hN : ∀ ch, lookup_find ch lk = some N → ch = c ∧ c ≠ Char.ofNat 0)
    (hm : ∀ arg ∈ args, mentions N c arg = false) :
    options_find N (scan lk args p).options = options_find N p.options := by
  revert hm
  induction args, p using scan.induct lk with
  | case1 p => intro _; rfl
  | case2 arg p =>
    intro hm
    exact scan_arg_other lk arg none N c p hN (hm arg (by simp))
  | case3 arg w tail p hc ih =>
    intro hm
    rw [scan, if_pos hc, ih (fun a ha => hm a (by simp [ha]))]
    exact scan_arg_other lk arg _ N c p hN (hm arg (by simp))
  | case4 arg w tail p hc ih =>
    intro hm
    rw [scan, if_neg hc, ih (fun a ha => hm a (List.mem_cons_of_mem _ ha))]
    exact scan_arg_other lk arg _ N c p hN (hm arg (by simp))

end untouched

/-- C14: `parse` leaves every option that no argument mentions, neither as
`--N` or `--N=...` nor by its short character in a cluster, exactly as it was:
the same object at `N`, so the same answers of `exist` and of `get`. -/
theorem unmentioned_option_kept {V : Type} (p : parser V) (argv : List Str) (N : Str)
    (o : option_base V)
    (hu : (keys p.options).Nodup)
    (hf : options_find N p.options = some o)
    (hm : ∀ arg ∈ argv.tail, mentions N o.short_name arg = false) :
    options_find N (parse p argv).2.options = some o ∧
    exist (parse p argv).2 N = exist p N ∧
    (∀ T, get (parse p argv).2 T N = get p T N) := by
  have key : options_find N (parse p argv).2.options = some o := by
    cases argv with
    | nil => exact hf
    | cons prog args =>
      cases hlk : build_lookup p.options [] with
      | error c => rw [parse_of_clash p prog args c hlk]; exact hf
      | ok lk =>
        rw [parse_of_lookup p prog args lk hlk]
        have hN : ∀ ch, lookup_find ch lk = some N →
            ch = o.short_name ∧ o.short_name ≠ Char.ofNat 0 := by
          intro ch hl
          rcases lookup_sound p.options [] lk hlk ch N hl with h | ⟨o2, hmem, _, hs, h0⟩
          · simp [lookup_find] at h
          · have := options_find_of_mem N o2 p.options hu hmem
            rw [hf] at this
            cases this
            exact ⟨hs.symm, hs ▸ h0⟩
        have := scan_other lk args N o.short_name (start p prog) hN hm
        rw [validate_options, this]
        exact hf
  refine ⟨key, ?_, fun T => ?_⟩
  · simp only [exist, key, hf]
  · simp only [get, key, hf]

/-- C14 at the registry `sample`: `-v extra` does not mention `--count`. -/
theorem unmentioned_option_kept_witness :
    exist (parse sample ["prog".toList, "-v".toList, "extra".toList]).2 "count".toList
      = exist sample "count".toList ∧
    get (parse sample ["prog".toList, "-v".toList, "extra".toList]).2 "int".toList
      "count".toList = get sample "int".toList "count".toList :=
  have h := unmentioned_option_kept sample
    ["prog".toList, "-v".toList, "extra".toList] "count".toList
    (option_base.value
      { ty := "int".toList, nam := "count".toList, snam := 'c', need := false,
        desc := "count (int [=1])".toList, has := false,
        dflt := Value.int 1, actual := Value.int 1, read := read_number })
    (by decide) rfl (by decide)
  ⟨h.2.1, h.2.2 "int".toList⟩

/-! ## Two scans of the same arguments -/

section twice

variable {V : Type}

theorem declared_flag_eq (f g : option_without_value)
    (h : declared (V := V) (.flag f) = declared (.flag g)) :
    ({ f with has := true } : option_without_value) = { g with has := true } := by
  cases f; cases g
  simp only [declared, option_base.flag.injEq, option_without_value.mk.injEq] at h
  simp [h.1, h.2.1, h.2.2.1]

theorem declared_value_eq (o w : option_with_value V)
    (h : declared (.value o) = declared (.value w)) :
    o.read = w.read ∧
    ∀ r, ({ o with actual := r, has := true } : option_with_value V) =
      { w with actual := r, has := true } := by
  cases o; cases w
  simp only [declared, option_base.value.injEq, option_with_value.mk.injEq] at h
  obtain ⟨h1, h2, h3, h4, h5, _, h7, _, h9⟩ := h
  simp [h1, h2, h3, h4, h5, h7, h9]

theorem same_declarations_find {a b : parser V} (h : same_declarations a b) (n : Str) :
    (options_find n a.options = none → options_find n b.options = none) ∧
    (∀ f, options_find n a.options = some (.flag f) →
      ∃ g, options_find n b.options = some (.flag g) ∧
        declared (V := V) (.flag f) = declared (.flag g)) ∧
    (∀ o, options_find n a.options = some (.value o) →
      ∃ w, options_find n b.options = some (.value w) ∧
        declared (.value o) = declared (.value w)) := by
  have hn := h.2.2.2.2 n
  refine ⟨?_, ?_, ?_⟩
  · intro ha
    rw [ha] at hn
    cases hb : options_find n b.options with
    | none => rfl
    | some y => rw [hb] at hn; cases hn
  · intro f ha
    rw [ha] at hn
    cases hb : options_find n b.options with
    | none => rw [hb] at hn; cases hn
    | some y =>
      rw [hb] at hn
      cases y with
      | flag g => exact ⟨g, rfl, by simpa using hn⟩
      | value w => simp [declared] at hn
  · intro o ha
    rw [ha] at hn
    cases hb : options_find n b.options with
    | none => rw [hb] at hn; cases hn
    | some y =>
      rw [hb] at hn
      cases y with
      | flag g => simp [declared] at hn
      | value w => exact ⟨w, rfl, by simpa using hn⟩

theorem tracks_refl {a b : parser V} (h : same_declarations a b) : tracks a b a b :=
  ⟨h, fun _ => Or.inr ⟨rfl, rfl⟩⟩

theorem tracks_trans {a b a1 b1 a2 b2 : parser V} (h1 : tracks a b a1 b1)
    (h2 : tracks a1 b1 a2 b2) : tracks a b a2 b2 := by
  refine ⟨h2.1, fun m => ?_⟩
  rcases h2.2 m with e | ⟨e1, e2⟩
  · exact Or.inl e
  · rcases h1.2 m with e3 | ⟨e3, e4⟩
    · left; rw [e1, e2, e3]
    · right; exact ⟨e1.trans e3, e2.trans e4⟩

theorem tracks_push_error {a b : parser V} (h : same_declarations a b) (m : Str) :
    tracks a b (push_error a m) (push_error b m) := by
  obtain ⟨h1, h2, h3, h4, h5⟩ := h
  refine ⟨⟨h1, h2, ?_, h4, h5⟩, fun _ => Or.inr ⟨rfl, rfl⟩⟩
  show a.errors ++ [m] = b.errors ++ [m]
  rw [h3]

theorem tracks_others {a b : parser V} (h : same_declarations a b) (w : Str) :
    tracks a b { a with others := a.others ++ [w] } { b with others := b.others ++ [w] } := by
  obtain ⟨h1, h2, h3, h4, h5⟩ := h
  refine ⟨⟨h1, ?_, h3, h4, h5⟩, fun _ => Or.inr ⟨rfl, rfl⟩⟩
  show a.others ++ [w] = b.others ++ [w]
  rw [h2]

theorem tracks_assign {a b : parser V} (h : same_declarations a b) (n : Str)
    (x y z : option_base V) (hx : options_find n a.options = some x)
    (hy : options_find n b.options = some y) :
    tracks a b { a with options := options_assign n z a.options }
      { b with options := options_assign n z b.options } := by
  obtain ⟨h1, h2, h3, h4, h5⟩ := h
  refine ⟨⟨h1, h2, h3, ?_, ?_⟩, ?_⟩
  · show keys (options_assign n z a.options) = keys (options_assign n z b.options)
    rw [keys_assign, keys_assign, h4]
  · intro m
    show (options_find m (options_assign n z a.options)).map declared =
      (options_find m (options_assign n z b.options)).map declared
    by_cases e : m = n
    · subst e; simp [options_find_assign, hx, hy]
    · simp only [options_find_assign, e, if_false]; exact h5 m
  · intro m
    by_cases e : m = n
    · subst e
      left
      show options_find m (options_assign m z b.options) =
        options_find m (options_assign m z a.options)
      simp [options_find_assign, hx, hy]
    · right
      constructor
      · show options_find m (options_assign n z b.options) = options_find m b.options
        simp [options_find_assign, e]
      · show options_find m (options_assign n z a.options) = options_find m a.options
        simp [options_find_assign, e]

theorem tracks_set_option_name {a b : parser V} (h : same_declarations a b) (n : Str) :
    tracks a b (set_option_name n a) (set_option_name n b) := by
  obtain ⟨hnone, hflag, hvalue⟩ := same_declarations_find h n
  cases ha : options_find n a.options with
  | none =>
    rw [set_option_name_undefined n a ha, set_option_name_undefined n b (hnone ha)]
    exact tracks_push_error h _
  | some x =>
    cases x with
    | flag f =>
      obtain ⟨g, hb, hd⟩ := hflag f ha
      rw [set_option_name_flag n a f ha, set_option_name_flag n b g hb,
        ← declared_flag_eq f g hd]
      exact tracks_assign h n _ _ _ ha hb
    | value o =>
      obtain ⟨w, hb, _⟩ := hvalue o ha
      rw [set_option_name_value n a o ha, set_option_name_value n b w hb]
      exact tracks_push_error h _

theorem tracks_set_option_value {a b : parser V} (h : same_declarations a b) (n v : Str) :
    tracks a b (set_option_value n v a) (set_option_value n v b) := by
  obtain ⟨hnone, hflag, hvalue⟩ := same_declarations_find h n
  cases ha : options_find n a.options with
  | none =>
    rw [set_option_value_undefined n v a ha, set_option_value_undefined n v b (hnone ha)]
    exact tracks_push_error h _
  | some x =>
    cases x with
    | flag f =>
      obtain ⟨g, hb, _⟩ := hflag f ha
      rw [set_option_value_flag n v a f ha, set_option_value_flag n v b g hb]
      exact tracks_push_error h _
    | value o =>
      obtain ⟨w, hb, hd⟩ := hvalue o ha
      obtain ⟨hread, hobj⟩ := declared_value_eq o w hd
      cases hr : o.read v with
      | none =>
        rw [set_option_value_rejected n v a o ha hr,
          set_option_value_rejected n v b w hb (by rw [← hread]; exact hr)]
        exact tracks_push_error h _
      | some r =>
        rw [set_option_value_accepted n v a o r ha hr,
          set_option_value_accepted n v b w r hb (by rw [← hread]; exact hr), ← hobj r]
        exact tracks_assign h n _ _ _ ha hb

theorem tracks_short_option {a b : parser V} (h : same_declarations a b)
    (lk : List (Char × Str)) (c : Char) :
    tracks a b (short_option lk c a) (short_option lk c b) := by
  unfold short_option
  cases lookup_find c lk with
  | none => exact tracks_push_error h _
  | some name =>
    by_cases hn : name = []
    · simp only [hn, if_true]
      exact tracks_push_error h _
    · simp only [hn, if_false]
      exact tracks_set_option_name h name

theorem tracks_cluster_loop {a b : parser V} (h : same_declarations a b)
    (lk : List (Char × Str)) (c : Char) (cs : List Char) :
    tracks a b (cluster_loop lk c cs a).2 (cluster_loop lk c cs b).2 := by
  induction cs generalizing c a b with
  | nil => exact tracks_refl h
  | cons x xs ih =>
    have h1 := tracks_short_option h lk c
    exact tracks_trans h1 (ih h1.1 x)

theorem options_has_value_same {a b : parser V} (h : same_declarations a b) (n : Str) :
    options_has_value n a.options = options_has_value n b.options := by
  obtain ⟨hnone, hflag, hvalue⟩ := same_declarations_find h n
  unfold options_has_value
  cases ha : options_find n a.options with
  | none => rw [hnone ha]
  | some x =>
    cases x with
    | flag f => obtain ⟨g, hb, _⟩ := hflag f ha; rw [hb]; rfl
    | value o => obtain ⟨w, hb, _⟩ := hvalue o ha; rw [hb]; rfl

theorem tracks_scan_short {a b : parser V} (h : same_declarations a b)
    (lk : List (Char × Str)) (c : Char) (cs : List Char) (next : Option Str) :
    (scan_short lk c cs next a).1 = (scan_short lk c cs next b).1 ∧
    tracks a b (scan_short lk c cs next a).2 (scan_short lk c cs next b).2 := by
  have h0 := tracks_cluster_loop h lk c cs
  have hl : (cluster_loop lk c cs b).1 = (cluster_loop lk c cs a).1 := by
    rw [cluster_loop_last, cluster_loop_last]
  cases hf : lookup_find (cluster_loop lk c cs a).1 lk with
  | none =>
    rw [scan_short_undefined lk c cs next a hf,
      scan_short_undefined lk c cs next b (by rw [hl]; exact hf), hl]
    exact ⟨rfl, tracks_trans h0 (tracks_push_error h0.1 _)⟩
  | some name =>
    by_cases hn : name = []
    · rw [hn] at hf
      rw [scan_short_ambiguous lk c cs next a hf,
        scan_short_ambiguous lk c cs next b (by rw [hl]; exact hf), hl]
      exact ⟨rfl, tracks_trans h0 (tracks_push_error h0.1 _)⟩
    · cases next with
      | none =>
        rw [scan_short_last lk c cs a name hf hn,
          scan_short_last lk c cs b name (by rw [hl]; exact hf) hn]
        exact ⟨rfl, tracks_trans h0 (tracks_set_option_name h0.1 name)⟩
      | some w =>
        have hv := options_has_value_same h0.1 name
        cases hc : (begins_dash w ||
            !(options_has_value name (cluster_loop lk c cs a).2.options)) with
        | true =>
          rw [scan_short_keep lk c cs w a name hf hn hc,
            scan_short_keep lk c cs w b name (by rw [hl]; exact hf) hn
              (by rw [← hv]; exact hc)]
          exact ⟨rfl, tracks_trans h0 (tracks_set_option_name h0.1 name)⟩
        | false =>
          rw [scan_short_consume lk c cs w a name hf hn hc,
            scan_short_consume lk c cs w b name (by rw [hl]; exact hf) hn
              (by rw [← hv]; exact hc)]
          exact ⟨rfl, tracks_trans h0 (tracks_set_option_value h0.1 name w)⟩

theorem tracks_scan_arg {a b : parser V} (h : same_declarations a b)
    (lk : List (Char × Str)) (arg : Str) (next : Option Str) :
    (scan_arg lk arg next a).1 = (scan_arg lk arg next b).1 ∧
    tracks a b (scan_arg lk arg next a).2 (scan_arg lk arg next b).2 := by
  unfold scan_arg
  cases arg with
  | nil => exact ⟨rfl, tracks_others h []⟩
  | cons c0 r0 =>
    by_cases h0 : c0 = '-'
    · simp only [h0, if_true]
      cases r0 with
      | nil => exact ⟨rfl, tracks_refl h⟩
      | cons c1 r1 =>
        by_cases h1 : c1 = '-'
        · simp only [h1, if_true]
          cases hs : split_eq r1 with
          | mk name val =>
            cases val with
            | none => exact ⟨rfl, tracks_set_option_name h name⟩
            | some v => exact ⟨rfl, tracks_set_option_value h name v⟩
        · simp only [h1, if_false]
          exact tracks_scan_short h lk c1 r1 next
    · simp only [h0, if_false]
      exact ⟨trivial, tracks_others h _⟩

theorem static_set_option_name (n : Str) (p : parser V) :
    static (set_option_name n p) = static p := by
  cases h : options_find n p.options with
  | none => rw [set_option_name_undefined n p h]; rfl
  | some o =>
    cases o with
    | flag f => rw [set_option_name_flag n p f h]; rfl
    | value o => rw [set_option_name_value n p o h]; rfl

theorem static_set_option_value (n v : Str) (p : parser V) :
    static (set_option_value n v p) = static p := by
  cases h : options_find n p.options with
  | none => rw [set_option_value_undefined n v p h]; rfl
  | some o =>
    cases o with
    | flag f => rw [set_option_value_flag n v p f h]; rfl
    | value o =>
      cases hr : o.read v with
      | none => rw [set_option_value_rejected n v p o h hr]; rfl
      | some r => rw [set_option_value_accepted n v p o r h hr]; rfl

theorem static_short_option (lk : List (Char × Str)) (c : Char) (p : parser V) :
    static (short_option lk c p) = static p := by
  unfold short_option
  cases lookup_find c lk with
  | none => rfl
  | some name =>
    by_cases hn : name = []
    · simp only [hn, if_true]; rfl
    · simp only [hn, if_false]; exact static_set_option_name name p

theorem static_cluster_loop (lk : List (Char × Str)) (c : Char) (cs : List Char)
    (p : parser V) : static (cluster_loop lk c cs p).2 = static p := by
  induction cs generalizing c p with
  | nil => rfl
  | cons x xs ih =>
    simp only [cluster_loop]
    rw [ih, static_short_option]

theorem static_scan_short (lk : List (Char × Str)) (c : Char) (cs : List Char)
    (next : Option Str) (p : parser V) :
    static (scan_short lk c cs next p).2 = static p := by
  have h0 := static_cluster_loop lk c cs p
  cases h : lookup_find (cluster_loop lk c cs p).1 lk with
  | none => rw [scan_short_undefined lk c cs next p h]; exact h0
  | some name =>
    by_cases hn : name = []
    · rw [hn] at h
      rw [scan_short_ambiguous lk c cs next p h]; exact h0
    · cases next with
      | none =>
        rw [scan_short_last lk c cs p name h hn]
        exact (static_set_option_name name _).trans h0
      | some w =>
        cases hc : (begins_dash w ||
            !(options_has_value name (cluster_loop lk c cs p).2.options)) with
        | true =>
          rw [scan_short_keep lk c cs w p name h hn hc]
          exact (static_set_option_name name _).trans h0
        | false =>
          rw [scan_short_consume lk c cs w p name h hn hc]
          exact (static_set_option_value name w _).trans h0

theorem static_scan_arg (lk : List (Char × Str)) (arg : Str) (next : Option Str)
    (p : parser V) : static (scan_arg lk arg next p).2 = static p := by
  unfold scan_arg
  cases arg with
  | nil => rfl
  | cons c0 r0 =>
    by_cases h0 : c0 = '-'
    · simp only [h0, if_true]
      cases r0 with
      | nil => rfl
      | cons c1 r1 =>
        by_cases h1 : c1 = '-'
        · simp only [h1, if_true]
          cases hs : split_eq r1 with
          | mk name val =>
            cases val with
            | none => exact static_set_option_name name p
            | some v => exact static_set_option_value name v p
        · simp only [h1, if_false]
          exact static_scan_short lk c1 r1 next p
    · simp only [h0, if_false]
      rfl

theorem static_scan (lk : List (Char × Str)) (args : List Str) (p : parser V) :
    static (scan lk args p) = static p := by
  induction args, p using scan.induct lk with
  | case1 p => rfl
  | case2 arg p => exact static_scan_arg lk arg none p
  | case3 arg w tail p hc ih =>
    rw [scan, if_pos hc, ih]
    exact static_scan_arg lk arg _ p
  | case4 arg w tail p hc ih =>
    rw [scan, if_neg hc, ih]
    exact static_scan_arg lk arg _ p

theorem evolved_declared {x y : option_base V} (h : evolved x y) :
    declared x = declared y := by
  cases x with
  | flag f =>
    cases y with
    | value _ => exact h.elim
    | flag g => rcases h with e | e <;> subst e <;> rfl
  | value o =>
    cases y with
    | flag _ => exact h.elim
    | value w => rcases h with e | ⟨v, e⟩ <;> subst e <;> rfl

/-- Two maps with the same distinct keys and the same object at every key are
the same map. -/
theorem options_ext (a b : List (Str × option_base V)) (hk : keys a = keys b)
    (hu : (keys a).Nodup) (hf : ∀ n, options_find n a = options_find n b) : a = b := by
  induction a generalizing b with
  | nil =>
    cases b with
    | nil => rfl
    | cons y rb => simp [keys] at hk
  | cons x ra ih =>
    obtain ⟨k, o⟩ := x
    cases b with
    | nil => simp [keys] at hk
    | cons y rb =>
      obtain ⟨k2, o2⟩ := y
      simp only [keys_cons, List.cons.injEq] at hk
      obtain ⟨hk1, hk2⟩ := hk
      subst hk1
      have hu2 : k ∉ keys ra ∧ (keys ra).Nodup := by simpa using hu
      have ho : o = o2 := by
        have := hf k
        simpa [options_find] using this
      subst ho
      have htail : ∀ n, options_find n ra = options_find n rb := by
        intro n
        by_cases e : k = n
        · subst e
          have h1 : options_find k ra = none := (options_find_none_iff k ra).2 hu2.1
          have h2 : options_find k rb = none :=
            (options_find_none_iff k rb).2 (by rw [← hk2]; exact hu2.1)
          rw [h1, h2]
        · have := hf n
          simpa [options_find, e] using this
      rw [ih rb hk2 hu2.2 htail]

/-- The lookup depends on the keys and the short names only. -/
theorem build_lookup_congr (a b : List (Str × option_base V)) (acc : List (Char × Str))
    (hk : keys a = keys b) (hu : (keys a).Nodup)
    (hs : ∀ n x, options_find n a = some x →
      ∃ y, options_find n b = some y ∧ y.short_name = x.short_name) :
    build_lookup b acc = build_lookup a acc := by
  induction a generalizing b acc with
  | nil =>
    cases b with
    | nil => rfl
    | cons y rb => simp [keys] at hk
  | cons x ra ih =>
    obtain ⟨k, o⟩ := x
    cases b with
    | nil => simp [keys] at hk
    | cons y rb =>
      obtain ⟨k2, o2⟩ := y
      simp only [keys_cons, List.cons.injEq] at hk
      obtain ⟨hk1, hk2⟩ := hk
      subst hk1
      have hu2 : k ∉ keys ra ∧ (keys ra).Nodup := by simpa using hu
      have ho : o2.short_name = o.short_name := by
        obtain ⟨y, hy, hys⟩ := hs k o (by simp [options_find])
        have : y = o2 := by simpa [options_find] using hy.symm
        rw [← this]; exact hys
      have htail : ∀ n x, options_find n ra = some x →
          ∃ y, options_find n rb = some y ∧ y.short_name = x.short_name := by
        intro n x hx
        have hne : ¬ k = n := by
          intro e
          subst e
          rw [(options_find_none_iff k ra).2 hu2.1] at hx
          cases hx
        obtain ⟨y, hy, hys⟩ := hs n x (by simpa [options_find, hne] using hx)
        exact ⟨y, by simpa [options_find, hne] using hy, hys⟩
      unfold build_lookup
      rw [ho, ih rb acc hk2 hu2.2 htail, ih rb _ hk2 hu2.2 htail]

/-- A second scan of the same arguments, from a parser whose every option is
as the first scan found it or as the first scan leaves it, ends with the
options that the first scan leaves. -/
theorem scan_rerun (lk : List (Char × Str)) (args : List Str) (a : parser V) :
    ∀ b : parser V, same_declarations a b →
      (∀ m, options_find m b.options = options_find m a.options ∨
        options_find m b.options = options_find m (scan lk args a).options) →
      same_declarations (scan lk args a) (scan lk args b) ∧
      ∀ m, options_find m (scan lk args b).options =
        options_find m (scan lk args a).options := by
  induction args, a using scan.induct lk with
  | case1 a =>
    intro b h hm
    exact ⟨h, fun m => (hm m).elim id id⟩
  | case2 arg a =>
    intro b h hm
    obtain ⟨_, ht, hx⟩ := tracks_scan_arg h lk arg none
    refine ⟨ht, fun m => ?_⟩
    rcases hx m with e | ⟨e1, e2⟩
    · exact e
    · rcases hm m with e3 | e3
      · show options_find m (scan_arg lk arg none b).2.options =
          options_find m (scan_arg lk arg none a).2.options
        rw [e1, e2, e3]
      · show options_find m (scan_arg lk arg none b).2.options =
          options_find m (scan_arg lk arg none a).2.options
        rw [e1, e3]; rfl
  | case3 arg w tail a hc ih =>
    intro b h hm
    obtain ⟨h1, ht, hx⟩ := tracks_scan_arg h lk arg (some w)
    have hcb : (scan_arg lk arg (some w) b).1 = true := by rw [← h1]; exact hc
    have ea : scan lk (arg :: w :: tail) a = scan lk tail (scan_arg lk arg (some w) a).2 := by
      rw [scan, if_pos hc]
    have eb : scan lk (arg :: w :: tail) b = scan lk tail (scan_arg lk arg (some w) b).2 := by
      rw [scan, if_pos hcb]
    rw [ea, eb]
    apply ih _ ht
    intro m
    rcases hx m with e | ⟨e1, e2⟩
    · exact Or.inl e
    · rcases hm m with e3 | e3
      · left; rw [e1, e2, e3]
      · right; rw [e1, e3, ea]
  | case4 arg w tail a hc ih =>
    intro b h hm
    obtain ⟨h1, ht, hx⟩ := tracks_scan_arg h lk arg (some w)
    have hcb : ¬ (scan_arg lk arg (some w) b).1 = true := by rw [← h1]; exact hc
    have ea : scan lk (arg :: w :: tail) a =
        scan lk (w :: tail) (scan_arg lk arg (some w) a).2 := by
      rw [scan, if_neg hc]
    have eb : scan lk (arg :: w :: tail) b =
        scan lk (w :: tail) (scan_arg lk arg (some w) b).2 := by
      rw [scan, if_neg hcb]
    rw [ea, eb]
    apply ih _ ht
    intro m
    rcases hx m with e | ⟨e1, e2⟩
    · exact Or.inl e
    · rcases hm m with e3 | e3
      · left; rw [e1, e2, e3]
      · right; rw [e1, e3, ea]

theorem parser_ext (a b : parser V) (h1 : static a = static b)
    (h2 : a.others = b.others) (h3 : a.errors = b.errors) (h4 : a.options = b.options) :
    a = b := by
  cases a; cases b
  simp only [static, Prod.mk.injEq] at h1
  simp only at h2 h3 h4
  simp [h1.1, h1.2.1, h1.2.2, h2, h3, h4]

/-- The scan of the arguments from the parser that `parse` left, started
again, ends where the first scan ended. -/
theorem scan_again (p : parser V) (lk : List (Char × Str)) (prog : Str)
    (args : List Str) (hu : (keys p.options).Nodup) :
    scan lk args (start (validate (scan lk args (start p prog))) prog) =
      scan lk args (start p prog) := by
  have hst := steps_scan lk args (start p prog)
  have hstat := static_scan lk args (start p prog)
  have hsame : same_declarations (start p prog)
      (start (validate (scan lk args (start p prog))) prog) := by
    refine ⟨?_, rfl, rfl, hst.1.symm, ?_⟩
    · simp only [static, Prod.mk.injEq] at hstat
      simp only [static, start, clear, validate, Prod.mk.injEq]
      exact ⟨hstat.1.symm, hstat.2.1.symm, trivial⟩
    · intro n
      show (options_find n p.options).map declared =
        (options_find n (scan lk args (start p prog)).options).map declared
      cases hp : options_find n p.options with
      | none =>
        have : options_find n (scan lk args (start p prog)).options = none := by
          rw [options_find_none_iff, hst.1, ← options_find_none_iff]; exact hp
        rw [this]
      | some x =>
        obtain ⟨y, hy, ey⟩ := hst.2.2.2 n x hp
        rw [hy]
        simp [evolved_declared ey]
  obtain ⟨hsd, hfind⟩ := scan_rerun lk args (start p prog) _ hsame (fun m => Or.inr rfl)
  have hopt := options_ext _ _ hsd.2.2.2.1 (by rw [hst.1]; exact hu) (fun n => (hfind n).symm)
  exact (parser_ext _ _ hsd.1 hsd.2.1 hsd.2.2.1 hopt).symm

end twice

/-- C15: `parse` called again with the same argument list on the parser that the
first call left returns the same value and leaves the same parser: the same
error list, the same `rest()`, and the same value and has-set flag for every
option. -/
theorem parse_twice {V : Type} (p : parser V) (argv : List Str)
    (hu : (keys p.options).Nodup) :
    parse (parse p argv).2 argv = parse p argv := by
  cases argv with
  | nil => rfl
  | cons prog args =>
    cases hlk : build_lookup p.options [] with
    | error c =>
      rw [parse_of_clash p prog args c hlk]
      exact parse_of_clash (push_error (start p prog) (ambiguous_message c)) prog args c hlk
    | ok lk =>
      rw [parse_of_lookup p prog args lk hlk]
      have hst := steps_scan lk args (start p prog)
      have hlk2 : build_lookup (validate (scan lk args (start p prog))).options [] = .ok lk := by
        rw [← hlk]
        apply build_lookup_congr p.options _ [] hst.1.symm hu
        intro n x hx
        obtain ⟨y, hy, ey⟩ := hst.2.2.2 n x hx
        exact ⟨y, hy, evolved_short_name ey⟩
      rw [parse_of_lookup _ prog args lk hlk2, scan_again p lk prog args hu]

/-- C15 at the registry `sample`: the arguments `-v -o out.txt --count=x` twice. -/
theorem parse_twice_witness :
    parse (parse sample ["prog".toList, "-v".toList, "-o".toList, "out.txt".toList,
        "--count=x".toList]).2
      ["prog".toList, "-v".toList, "-o".toList, "out.txt".toList, "--count=x".toList] =
    parse sample ["prog".toList, "-v".toList, "-o".toList, "out.txt".toList,
      "--count=x".toList] :=
  parse_twice sample ["prog".toList, "-v".toList, "-o".toList, "out.txt".toList,
    "--count=x".toList] (by decide)

/-! ## An argument taken out of the list -/

section absent

variable {V : Type}

/-- A step that does not consume the next argument does not look at it. -/
theorem scan_arg_not_consumed (lk : List (Char × Str)) (arg w : Str) (q : parser V)
    (h : (scan_arg lk arg (some w) q).1 = false) :
    scan_arg lk arg (some w) q = scan_arg lk arg none q := by
  cases arg with
  | nil => rfl
  | cons c0 r0 =>
    by_cases h0 : c0 = '-'
    · subst h0
      cases r0 with
      | nil => simp [scan_arg]
      | cons c1 r1 =>
        by_cases h1 : c1 = '-'
        · subst h1
          simp [scan_arg]
        · rw [scan_arg_cluster lk c1 r1 _ q h1] at h ⊢
          rw [scan_arg_cluster lk c1 r1 _ q h1]
          cases hl : lookup_find (cluster_loop lk c1 r1 q).1 lk with
          | none =>
            rw [scan_short_undefined lk c1 r1 _ q hl, scan_short_undefined lk c1 r1 _ q hl]
          | some name =>
            by_cases hn : name = []
            · rw [hn] at hl
              rw [scan_short_ambiguous lk c1 r1 _ q hl, scan_short_ambiguous lk c1 r1 _ q hl]
            · cases hc : (begins_dash w ||
                  !(options_has_value name (cluster_loop lk c1 r1 q).2.options)) with
              | true =>
                rw [scan_short_keep lk c1 r1 w q name hl hn hc,
                  scan_short_last lk c1 r1 q name hl hn]
              | false =>
                rw [scan_short_consume lk c1 r1 w q name hl hn hc] at h
                cases h
    · simp [scan_arg, h0]

/-- The scan of two lists of arguments one after the other is the scan of the
second from where the scan of the first ends, unless the first ends with a
cluster that takes a value and the second begins with an argument that does
not begin with `-`. -/
theorem scan_append_of (p0 : parser V) (lk : List (Char × Str))
    (hu : (keys p0.options).Nodup) (hlk : build_lookup p0.options [] = .ok lk)
    (pre post : List Str) (q : parser V) (hst : steps p0 q)
    (hc : ∀ x, pre.getLast? = some x → takes_value p0.options x = true →
      ∀ w tail, post = w :: tail → begins_dash w = true) :
    scan lk (pre ++ post) q = scan lk post (scan lk pre q) := by
  revert hst hc
  induction pre, q using scan.induct lk with
  | case1 q => intro _ _; rfl
  | case2 arg q =>
    intro hst hc
    cases post with
    | nil => rfl
    | cons w tail =>
      cases hw : begins_dash w with
      | true =>
        exact scan_cons_boundary lk arg (w :: tail) q (fun w2 t2 e => by cases e; exact hw)
      | false =>
        have htv : takes_value p0.options arg = false := by
          cases ht : takes_value p0.options arg
          · rfl
          · have := hc arg rfl ht w tail rfl
            rw [hw] at this; cases this
        have hcons := scan_arg_consumed p0 q lk hu hlk hst arg (some w)
        rw [htv] at hcons
        simp only [Bool.false_and] at hcons
        show scan lk (arg :: w :: tail) q = scan lk (w :: tail) (scan_arg lk arg none q).2
        rw [scan_cons lk arg (w :: tail) q]
        simp only [List.head?_cons, hcons, Bool.false_eq_true, if_false]
        rw [scan_arg_not_consumed lk arg w q hcons]
  | case3 arg w tail q hcs ih =>
    intro hst hc
    have e : (arg :: w :: tail) ++ post = arg :: w :: (tail ++ post) := rfl
    rw [e, scan, if_pos hcs, scan, if_pos hcs]
    apply ih (steps_trans hst (steps_scan_arg lk arg (some w) q))
    intro x hx
    cases tail with
    | nil => simp at hx
    | cons t ts =>
      apply hc x
      rw [List.getLast?_cons_cons, List.getLast?_cons_cons]
      exact hx
  | case4 arg w tail q hcs ih =>
    intro hst hc
    have e : (arg :: w :: tail) ++ post = arg :: ((w :: tail) ++ post) := rfl
    have e2 : (w :: tail) ++ post = w :: (tail ++ post) := rfl
    rw [e, e2, scan, if_neg hcs, ← e2]
    conv_rhs => rw [scan, if_neg hcs]
    apply ih (steps_trans hst (steps_scan_arg lk arg (some w) q))
    intro x hx
    apply hc x
    rw [List.getLast?_cons_cons]
    exact hx

end absent

/-- C9, as stated, fails: in the registry `sample`, where `bogus` is not
declared, the argument `out.txt` after `-o --bogus` is positional and
`--output` is not set, while after `-o`, with `--bogus` absent, it is the value
of `--output`. -/
theorem undefined_option_takes_the_place :
    options_find "bogus".toList sample.options = none ∧
    rest (parse sample ["prog".toList, "-o".toList, "--bogus".toList,
      "out.txt".toList]).2 = ["out.txt".toList] ∧
    exist (parse sample ["prog".toList, "-o".toList, "--bogus".toList,
      "out.txt".toList]).2 "output".toList = .ok false ∧
    rest (parse sample ["prog".toList, "-o".toList, "out.txt".toList]).2 = [] ∧
    exist (parse sample ["prog".toList, "-o".toList, "out.txt".toList]).2
      "output".toList = .ok true :=
  ⟨rfl, rfl, rfl, rfl, rfl⟩

/-- C9, amended: for a name `X` without `=` that is not declared, the argument
`--X` or `--X=v`, wherever it stands, adds the one error
`undefined option: --X`, which ends with `X`, to the state that the scan of the
arguments before it reaches, changes no option, and the scan goes on with the
arguments after it, which are handled as from the state without the error. In
a registry without a shared short name, unless the argument directly before it
is a cluster whose last character resolves to a value option and the argument
directly after it does not begin with `-`, `parse` leaves what it leaves with
the argument absent: the same options, the same `rest()`, and the same errors
with the one error added at its place. -/
theorem undefined_long_option {V : Type} (p : parser V) (lk : List (Char × Str))
    (X v : Str) (pre post : List Str)
    (hX : options_find X p.options = none) (heq : '=' ∉ X) :
    scan lk (pre ++ ("--".toList ++ X) :: post) p =
      scan lk post (push_error (scan lk pre p) ("undefined option: --".toList ++ X)) ∧
    scan lk (pre ++ ("--".toList ++ X ++ "=".toList ++ v) :: post) p =
      scan lk post (push_error (scan lk pre p) ("undefined option: --".toList ++ X)) ∧
    X <:+ "undefined option: --".toList ++ X ∧
    (push_error (scan lk pre p) ("undefined option: --".toList ++ X)).options =
      (scan lk pre p).options ∧
    (scan lk post (push_error (scan lk pre p) ("undefined option: --".toList ++ X))).options =
      (scan lk post (scan lk pre p)).options ∧
    (scan lk post (push_error (scan lk pre p) ("undefined option: --".toList ++ X))).others =
      (scan lk post (scan lk pre p)).others ∧
    (∃ es, (scan lk post (scan lk pre p)).errors = (scan lk pre p).errors ++ es ∧
      (scan lk post (push_error (scan lk pre p) ("undefined option: --".toList ++ X))).errors =
        (scan lk pre p).errors ++ ["undefined option: --".toList ++ X] ++ es) ∧
    (∀ prog, build_lookup p.options [] = .ok lk →
      (parse p (prog :: (pre ++ ("--".toList ++ X) :: post))).2 =
        validate (scan lk post (push_error (scan lk pre (start p prog))
          ("undefined option: --".toList ++ X))) ∧
      (parse p (prog :: (pre ++ ("--".toList ++ X ++ "=".toList ++ v) :: post))).2 =
        validate (scan lk post (push_error (scan lk pre (start p prog))
          ("undefined option: --".toList ++ X)))) ∧
    (∀ prog arg, (keys p.options).Nodup → build_lookup p.options [] = .ok lk →
      (arg = "--".toList ++ X ∨ arg = "--".toList ++ X ++ "=".toList ++ v) →
      (∀ x, pre.getLast? = some x → takes_value p.options x = true →
        ∀ w tail, post = w :: tail → begins_dash w = true) →
      (parse p (prog :: (pre ++ arg :: post))).2.options =
        (parse p (prog :: (pre ++ post))).2.options ∧
      rest (parse p (prog :: (pre ++ arg :: post))).2 =
        rest (parse p (prog :: (pre ++ post))).2 ∧
      ∃ es1 es2, (parse p (prog :: (pre ++ post))).2.errors = es1 ++ es2 ∧
        (parse p (prog :: (pre ++ arg :: post))).2.errors =
          es1 ++ ["undefined option: --".toList ++ X] ++ es2) := by
  have core : ∀ q : parser V, options_find X q.options = none →
      scan lk (pre ++ ("--".toList ++ X) :: post) q =
        scan lk post (push_error (scan lk pre q) ("undefined option: --".toList ++ X)) ∧
      scan lk (pre ++ ("--".toList ++ X ++ "=".toList ++ v) :: post) q =
        scan lk post (push_error (scan lk pre q) ("undefined option: --".toList ++ X)) := by
    intro q hq
    have hq2 : options_find X (scan lk pre q).options = none := by
      rw [options_find_none_iff, (steps_scan lk pre q).1, ← options_find_none_iff]
      exact hq
    constructor
    · rw [scan_append_dash lk pre _ post q (by simp [begins_dash]), scan_cons,
        scan_arg_long_plain lk X _ _ heq, set_option_name_undefined X _ hq2]
      simp
    · rw [scan_append_dash lk pre _ post q (by simp [begins_dash]), scan_cons,
        scan_arg_long_value lk X v _ _ heq, set_option_value_undefined X v _ hq2]
      simp
  obtain ⟨h1, h2, h3⟩ := scan_push_error lk post ("undefined option: --".toList ++ X)
    (scan lk pre p)
  refine ⟨(core p hX).1, (core p hX).2, List.suffix_append _ _, rfl, h1, h2, h3, ?_, ?_⟩
  · intro prog hlk
    rw [parse_of_lookup p prog _ lk hlk, parse_of_lookup p prog _ lk hlk,
      (core (start p prog) hX).1, (core (start p prog) hX).2]
    exact ⟨rfl, rfl⟩
  · intro prog arg hu hlk harg hcond
    have hwith : (parse p (prog :: (pre ++ arg :: post))).2 =
        validate (scan lk post (push_error (scan lk pre (start p prog))
          ("undefined option: --".toList ++ X))) := by
      rw [parse_of_lookup p prog _ lk hlk]
      rcases harg with e | e
      · rw [e, (core (start p prog) hX).1]
      · rw [e, (core (start p prog) hX).2]
    have hwithout : (parse p (prog :: (pre ++ post))).2 =
        validate (scan lk post (scan lk pre (start p prog))) := by
      rw [parse_of_lookup p prog _ lk hlk,
        scan_append_of (start p prog) lk hu hlk pre post (start p prog) (steps_refl _) hcond]
    obtain ⟨g1, g2, es, g3, g4⟩ := scan_push_error lk post
      ("undefined option: --".toList ++ X) (scan lk pre (start p prog))
    rw [hwith, hwithout]
    refine ⟨g1, g2, (scan lk pre (start p prog)).errors,
      es ++ need_errors (scan lk post (scan lk pre (start p prog))).options, ?_, ?_⟩
    · rw [validate_errors, g3, List.append_assoc]
    · rw [validate_errors, g4, g1]
      simp only [List.append_assoc]

/-- C9, amended, at the registry `sample`: `--bogus` between `-v` and `extra`. -/
theorem undefined_long_option_witness :
    (parse sample ["prog".toList, "-v".toList, "--bogus".toList, "extra".toList]).2 =
      validate (scan sample_lookup ["extra".toList]
        (push_error (scan sample_lookup ["-v".toList] (start sample "prog".toList))
          ("undefined option: --".toList ++ "bogus".toList))) :=
  ((undefined_long_option sample sample_lookup "bogus".toList [] ["-v".toList]
    ["extra".toList] rfl (by decide)).2.2.2.2.2.2.2.1 "prog".toList rfl).1

/-! ## The values handed to an option -/

section handed

variable {V : Type}

theorem set_option_name_kept (n N : Str) (p : parser V) (o : option_with_value V)
    (h : options_find N p.options = some (.value o)) :
    options_find N (set_option_name n p).options = some (.value o) := by
  by_cases e : n = N
  · subst e
    rw [set_option_name_value n p o h]
    exact h
  · rw [set_option_name_other n N p e]
    exact h

theorem set_option_value_kept (n v N : Str) (p : parser V) (o : option_with_value V)
    (h : options_find N p.options = some (.value o)) (hr : n = N → o.read v = none) :
    options_find N (set_option_value n v p).options = some (.value o) := by
  by_cases e : n = N
  · subst e
    rw [set_option_value_rejected n v p o h (hr rfl)]
    exact h
  · rw [set_option_value_other n v N p e]
    exact h

/-- One step of the scan leaves a value option as it is when its reader rejects
what the step hands to it. -/
theorem scan_arg_kept (lk : List (Char × Str)) (arg : Str) (next : Option Str) (N : Str)
    (o : option_with_value V) (q : parser V)
    (hN : ∀ ch, lookup_find ch lk = some N →
      N ≠ [] ∧ o.snam ≠ Char.ofNat 0 ∧ ch = o.snam)
    (hq : options_find N q.options = some (.value o))
    (hlong : ∀ v, long_value N arg = some v → o.read v = none)
    (hcons : ∀ w, next = some w → begins_dash w = false →
      cluster_for N o.snam arg = true → o.read w = none) :
    options_find N (scan_arg lk arg next q).2.options = some (.value o) := by
  cases arg with
  | nil => exact hq
  | cons c0 r0 =>
    by_cases h0 : c0 = '-'
    · subst h0
      cases r0 with
      | nil => simpa [scan_arg] using hq
      | cons c1 r1 =>
        by_cases h1 : c1 = '-'
        · subst h1
          unfold scan_arg
          simp only [if_true]
          cases hs : split_eq r1 with
          | mk name val =>
            cases val with
            | none => exact set_option_name_kept name N q o hq
            | some v =>
              apply set_option_value_kept name v N q o hq
              intro e
              apply hlong
              simp [long_value, hs, e]
        · rw [scan_arg_cluster lk c1 r1 next q h1]
          have h0 := cluster_loop_value_kept lk c1 r1 q N o hq
          cases hl : lookup_find (cluster_loop lk c1 r1 q).1 lk with
          | none => rw [scan_short_undefined lk c1 r1 next q hl]; exact h0
          | some name =>
            by_cases hn : name = []
            · rw [hn] at hl
              rw [scan_short_ambiguous lk c1 r1 next q hl]; exact h0
            · cases next with
              | none =>
                rw [scan_short_last lk c1 r1 q name hl hn]
                exact set_option_name_kept name N _ o h0
              | some w =>
                cases hc : (begins_dash w ||
                    !(options_has_value name (cluster_loop lk c1 r1 q).2.options)) with
                | true =>
                  rw [scan_short_keep lk c1 r1 w q name hl hn hc]
                  exact set_option_name_kept name N _ o h0
                | false =>
                  rw [scan_short_consume lk c1 r1 w q name hl hn hc]
                  apply set_option_value_kept name w N _ o h0
                  intro e
                  subst e
                  have hw : begins_dash w = false := by
                    cases hb : begins_dash w
                    · rfl
                    · rw [hb] at hc; simp at hc
                  obtain ⟨g1, g2, g3⟩ := hN _ hl
                  rw [cluster_loop_last] at g3
                  apply hcons w rfl hw
                  have g1b : name.isEmpty = false := by
                    cases name with
                    | nil => exact (g1 rfl).elim
                    | cons _ _ => rfl
                  show (decide ('-' = '-') && !decide (c1 = '-') && !List.isEmpty name &&
                    !decide (o.snam = Char.ofNat 0) && decide (r1.getLastD c1 = o.snam)) = true
                  rw [g3]
                  simp [h1, g1b, g2]
    · simpa [scan_arg, h0] using hq

theorem supplied_none (N : Str) (c : Char) (prev : Option Str) (l : List Str) (v : Str)
    (h : v ∈ supplied N c none l) : v ∈ supplied N c prev l := by
  cases l with
  | nil => exact h
  | cons a as =>
    simp only [supplied, Bool.and_false, Bool.false_eq_true, if_false, List.append_nil,
      List.mem_append] at h ⊢
    rcases h with h | h
    · exact Or.inl (Or.inl h)
    · exact Or.inr h

/-- The scan leaves a value option as it is when its reader rejects every value
that the arguments supply for it. -/
theorem scan_kept (lk : List (Char × Str)) (args : List Str) (N : Str)
    (o : option_with_value V) (q : parser V)
    (hN : ∀ ch, lookup_find ch lk = some N →
      N ≠ [] ∧ o.snam ≠ Char.ofNat 0 ∧ ch = o.snam)
    (hq : options_find N q.options = some (.value o))
    (hs : ∀ v ∈ supplied N o.snam none args, o.read v = none) :
    options_find N (scan lk args q).options = some (.value o) := by
  revert hq hs
  induction args, q using scan.induct lk with
  | case1 q => intro hq _; exact hq
  | case2 arg q =>
    intro hq hs
    apply scan_arg_kept lk arg none N o q hN hq
    · intro v hv
      apply hs
      simp [supplied, hv]
    · intro w hw; cases hw
  | case3 arg w tail q hc ih =>
    intro hq hs
    rw [scan, if_pos hc]
    apply ih
    · apply scan_arg_kept lk arg (some w) N o q hN hq
      · intro v hv
        apply hs
        simp [supplied, hv]
      · intro w2 e hw hcl
        cases e
        apply hs
        simp [supplied, hw, hcl]
    · intro v hv
      apply hs
      have := supplied_none N o.snam (some w) tail v hv
      simp only [supplied, List.mem_append]
      exact Or.inr (Or.inr this)
  | case4 arg w tail q hc ih =>
    intro hq hs
    rw [scan, if_neg hc]
    apply ih
    · apply scan_arg_kept lk arg (some w) N o q hN hq
      · intro v hv
        apply hs
        simp [supplied, hv]
      · intro w2 e hw hcl
        cases e
        apply hs
        simp [supplied, hw, hcl]
    · intro v hv
      apply hs
      have := supplied_none N o.snam (some arg) (w :: tail) v hv
      simp only [supplied, List.mem_append] at this ⊢
      exact Or.inr this

end handed

/-- C5, amended: in a registry without a shared short name, for a required
value option `N` that is freshly built (not set, its value the default `D`)
and arguments in which no argument successfully supplies a value for `N` (the
reader of `N` rejects the `v` of every argument `--N=v` and every argument that
does not begin with `-` and directly follows a cluster whose last character is
the short name of `N`), `parse` returns false, the error list holds the entry
`need option: --N` exactly once, `exist(N)` is false and `get(N)` is `D`. -/
theorem required_option_missing {V : Type} (p : parser V) (lk : List (Char × Str))
    (prog : Str) (args : List Str) (N : Str) (o : option_with_value V)
    (hu : (keys p.options).Nodup)
    (hlk : build_lookup p.options [] = .ok lk)
    (hf : options_find N p.options = some (.value o))
    (hneed : o.need = true) (hfresh : o.has = false ∧ o.actual = o.dflt)
    (hsup : ∀ v ∈ supplied N o.snam none args, o.read v = none) :
    (parse p (prog :: args)).1 = false ∧
    (parse p (prog :: args)).2.errors.count ("need option: --".toList ++ N) = 1 ∧
    exist (parse p (prog :: args)).2 N = .ok false ∧
    get (parse p (prog :: args)).2 o.ty N = .ok o.dflt ∧
    options_find N (parse p (prog :: args)).2.options = some (.value o) := by
  have hN : ∀ ch, lookup_find ch lk = some N →
      N ≠ [] ∧ o.snam ≠ Char.ofNat 0 ∧ ch = o.snam := by
    intro ch hl
    rcases lookup_sound p.options [] lk hlk ch N hl with h | ⟨o2, hmem, hne, hs, h0⟩
    · simp [lookup_find] at h
    · have := options_find_of_mem N o2 p.options hu hmem
      rw [hf] at this
      cases this
      have hs2 : o.snam = ch := hs
      exact ⟨hne, hs2 ▸ h0, hs2.symm⟩
  have hx : options_find N (scan lk args (start p prog)).options = some (.value o) :=
    scan_kept lk args N o (start p prog) hN hf hsup
  obtain ⟨hk, ⟨es, hes, hesn⟩, _, _⟩ := steps_scan lk args (start p prog)
  have hinv : (option_base.value o).valid = false := by
    simp [option_base.valid, hneed, hfresh.1]
  have hcount : ((validate (scan lk args (start p prog))).errors).count
      ("need option: --".toList ++ N) = 1 := by
    rw [validate_errors, List.count_append,
      need_errors_count _ N _ (by rw [hk]; exact hu) hx hinv, hes]
    have : (([] : List Str) ++ es).count ("need option: --".toList ++ N) = 0 := by
      rw [List.count_eq_zero]
      intro hm
      exact hesn _ (by simpa using hm) (by simp)
    simpa using this
  rw [parse_of_lookup p prog args lk hlk]
  refine ⟨?_, hcount, ?_, ?_, hx⟩
  · have : (validate (scan lk args (start p prog))).errors ≠ [] := by
      intro e
      rw [e] at hcount
      simp at hcount
    simpa using this
  · simp [exist, hx, option_base.has_set, hfresh.1]
  · simp [get, hx, hfresh.2]

/-- C5, amended, at the registry `needs_port` (a required `--port` in 1..65535): the
reader of `--port` rejects the `0` of `--port=0` and the `70000` after `-p`. -/
theorem required_option_missing_witness :
    (parse (needs_port) ["prog".toList, "--port=0".toList, "-p".toList,
      "70000".toList]).1 = false ∧
    (parse (needs_port) ["prog".toList, "--port=0".toList, "-p".toList,
      "70000".toList]).2.errors.count ("need option: --".toList ++ "port".toList) = 1 ∧
    exist (parse (needs_port) ["prog".toList, "--port=0".toList, "-p".toList,
      "70000".toList]).2 "port".toList = .ok false ∧
    get (parse (needs_port) ["prog".toList, "--port=0".toList, "-p".toList,
      "70000".toList]).2 "int".toList "port".toList = .ok 80 :=
  have h := required_option_missing needs_port [('p', "port".toList)] "prog".toList
    ["--port=0".toList, "-p".toList, "70000".toList] "port".toList
    { ty := "int".toList, nam := "port".toList, snam := 'p', need := true,
      desc := "(int)".toList, has := false,
      dflt := 80, actual := 80, read := range read_int 1 65535 }
    (by decide) rfl rfl rfl ⟨rfl, rfl⟩
    (by
      intro v hv
      have hv2 : v ∈ ["0".toList, "70000".toList] := hv
      simp only [List.mem_cons, List.mem_singleton, List.not_mem_nil, or_false] at hv2
      rcases hv2 with e | e <;> subst e <;> rfl)
  ⟨h.1, h.2.1, h.2.2.1, h.2.2.2.1⟩

end cmdline
